import Mathlib

/-!
# Verification of the JSON deduplication core (`src/parser/json-dedup.ts`)

This file gives a shallow embedding of the JSON-deduplication module and proves
the specified properties about it.  JavaScript values in the tree-shaped domain
handled by the module are embedded as the inductive type `Value`; the functions
of the module (`computeHash`, `deepEqual`, `traverse`, `analyzeDependencies`,
`topologicalSort`, `assignRefNames`, `serializeValue`, `generateCode`,
`deduplicateJSON`, `getDeduplicationStats`) are translated one by one.

Modelling conventions, fixed once here:

* JS `Map` objects (which iterate in insertion order) become association lists
  `List (String × _)` with lookup = first match and insertion = append.
* JS `WeakMap`/`WeakSet` keyed by object identity become structural association
  lists / membership tests: inputs are trees, where every subvalue occurrence
  is a distinct JS object, so an identity key never aliases two occurrences,
  and the identity check `a === b` only ever succeeds where structural
  equality holds.  Consequently the `visited` identity set of the traversal
  (which can only fire on aliased or cyclic object graphs, unrepresentable in
  a tree) is dropped.
* JS numbers restricted to integers are embedded as `Int` (the claims under
  verification do not depend on non-integral numbers); 32-bit coercions done
  by JS bitwise operators are modelled explicitly (`toUint32`, `toInt32`).
* `typeof`-based out-of-domain values (functions, symbols, bigints) are
  embedded as the constructor `Value.vother tag` carrying their `typeof` tag.
* String rendering of numbers (JS template literals / `String(n)`) is modelled
  by an explicit decimal printer `decStr` / `intStr`; `n.toString(36)` by
  `natToBaseStr 36`.  `charCodeAt` is modelled by the character's code point
  (identical up to the Basic Multilingual Plane, which the hash treats
  uniformly anyway).
* Object keys iterate in field order of the embedded list (JS insertion order;
  the JS reordering of integer-like keys is not modelled — no claim depends
  on it) and object key sets are assumed duplicate-free (`wfV`), which is an
  invariant of every JS object.
-/

namespace JsonDedup

/-! ## JS 32-bit integer arithmetic -/

/-- `ToUint32` of an (exact-integer) JS number. -/
def toUint32 (n : Int) : Nat := (n.emod 4294967296).toNat

/-- `ToInt32` of an (exact-integer) JS number. -/
def toInt32 (n : Int) : Int :=
  let u := toUint32 n
  if u < 2147483648 then (u : Int) else (u : Int) - 4294967296

/-- JS `a ^ b` (bitwise xor of 32-bit patterns, signed result). -/
def jsXor (a b : Int) : Int := toInt32 (Int.ofNat (Nat.xor (toUint32 a) (toUint32 b)))

/-- JS `a << k` (32-bit left shift, signed result). -/
def jsShl (a : Int) (k : Nat) : Int := toInt32 (Int.ofNat (toUint32 a * 2 ^ k))

/-! ## Digit printers (JS number-to-string conversions) -/

/-- Digit characters `0-9a-z` used by JS `Number.prototype.toString(base)`. -/
def digitCh (d : Nat) : Char :=
  if d < 10 then Char.ofNat (48 + d) else Char.ofNat (87 + d)

/-- Fuel-driven digit accumulation, most significant digit first. -/
def natDigitsGo (b : Nat) : Nat → Nat → List Char → List Char
  | 0, _, acc => acc
  | fuel + 1, n, acc =>
    if n < b then digitCh n :: acc
    else natDigitsGo b fuel (n / b) (digitCh (n % b) :: acc)

/-- `n.toString(b)` for a natural number (JS positional rendering). -/
def natToBaseStr (b n : Nat) : String := String.mk (natDigitsGo b (n + 1) n [])

/-- Decimal rendering of a natural number, JS `${n}`. -/
def decStr (n : Nat) : String := natToBaseStr 10 n

/-- Decimal rendering of an integral JS number, JS `String(n)`. -/
def intStr (n : Int) : String :=
  if n < 0 then "-" ++ decStr n.natAbs else decStr n.toNat

/-! ## Generic association-list helpers (JS `Map` with insertion order) -/

/-- First-match lookup in an association list (JS `Map.get` / property read). -/
def lookupStr {α : Type} : String → List (String × α) → Option α
  | _, [] => none
  | k, (k₁, v) :: rest => if k = k₁ then some v else lookupStr k rest

/-- Key-membership in an association list (JS `Map.has` / `Set.has`). -/
def hasKey {α : Type} (k : String) (m : List (String × α)) : Bool :=
  (lookupStr k m).isSome

/-- Pointwise update of the entry at a key (JS mutation of a `Map` value). -/
def updateAt {α : Type} (k : String) (f : α → α) : List (String × α) → List (String × α)
  | [] => []
  | (k₁, v) :: rest => if k = k₁ then (k₁, f v) :: rest else (k₁, v) :: updateAt k f rest

/-! ## The value domain -/

/-- Tree-shaped JS values reachable by the deduplicator, plus `vother` for
`typeof` classes outside the documented domain (function, symbol, bigint). -/
inductive Value where
  | vnull
  | vundef
  | vbool (b : Bool)
  | vnum (n : Int)
  | vstr (s : String)
  | varr (elems : List Value)
  | vobj (fields : List (String × Value))
  | vother (tag : String)

mutual
/-- Structural (syntactic) equality test on values. -/
def beqV : Value → Value → Bool
  | .vnull, .vnull => true
  | .vundef, .vundef => true
  | .vbool a, .vbool b => a == b
  | .vnum a, .vnum b => a == b
  | .vstr a, .vstr b => a == b
  | .varr xs, .varr ys => beqVL xs ys
  | .vobj fs, .vobj gs => beqVF fs gs
  | .vother a, .vother b => a == b
  | _, _ => false
termination_by structural a _ => a

def beqVL : List Value → List Value → Bool
  | [], [] => true
  | x :: xs, y :: ys => beqV x y && beqVL xs ys
  | _, _ => false
termination_by structural xs _ => xs

def beqVF : List (String × Value) → List (String × Value) → Bool
  | [], [] => true
  | (k, v) :: fs, (k₁, w) :: gs => k == k₁ && beqV v w && beqVF fs gs
  | _, _ => false
termination_by structural fs _ => fs
end

instance : BEq Value := ⟨beqV⟩

mutual
/-- Number of nodes of a value (proof measure only). -/
def sizeV : Value → Nat
  | .varr xs => 1 + sizeVL xs
  | .vobj fs => 1 + sizeVF fs
  | _ => 1
termination_by structural v => v

def sizeVL : List Value → Nat
  | [] => 0
  | x :: xs => sizeV x + sizeVL xs
termination_by structural xs => xs

def sizeVF : List (String × Value) → Nat
  | [] => 0
  | (_, v) :: fs => sizeV v + sizeVF fs
termination_by structural fs => fs
end

mutual
/-- Well-formedness: every object has duplicate-free keys (true of every JS
object, hence of every value the module can actually receive). -/
def wfV : Value → Bool
  | .varr xs => wfVL xs
  | .vobj fs => ((fs.map Prod.fst).Nodup : Bool) && wfVF fs
  | _ => true
termination_by structural v => v

def wfVL : List Value → Bool
  | [] => true
  | x :: xs => wfV x && wfVL xs
termination_by structural xs => xs

def wfVF : List (String × Value) → Bool
  | [] => true
  | (_, v) :: fs => wfV v && wfVF fs
termination_by structural fs => fs
end

mutual
/-- Absence of out-of-domain (`vother`) nodes. -/
def noOtherV : Value → Bool
  | .varr xs => noOtherVL xs
  | .vobj fs => noOtherVF fs
  | .vother _ => false
  | _ => true
termination_by structural v => v

def noOtherVL : List Value → Bool
  | [] => true
  | x :: xs => noOtherV x && noOtherVL xs
termination_by structural xs => xs

def noOtherVF : List (String × Value) → Bool
  | [] => true
  | (_, v) :: fs => noOtherV v && noOtherVF fs
termination_by structural fs => fs
end

/-- Whether a value is a composite (JS: non-null `typeof value === 'object'`),
i.e. is registered by the traverser. -/
def isComposite : Value → Bool
  | .varr _ => true
  | .vobj _ => true
  | _ => false

mutual
/-- All composite subvalues of a value in depth-first preorder — exactly the
order in which the traverser registers occurrences.  A value occurring `k`
times in the input occurs `k` times in this list. -/
def subcomposites : Value → List Value
  | .varr xs => .varr xs :: subcompositesL xs
  | .vobj fs => .vobj fs :: subcompositesF fs
  | _ => []
termination_by structural v => v

def subcompositesL : List Value → List Value
  | [] => []
  | x :: xs => subcomposites x ++ subcompositesL xs
termination_by structural xs => xs

def subcompositesF : List (String × Value) → List Value
  | [] => []
  | (_, v) :: fs => subcomposites v ++ subcompositesF fs
termination_by structural fs => fs
end

/-! ## Hasher (`fnv1aHash`, `computeHash`, source lines 28–75) -/

/-- One step of the FNV-1a loop:
`hash ^= c; hash += (hash<<1)+(hash<<4)+(hash<<7)+(hash<<8)+(hash<<24)`. -/
def fnv1aStep (hash : Int) (c : Char) : Int :=
  let h := jsXor hash (Int.ofNat c.toNat)
  h + (jsShl h 1 + jsShl h 4 + jsShl h 7 + jsShl h 8 + jsShl h 24)

/-- `fnv1aHash` (source lines 28–35): FNV-1a over the string's code units,
rendered via `(hash >>> 0).toString(36)`. -/
def fnv1aHash (s : String) : String :=
  natToBaseStr 36 (toUint32 (s.data.foldl fnv1aStep 2166136261))

/-- Lexicographic sort of object keys, JS `Object.keys(value).sort()`.
(JS compares UTF-16 code-unit sequences; the Lean `String` order compares
code-point sequences — identical on the Basic Multilingual Plane.) -/
def sortKeys (keys : List String) : List String :=
  List.insertionSort (fun a b => a ≤ b) keys

mutual
/-- `computeHash` (source lines 40–75).  Primitives hash to tagged literals;
arrays concatenate child digests in order; objects sort their keys
lexicographically and concatenate `key:digest` pairs, looking each value up by
key.  For `typeof` classes function/symbol/bigint the source falls through to
the object branch with `Object.keys` yielding no own enumerable keys, so the
digest is the empty-object digest.  (The `hashCache` of the source is a pure
memoisation of this function and is not modelled.) -/
def computeHash : Value → String
  | .vnull => "null"
  | .vundef => "undefined"
  | .vbool b => "bool:" ++ (if b then "true" else "false")
  | .vnum n => "num:" ++ intStr n
  | .vstr s => "str:" ++ fnv1aHash s
  | .varr xs => "arr:[" ++ String.intercalate "," (hashElems xs) ++ "]"
  | .vobj fs =>
    let hs := hashFields fs
    let pairs := (sortKeys (fs.map Prod.fst)).map
      (fun k => k ++ ":" ++ ((lookupStr k hs).getD ""))
    "obj:\x7b" ++ String.intercalate "," pairs ++ "\x7d"
  | .vother _ => "obj:\x7b\x7d"
termination_by structural v => v

def hashElems : List Value → List String
  | [] => []
  | x :: xs => computeHash x :: hashElems xs
termination_by structural xs => xs

def hashFields : List (String × Value) → List (String × String)
  | [] => []
  | (k, v) :: fs => (k, computeHash v) :: hashFields fs
termination_by structural fs => fs
end

/-! ## Deep equality (`deepEqual`, source lines 77–107) -/

mutual
/-- `deepEqual` (source lines 77–107).  The leading `a === b` identity test is
modelled by structural equality (identity of tree nodes implies structural
equality; where the identity test fails in JS, the structural walk below
returns the same verdict for in-domain values).  Mismatched types, `null`,
`undefined` and non-object types compare `false` past that point; arrays
compare by length and pointwise recursion; objects compare by key-list length
plus per-key membership and recursive value comparison. -/
def deepEqual (a b : Value) : Bool :=
  if beqV a b then true
  else
    match a, b with
    | .varr xs, .varr ys => deepEqualList xs ys
    | .vobj fs, .vobj gs => (fs.length == gs.length) && deepEqualFields fs gs
    | _, _ => false
termination_by structural a

def deepEqualList : List Value → List Value → Bool
  | [], [] => true
  | x :: xs, y :: ys => deepEqual x y && deepEqualList xs ys
  | _, _ => false
termination_by structural xs _ => xs

def deepEqualFields : List (String × Value) → List (String × Value) → Bool
  | [], _ => true
  | (k, v) :: fs, gs =>
    match lookupStr k gs with
    | some w => deepEqual v w && deepEqualFields fs gs
    | none => false
termination_by structural fs _ => fs
end

/-! ## Traverser (`traverse`, source lines 113–199) -/

/-- A step of an occurrence path (array index or object key). -/
inductive PathSeg where
  | key (s : String)
  | idx (n : Nat)

/-- Registry entry for a composite value (source lines 10–16). -/
structure HashEntry where
  value : Value
  count : Nat
  locations : List (List PathSeg)
  dependencies : List String
  refName : Option String

/-- Registry entry for a string literal (source lines 18–22). -/
structure StringEntry where
  value : String
  count : Nat
  index : Option Nat

/-- The three registries built by one traversal. -/
structure TravState where
  hashRegistry : List (String × HashEntry)
  valueToHash : List (Value × String)
  stringRegistry : List (String × StringEntry)

/-- Structural lookup in the value-to-hash map (JS `WeakMap.get`; see the
modelling conventions above). -/
def lookupVal (v : Value) : List (Value × String) → Option String
  | [] => none
  | (w, h) :: rest => if beqV w v then some h else lookupVal v rest

/-- A fresh registry entry (`count: 0`, no locations/dependencies/name). -/
def freshEntry (v : Value) : HashEntry :=
  { value := v, count := 0, locations := [], dependencies := [], refName := none }

/-- The chained collision key `` `${hash}_c${collisionIndex}` ``. -/
def chainKey (base : String) (i : Nat) : String := base ++ "_c" ++ decStr i

/-- The collision probe loop (source lines 157–162): starting at index `i`,
advance while the chained key holds an entry that is not deep-equal to `v`;
stop at the first free or deep-equal slot.  Fuel-driven; with fuel exceeding
the registry size a stop is always found (`probeLoop_isSome` below). -/
def probeLoop (reg : List (String × HashEntry)) (base : String) (v : Value) :
    Nat → Nat → Option Nat
  | 0, _ => none
  | fuel + 1, i =>
    match lookupStr (chainKey base i) reg with
    | some e => if deepEqual e.value v then some i else probeLoop reg base v fuel (i + 1)
    | none => some i

/-- Increment the occurrence count and record a location (source lines
175–176/179–180). -/
def bumpEntry (path : List PathSeg) (e : HashEntry) : HashEntry :=
  { e with count := e.count + 1, locations := e.locations ++ [path] }

/-- Registration of one composite occurrence (source lines 142–182): compute
the digest, create the base entry when absent, disambiguate a digest collision
by probing chained keys, then count the occurrence and record the assignment
in `valueToHash`. -/
def registerValue (v : Value) (path : List PathSeg) (st : TravState) : TravState :=
  let h := computeHash v
  let reg₀ := if hasKey h st.hashRegistry then st.hashRegistry
              else st.hashRegistry ++ [(h, freshEntry v)]
  match lookupStr h reg₀ with
  | none => st
  | some entry =>
    if deepEqual entry.value v then
      { st with hashRegistry := updateAt h (bumpEntry path) reg₀,
                valueToHash := st.valueToHash ++ [(v, h)] }
    else
      let i := (probeLoop reg₀ h v (reg₀.length + 1) 1).getD (reg₀.length + 1)
      let k := chainKey h i
      let reg₁ := if hasKey k reg₀ then reg₀ else reg₀ ++ [(k, freshEntry v)]
      { st with hashRegistry := updateAt k (bumpEntry path) reg₁,
                valueToHash := st.valueToHash ++ [(v, k)] }

/-- String occurrence tracking (source lines 125–131). -/
def bumpString (s : String) (st : TravState) : TravState :=
  let reg := if hasKey s st.stringRegistry then st.stringRegistry
             else st.stringRegistry ++ [(s, { value := s, count := 0, index := none })]
  { st with stringRegistry := updateAt s (fun e => { e with count := e.count + 1 }) reg }

mutual
/-- The recursive `visit` (source lines 123–195): strings feed the string
registry and stop; non-composites stop; composites are registered and their
children visited with the path extended by index or key.  (The identity-keyed
`visited` guard of the source cannot fire on tree inputs and is dropped; see
the modelling conventions.) -/
def visit (v : Value) (path : List PathSeg) (st : TravState) : TravState :=
  match v with
  | .vstr s => bumpString s st
  | .varr xs => visitElems xs path 0 (registerValue (.varr xs) path st)
  | .vobj fs => visitFields fs path (registerValue (.vobj fs) path st)
  | _ => st
termination_by structural v

def visitElems (xs : List Value) (path : List PathSeg) (i : Nat) (st : TravState) : TravState :=
  match xs with
  | [] => st
  | x :: rest => visitElems rest path (i + 1) (visit x (path ++ [.idx i]) st)
termination_by structural xs

def visitFields (fs : List (String × Value)) (path : List PathSeg) (st : TravState) : TravState :=
  match fs with
  | [] => st
  | (k, x) :: rest => visitFields rest path (visit x (path ++ [.key k]) st)
termination_by structural fs
end

/-- `traverse` (source lines 113–199). -/
def traverse (root : Value) : TravState :=
  visit root [] { hashRegistry := [], valueToHash := [], stringRegistry := [] }

/-! ## Dependency analyzer (`analyzeDependencies`, source lines 201–251) -/

/-- JS `Set.add`: append when absent (insertion-ordered, duplicate-free). -/
def addUnique (k : String) (l : List String) : List String :=
  if l.contains k then l else l ++ [k]

mutual
/-- `findContained` (source lines 210–239): walk the children of a value; for
every composite child record its assigned digest (when present) and recurse. -/
def findContained (v2h : List (Value × String)) (v : Value) (acc : List String) : List String :=
  match v with
  | .varr xs => findContainedL v2h xs acc
  | .vobj fs => findContainedF v2h fs acc
  | _ => acc
termination_by structural v

def findContainedL (v2h : List (Value × String)) (xs : List Value) (acc : List String) : List String :=
  match xs with
  | [] => acc
  | x :: rest =>
    if isComposite x then
      let acc₁ := match lookupVal x v2h with
        | some h => addUnique h acc
        | none => acc
      findContainedL v2h rest (findContained v2h x acc₁)
    else findContainedL v2h rest acc
termination_by structural xs

def findContainedF (v2h : List (Value × String)) (fs : List (String × Value)) (acc : List String) : List String :=
  match fs with
  | [] => acc
  | (_, x) :: rest =>
    if isComposite x then
      let acc₁ := match lookupVal x v2h with
        | some h => addUnique h acc
        | none => acc
      findContainedF v2h rest (findContained v2h x acc₁)
    else findContainedF v2h rest acc
termination_by structural fs
end

/-- The dependency set of one qualifying entry (source lines 243–249):
contained digests other than the entry's own whose entries qualify. -/
def entryDeps (reg : List (String × HashEntry)) (v2h : List (Value × String))
    (h : String) (e : HashEntry) : List String :=
  (findContained v2h e.value []).filter (fun c =>
    (c != h) && (match lookupStr c reg with
                 | some ce => decide (3 ≤ ce.count)
                 | none => false))

/-- `analyzeDependencies` (source lines 201–251): fill in the dependency set
of every entry with occurrence count ≥ 3 (counts are not modified by this
pass, so reading them from the pre-pass registry is faithful). -/
def analyzeDependencies (reg : List (String × HashEntry)) (v2h : List (Value × String)) :
    List (String × HashEntry) :=
  reg.map (fun p =>
    if decide (3 ≤ p.2.count) then (p.1, { p.2 with dependencies := entryDeps reg v2h p.1 p.2 })
    else p)

/-! ## Topological sorter (`topologicalSort`, source lines 257–305) -/

/-- The duplicate candidates: registry entries with count ≥ 3, in registry
(insertion) order (source lines 258–259). -/
def duplicatesOf (reg : List (String × HashEntry)) : List (String × HashEntry) :=
  reg.filter (fun p => decide (3 ≤ p.2.count))

/-- Build the dependents-adjacency and in-degree maps (source lines 261–276). -/
def buildGraph (dups : List (String × HashEntry)) :
    List (String × List String) × List (String × Int) :=
  let graph₀ := dups.map (fun p => (p.1, ([] : List String)))
  let inDeg₀ := dups.map (fun p => (p.1, (0 : Int)))
  dups.foldl
    (fun gi p =>
      p.2.dependencies.foldl
        (fun (gi : List (String × List String) × List (String × Int)) dep =>
          if hasKey dep gi.2 then
            (updateAt dep (fun l => l ++ [p.1]) gi.1, updateAt p.1 (fun d => d + 1) gi.2)
          else gi)
        gi)
    (graph₀, inDeg₀)

/-- Placeholder entry for the unreachable `Map.get` miss (`get(hash)!`). -/
def defaultEntry : HashEntry := freshEntry .vnull

/-- Kahn's queue loop (source lines 287–298), fuel-driven: pop the queue head,
emit it, decrement every dependent's in-degree, enqueue those reaching zero. -/
def kahnLoop (graph : List (String × List String)) (reg : List (String × HashEntry)) :
    Nat → List String → List (String × Int) → List (String × HashEntry) →
    List (String × HashEntry)
  | 0, _, _, res => res
  | _ + 1, [], _, res => res
  | fuel + 1, h :: rest, inDeg, res =>
    let entry := (lookupStr h reg).getD defaultEntry
    let qd := ((lookupStr h graph).getD []).foldl
      (fun (qd : List String × List (String × Int)) dependent =>
        let d := (lookupStr dependent qd.2).getD 0 - 1
        let inDeg₁ := updateAt dependent (fun x => x - 1) qd.2
        if d = 0 then (qd.1 ++ [dependent], inDeg₁) else (qd.1, inDeg₁))
      (rest, inDeg)
    kahnLoop graph reg fuel qd.1 qd.2 (res ++ [(h, entry)])

/-- Sum of the positive in-degrees (fuel bound for `kahnLoop`). -/
def sumPos (l : List (String × Int)) : Nat := (l.map (fun p => p.2.toNat)).sum

/-- `topologicalSort` (source lines 257–305): Kahn's algorithm over the
qualifying entries; when not all candidates were placed (a dependency cycle),
fall back to the candidates in discovery order. -/
def topologicalSort (reg : List (String × HashEntry)) : List (String × HashEntry) :=
  let dups := duplicatesOf reg
  let gi := buildGraph dups
  let queue := (gi.2.filter (fun p => p.2 = 0)).map Prod.fst
  let res := kahnLoop gi.1 reg (queue.length + sumPos gi.2 + 1) queue gi.2 []
  if res.length ≠ dups.length then dups else res

/-! ## Reference namer (`assignRefNames`, source lines 307–339) -/

/-- JS `Object.keys` under the coercion semantics of the semantic-pattern
tests (arrays and objects list their keys; primitives coerce to empty). -/
def jsKeysEmpty : Value → Bool
  | .vobj fs => fs.isEmpty
  | .varr xs => xs.isEmpty
  | _ => true

/-- The semantic-pattern table (source lines 311–314): first match whose
mnemonic name is still free. -/
def semanticName (used : List String) (v : Value) : Option String :=
  if (match v with | .varr xs => xs.isEmpty | _ => false) && !used.contains "_emptyArray" then
    some "_emptyArray"
  else if (match v with | .varr _ => false | _ => jsKeysEmpty v) && !used.contains "_emptyObject" then
    some "_emptyObject"
  else none

/-- The `while (usedNames.has(refName))` loop (source lines 331–334),
fuel-driven: advance the sequential counter until an unused name appears. -/
def whileUsed (used : List String) : Nat → String → Nat → String × Nat
  | 0, name, c => (name, c)
  | fuel + 1, name, c =>
    if used.contains name then whileUsed used fuel ("_ref" ++ decStr c) (c + 1)
    else (name, c)

/-- The naming fold (source lines 316–338). -/
def assignNamesGo : List (String × HashEntry) → List String → Nat → List (String × HashEntry)
  | [], _, _ => []
  | (h, e) :: rest, used, counter =>
    let pick : String × Nat :=
      match semanticName used e.value with
      | some n => (n, counter)
      | none => ("_ref" ++ decStr counter, counter + 1)
    let final := whileUsed used (used.length + 2) pick.1 pick.2
    (h, { e with refName := some final.1 }) :: assignNamesGo rest (used ++ [final.1]) final.2

/-- `assignRefNames` (source lines 307–339). -/
def assignRefNames (sorted : List (String × HashEntry)) : List (String × HashEntry) :=
  assignNamesGo sorted [] 0

/-- Reflect the in-place `entry.refName` mutations back into the registry
(JS entry objects are shared between the sorted list and the registry). -/
def applyRefNames (reg assigned : List (String × HashEntry)) : List (String × HashEntry) :=
  reg.map (fun p => (p.1, (lookupStr p.1 assigned).getD p.2))

/-! ## Code generator (`serializeValue`/`generateCode`, source lines 345–456) -/

/-- Structural membership in the `serializingValues` set (JS `WeakSet.has` on
tree nodes; see the modelling conventions). -/
def containsV (l : List Value) (v : Value) : Bool := l.any (fun w => beqV w v)

/-- The identifier test `/^[a-zA-Z_$][a-zA-Z0-9_$]*$/` (source line 397). -/
def isIdentKey (s : String) : Bool :=
  match s.data with
  | [] => false
  | c :: cs =>
    (c.isAlpha || c = '_' || c = '$') &&
      cs.all (fun d => d.isAlphanum || d = '_' || d = '$')

/-- One character of `JSON.stringify` string escaping. -/
def escCh (c : Char) : String :=
  if c = '"' then "\\\""
  else if c = '\\' then "\\\\"
  else if c = '\n' then "\\n"
  else if c = '\r' then "\\r"
  else if c = '\t' then "\\t"
  else if c = Char.ofNat 8 then "\\b"
  else if c = Char.ofNat 12 then "\\f"
  else if c.toNat < 32 then
    "\\u" ++ String.mk [digitCh (c.toNat / 4096 % 16), digitCh (c.toNat / 256 % 16),
                        digitCh (c.toNat / 16 % 16), digitCh (c.toNat % 16)]
  else String.singleton c

/-- `JSON.stringify` of a string value. -/
def jsonQuote (s : String) : String :=
  "\"" ++ String.join (s.data.map escCh) ++ "\""

/-- The back-reference test of the serializer (source lines 370–380): the
value's digest resolves to an entry with an assigned name and count ≥ 3, and
the value is not currently being emitted as that very declaration. -/
def refSub (serializing : List Value) (v2h : List (Value × String))
    (reg : List (String × HashEntry)) (v : Value) : Option String :=
  match lookupVal v v2h with
  | none => none
  | some h =>
    match lookupStr h reg with
    | none => none
    | some entry =>
      match entry.refName with
      | none => none
      | some name =>
        if decide (3 ≤ entry.count) && !containsV serializing v then some name else none

mutual
/-- `serializeValue` (source lines 347–406).  Primitives print their JS
string rendering; a string with an assigned table index and count ≥ 3 prints
as `_s[index]`, otherwise as a JSON literal; a composite prints as a back
reference when `refSub` fires, else as an inline literal; any other `typeof`
is a thrown serialization error. -/
def serializeValue (serializing : List Value) (v2h : List (Value × String))
    (reg : List (String × HashEntry)) (sreg : List (String × StringEntry)) :
    Value → Except String String
  | .vnull => .ok "null"
  | .vundef => .ok "undefined"
  | .vbool b => .ok (if b then "true" else "false")
  | .vnum n => .ok (intStr n)
  | .vstr s =>
    match lookupStr s sreg with
    | some e =>
      if e.index.isSome && decide (3 ≤ e.count) then
        .ok ("_s[" ++ decStr (e.index.getD 0) ++ "]")
      else .ok (jsonQuote s)
    | none => .ok (jsonQuote s)
  | .varr xs =>
    match refSub serializing v2h reg (.varr xs) with
    | some name => .ok name
    | none =>
      if xs.isEmpty then .ok "[]"
      else do
        let elems ← serializeElems serializing v2h reg sreg xs
        .ok ("[" ++ String.intercalate ", " elems ++ "]")
  | .vobj fs =>
    match refSub serializing v2h reg (.vobj fs) with
    | some name => .ok name
    | none =>
      if fs.isEmpty then .ok "\x7b\x7d"
      else do
        let pairs ← serializeFields serializing v2h reg sreg fs
        .ok ("\x7b" ++ String.intercalate ", " pairs ++ "\x7d")
  | .vother tag => .error ("Cannot serialize type: " ++ tag)
termination_by structural v => v

def serializeElems (serializing : List Value) (v2h : List (Value × String))
    (reg : List (String × HashEntry)) (sreg : List (String × StringEntry)) :
    List Value → Except String (List String)
  | [] => .ok []
  | x :: xs => do
    let s ← serializeValue serializing v2h reg sreg x
    let rest ← serializeElems serializing v2h reg sreg xs
    .ok (s :: rest)
termination_by structural xs => xs

def serializeFields (serializing : List Value) (v2h : List (Value × String))
    (reg : List (String × HashEntry)) (sreg : List (String × StringEntry)) :
    List (String × Value) → Except String (List String)
  | [] => .ok []
  | (k, v) :: fs => do
    let sv ← serializeValue serializing v2h reg sreg v
    let rest ← serializeFields serializing v2h reg sreg fs
    .ok (((if isIdentKey k then k else jsonQuote k) ++ ": " ++ sv) :: rest)
termination_by structural fs => fs
end

/-- The deduplicated strings of the table (source lines 422–424): entries with
count ≥ 3 sorted by descending count (JS sort is stable; ties keep registry
order). -/
def dedupStringsOf (sreg : List (String × StringEntry)) : List StringEntry :=
  List.insertionSort (fun a b => b.count ≤ a.count)
    ((sreg.map Prod.snd).filter (fun e => decide (3 ≤ e.count)))

/-- The table-index assignment (source lines 426–429): when the table is
nonempty, every tabled entry receives its position (reflected into the shared
string registry; untabled entries keep `index = none`). -/
def assignStringIndexes (sreg : List (String × StringEntry)) : List (String × StringEntry) :=
  let ds := dedupStringsOf sreg
  if ds.isEmpty then sreg
  else sreg.map (fun p => (p.1, { p.2 with index := ds.findIdx? (fun e => e.value == p.1) }))

/-- The string-table lines (source lines 426–438). -/
def tableLines (ds : List StringEntry) : List String :=
  if ds.isEmpty then []
  else
    ["const _s = ["] ++
      (ds.enum.map (fun p =>
        "  " ++ jsonQuote p.2.value ++ (if p.1 < ds.length - 1 then "," else ""))) ++
      ["];", ""]

/-- The constant-declaration lines (source lines 441–446): one `const` per
sorted duplicate, serialized with the entry marked as currently serializing. -/
def declLines (v2h : List (Value × String)) (reg : List (String × HashEntry))
    (sreg : List (String × StringEntry)) :
    List (String × HashEntry) → Except String (List String)
  | [] => .ok []
  | (_, e) :: rest => do
    let code ← serializeValue [e.value] v2h reg sreg e.value
    let more ← declLines v2h reg sreg rest
    .ok (("const " ++ e.refName.getD "null" ++ " = " ++ code ++ ";") :: more)

/-- `generateCode` (source lines 408–456) as its list of lines. -/
def genLines (rootValue : Value) (v2h : List (Value × String))
    (reg : List (String × HashEntry)) (sortedDups : List (String × HashEntry))
    (sreg : List (String × StringEntry)) : Except String (List String) := do
  let header := ["// Auto-generated deduplicated module",
                 "// Strings and objects extracted for memory efficiency", ""]
  let ds := dedupStringsOf sreg
  let sreg₁ := assignStringIndexes sreg
  let decls ← declLines v2h reg sreg₁ sortedDups
  let rootCode ← serializeValue [] v2h reg sreg₁ rootValue
  .ok (header ++ tableLines ds ++ decls ++
       (if sortedDups.isEmpty then [] else [""]) ++
       ["export default " ++ rootCode ++ ";"])

/-- `generateCode` (source lines 408–456): the joined module text. -/
def generateCode (rootValue : Value) (v2h : List (Value × String))
    (reg : List (String × HashEntry)) (sortedDups : List (String × HashEntry))
    (sreg : List (String × StringEntry)) : Except String String :=
  (genLines rootValue v2h reg sortedDups sreg).map (String.intercalate "\n")

/-! ## Entry points (source lines 462–540) -/

/-- Caller input: JSON text (to be parsed) or an in-memory value. -/
inductive JSInput where
  | text (s : String)
  | value (v : Value)

/-- The pipeline on an already-parsed root (source lines 477–504, the
debug-timing instrumentation elided as pure host I/O). -/
def dedupRoot (root : Value) : Except String String :=
  let st := traverse root
  let reg₁ := analyzeDependencies st.hashRegistry st.valueToHash
  let sorted := topologicalSort reg₁
  let assigned := assignRefNames sorted
  let reg₂ := applyRefNames reg₁ assigned
  generateCode root st.valueToHash reg₂ assigned st.stringRegistry

/-- `deduplicateJSON` (source lines 462–505).  The host `JSON.parse` is a
platform builtin, passed in as a parameter `parse`; a parse failure is
rethrown as `Invalid JSON: <message>`. -/
def deduplicateJSON (parse : String → Except String Value) : JSInput → Except String String
  | .text s =>
    match parse s with
    | .error msg => .error ("Invalid JSON: " ++ msg)
    | .ok root => dedupRoot root
  | .value root => dedupRoot root

/-- The result record of `getDeduplicationStats` (source lines 507–515). -/
structure DedupStats where
  uniqueValues : Nat
  deduplicatedValues : Nat
  totalOccurrences : Nat
  uniqueStrings : Nat
  deduplicatedStrings : Nat
  totalStringOccurrences : Nat
  estimatedSavings : String
deriving DecidableEq

/-- The statistics of an already-parsed root (source lines 523–539). -/
def statsRoot (root : Value) : DedupStats :=
  let st := traverse root
  let dups := (st.hashRegistry.map Prod.snd).filter (fun e => decide (3 ≤ e.count))
  let tot := (dups.map (fun e => e.count)).sum
  let sdups := (st.stringRegistry.map Prod.snd).filter (fun e => decide (3 ≤ e.count))
  let stot := (sdups.map (fun e => e.count)).sum
  { uniqueValues := st.hashRegistry.length
    deduplicatedValues := dups.length
    totalOccurrences := tot
    uniqueStrings := st.stringRegistry.length
    deduplicatedStrings := sdups.length
    totalStringOccurrences := stot
    estimatedSavings :=
      decStr dups.length ++ " object/array variables + " ++ decStr sdups.length ++
        " strings, " ++ decStr (tot + stot) ++ " total references" }

/-- `getDeduplicationStats` (source lines 507–540).  Unlike
`deduplicateJSON`, the `JSON.parse` call is not wrapped: a parse failure
propagates unchanged. -/
def getDeduplicationStats (parse : String → Except String Value) :
    JSInput → Except String DedupStats
  | .text s =>
    match parse s with
    | .error msg => .error msg
    | .ok root => .ok (statsRoot root)
  | .value root => .ok (statsRoot root)

/-! ## Expression view of the emitted module

To state the round-trip property of the generated text, the serializer is
mirrored at the level of a small expression AST `JExpr`: `printExpr` renders
an AST exactly as `serializeValue` renders the value (proved below), and
`evalExpr` is the evaluation of the emitted expression under an environment
for the emitted `const` names and the emitted string table — i.e. the act of
substituting every declaration back into every reference. -/

/-- Expressions of the emitted module text. -/
inductive JExpr where
  | jnull
  | jundef
  | jbool (b : Bool)
  | jnum (n : Int)
  | jstr (s : String)
  | jtbl (i : Nat)
  | jref (name : String)
  | jarr (es : List JExpr)
  | jobj (fs : List (String × JExpr))

mutual
/-- Rendering of an emitted expression, character-for-character the text the
serializer produces. -/
def printExpr : JExpr → String
  | .jnull => "null"
  | .jundef => "undefined"
  | .jbool b => if b then "true" else "false"
  | .jnum n => intStr n
  | .jstr s => jsonQuote s
  | .jtbl i => "_s[" ++ decStr i ++ "]"
  | .jref name => name
  | .jarr es =>
    if es.isEmpty then "[]"
    else "[" ++ String.intercalate ", " (printElems es) ++ "]"
  | .jobj fs =>
    if fs.isEmpty then "\x7b\x7d"
    else "\x7b" ++ String.intercalate ", " (printFields fs) ++ "\x7d"
termination_by structural e => e

def printElems : List JExpr → List String
  | [] => []
  | e :: es => printExpr e :: printElems es
termination_by structural es => es

def printFields : List (String × JExpr) → List String
  | [] => []
  | (k, e) :: fs =>
    ((if isIdentKey k then k else jsonQuote k) ++ ": " ++ printExpr e) :: printFields fs
termination_by structural fs => fs
end

mutual
/-- `serializeValue`, producing the emitted expression instead of its text. -/
def serializeExpr (serializing : List Value) (v2h : List (Value × String))
    (reg : List (String × HashEntry)) (sreg : List (String × StringEntry)) :
    Value → Except String JExpr
  | .vnull => .ok .jnull
  | .vundef => .ok .jundef
  | .vbool b => .ok (.jbool b)
  | .vnum n => .ok (.jnum n)
  | .vstr s =>
    match lookupStr s sreg with
    | some e =>
      if e.index.isSome && decide (3 ≤ e.count) then .ok (.jtbl (e.index.getD 0))
      else .ok (.jstr s)
    | none => .ok (.jstr s)
  | .varr xs =>
    match refSub serializing v2h reg (.varr xs) with
    | some name => .ok (.jref name)
    | none => do
      let elems ← serializeExprElems serializing v2h reg sreg xs
      .ok (.jarr elems)
  | .vobj fs =>
    match refSub serializing v2h reg (.vobj fs) with
    | some name => .ok (.jref name)
    | none => do
      let pairs ← serializeExprFields serializing v2h reg sreg fs
      .ok (.jobj pairs)
  | .vother tag => .error ("Cannot serialize type: " ++ tag)
termination_by structural v => v

def serializeExprElems (serializing : List Value) (v2h : List (Value × String))
    (reg : List (String × HashEntry)) (sreg : List (String × StringEntry)) :
    List Value → Except String (List JExpr)
  | [] => .ok []
  | x :: xs => do
    let e ← serializeExpr serializing v2h reg sreg x
    let rest ← serializeExprElems serializing v2h reg sreg xs
    .ok (e :: rest)
termination_by structural xs => xs

def serializeExprFields (serializing : List Value) (v2h : List (Value × String))
    (reg : List (String × HashEntry)) (sreg : List (String × StringEntry)) :
    List (String × Value) → Except String (List (String × JExpr))
  | [] => .ok []
  | (k, v) :: fs => do
    let e ← serializeExpr serializing v2h reg sreg v
    let rest ← serializeExprFields serializing v2h reg sreg fs
    .ok ((k, e) :: rest)
termination_by structural fs => fs
end

mutual
/-- Evaluation of an emitted expression: `const` references resolve through
`env` (substituting declarations back into references), string-table
references index into `table`. -/
def evalExpr (env : String → Option Value) (table : List String) : JExpr → Option Value
  | .jnull => some .vnull
  | .jundef => some .vundef
  | .jbool b => some (.vbool b)
  | .jnum n => some (.vnum n)
  | .jstr s => some (.vstr s)
  | .jtbl i => (table.get? i).map .vstr
  | .jref name => env name
  | .jarr es => (evalElems env table es).map .varr
  | .jobj fs => (evalFields env table fs).map .vobj
termination_by structural e => e

def evalElems (env : String → Option Value) (table : List String) :
    List JExpr → Option (List Value)
  | [] => some []
  | e :: es => do
    let v ← evalExpr env table e
    let rest ← evalElems env table es
    some (v :: rest)
termination_by structural es => es

def evalFields (env : String → Option Value) (table : List String) :
    List (String × JExpr) → Option (List (String × Value))
  | [] => some []
  | (k, e) :: fs => do
    let v ← evalExpr env table e
    let rest ← evalFields env table fs
    some ((k, v) :: rest)
termination_by structural fs => fs
end

/-- The declaration list at expression level (mirror of `declLines`). -/
def declExprs (v2h : List (Value × String)) (reg : List (String × HashEntry))
    (sreg : List (String × StringEntry)) :
    List (String × HashEntry) → Except String (List (String × JExpr))
  | [] => .ok []
  | (_, e) :: rest => do
    let code ← serializeExpr [e.value] v2h reg sreg e.value
    let more ← declExprs v2h reg sreg rest
    .ok ((e.refName.getD "null", code) :: more)

/-- The emitted module, seen as data: string table, named declarations in
emission order, root expression. -/
structure ModuleAst where
  table : List String
  decls : List (String × JExpr)
  root : JExpr

/-- The expression-level pipeline (same stages as `dedupRoot`). -/
def moduleAstOf (root : Value) : Except String ModuleAst :=
  let st := traverse root
  let reg₁ := analyzeDependencies st.hashRegistry st.valueToHash
  let sorted := topologicalSort reg₁
  let assigned := assignRefNames sorted
  let reg₂ := applyRefNames reg₁ assigned
  let ds := dedupStringsOf st.stringRegistry
  let sreg₁ := assignStringIndexes st.stringRegistry
  do
    let decls ← declExprs st.valueToHash reg₂ sreg₁ assigned
    let rootExpr ← serializeExpr [] st.valueToHash reg₂ sreg₁ root
    .ok { table := ds.map (fun e => e.value), decls := decls, root := rootExpr }

/-- The environment that substitutes every emitted declaration back into every
reference: a `const` name resolves to the representative value of the registry
entry that carries it. -/
def envOf (root : Value) : String → Option Value :=
  fun name =>
    let st := traverse root
    let reg₁ := analyzeDependencies st.hashRegistry st.valueToHash
    let reg₂ := applyRefNames reg₁ (assignRefNames (topologicalSort reg₁))
    (reg₂.find? (fun p => p.2.refName == some name)).map (fun p => p.2.value)

/-! ## Proof-support definitions -/

/-- Canonical digit list of `n` in base `b` (reference form of `natDigitsGo`). -/
def canonDigits (b n : Nat) : List Char :=
  if n < b ∨ b < 2 then [digitCh n]
  else canonDigits b (n / b) ++ [digitCh (n % b)]
decreasing_by
  rename_i h
  push_neg at h
  exact Nat.div_lt_self (Nat.lt_of_lt_of_le (by omega) h.1) h.2

/-- Decimal digit value (inverse of `digitCh` below 10). -/
def digitVal (c : Char) : Nat := c.toNat - 48

/-- Decimal value of a digit list (inverse of `canonDigits 10`). -/
def decVal (l : List Char) : Nat := l.foldl (fun a c => a * 10 + digitVal c) 0

/-! ## Association-list lemmas -/

theorem lookupStr_append_left {α : Type} {k : String} {m₁ m₂ : List (String × α)}
    (h : (lookupStr k m₁).isSome) : lookupStr k (m₁ ++ m₂) = lookupStr k m₁ := by
  induction m₁ with
  | nil => simp [lookupStr] at h
  | cons p rest ih =>
    obtain ⟨k₁, v⟩ := p
    by_cases hk : k = k₁
    · simp [lookupStr, hk]
    · simp only [lookupStr, if_neg hk] at h ⊢
      exact ih h

theorem lookupStr_append_right {α : Type} {k : String} {m₁ m₂ : List (String × α)}
    (h : lookupStr k m₁ = none) : lookupStr k (m₁ ++ m₂) = lookupStr k m₂ := by
  induction m₁ with
  | nil => simp
  | cons p rest ih =>
    obtain ⟨k₁, v⟩ := p
    by_cases hk : k = k₁
    · simp [lookupStr, hk] at h
    · simp only [lookupStr, if_neg hk] at h ⊢
      exact ih h

theorem lookupStr_eq_none {α : Type} {k : String} {m : List (String × α)} :
    lookupStr k m = none ↔ k ∉ m.map Prod.fst := by
  induction m with
  | nil => simp [lookupStr]
  | cons p rest ih =>
    obtain ⟨k₁, v⟩ := p
    by_cases hk : k = k₁
    · simp [lookupStr, hk]
    · simp [lookupStr, hk, ih]

theorem lookupStr_isSome {α : Type} {k : String} {m : List (String × α)} :
    (lookupStr k m).isSome ↔ k ∈ m.map Prod.fst := by
  constructor
  · intro h
    by_contra hmem
    rw [lookupStr_eq_none.mpr hmem] at h
    simp at h
  · intro hmem
    by_contra h
    rw [Option.not_isSome_iff_eq_none] at h
    exact lookupStr_eq_none.mp h hmem

theorem lookupStr_mem {α : Type} {k : String} {m : List (String × α)} {v : α}
    (h : lookupStr k m = some v) : (k, v) ∈ m := by
  induction m with
  | nil => simp [lookupStr] at h
  | cons p rest ih =>
    obtain ⟨k₁, w⟩ := p
    by_cases hk : k = k₁
    · simp [lookupStr, hk] at h
      simp [hk, h]
    · simp only [lookupStr, if_neg hk] at h
      exact List.mem_cons_of_mem _ (ih h)

theorem lookupStr_of_mem_nodup {α : Type} {k : String} {m : List (String × α)} {v : α}
    (hmem : (k, v) ∈ m) (hnd : (m.map Prod.fst).Nodup) : lookupStr k m = some v := by
  induction m with
  | nil => simp at hmem
  | cons p rest ih =>
    obtain ⟨k₁, w⟩ := p
    simp only [List.map_cons, List.nodup_cons] at hnd
    rcases List.mem_cons.mp hmem with h | h
    · obtain ⟨rfl, rfl⟩ := Prod.mk.injEq _ _ _ _ ▸ h
      simp [lookupStr]
    · have hk : k ≠ k₁ := by
        rintro rfl
        exact hnd.1 (List.mem_map.mpr ⟨(k, v), h, rfl⟩)
      simp only [lookupStr, if_neg hk]
      exact ih h hnd.2

theorem updateAt_lookup_self {α : Type} {k : String} {f : α → α} {m : List (String × α)} :
    lookupStr k (updateAt k f m) = (lookupStr k m).map f := by
  induction m with
  | nil => simp [updateAt, lookupStr]
  | cons p rest ih =>
    obtain ⟨k₁, v⟩ := p
    by_cases hk : k = k₁
    · simp [updateAt, lookupStr, hk]
    · simp [updateAt, lookupStr, hk, ih]

theorem updateAt_lookup_other {α : Type} {k k₁ : String} {f : α → α} {m : List (String × α)}
    (h : k₁ ≠ k) : lookupStr k₁ (updateAt k f m) = lookupStr k₁ m := by
  induction m with
  | nil => simp [updateAt]
  | cons p rest ih =>
    obtain ⟨k₂, v⟩ := p
    by_cases hk2 : k = k₂
    · subst hk2
      simp [updateAt, lookupStr, h]
    · by_cases hk1 : k₁ = k₂ <;> simp [updateAt, lookupStr, hk2, hk1, ih]

theorem updateAt_map_fst {α : Type} {k : String} {f : α → α} {m : List (String × α)} :
    (updateAt k f m).map Prod.fst = m.map Prod.fst := by
  induction m with
  | nil => simp [updateAt]
  | cons p rest ih =>
    obtain ⟨k₁, v⟩ := p
    by_cases hk : k = k₁ <;> simp [updateAt, hk, ih]

theorem updateAt_length {α : Type} {k : String} {f : α → α} {m : List (String × α)} :
    (updateAt k f m).length = m.length := by
  have := updateAt_map_fst (k := k) (f := f) (m := m)
  calc (updateAt k f m).length = ((updateAt k f m).map Prod.fst).length := by simp
    _ = (m.map Prod.fst).length := by rw [this]
    _ = m.length := by simp

/-! ## Structural equality is propositional equality -/

mutual
theorem beqV_iff : ∀ a b : Value, beqV a b = true ↔ a = b
  | .vnull, b => by cases b <;> simp [beqV]
  | .vundef, b => by cases b <;> simp [beqV]
  | .vbool x, b => by cases b <;> simp [beqV]
  | .vnum x, b => by cases b <;> simp [beqV]
  | .vstr x, b => by cases b <;> simp [beqV]
  | .vother x, b => by cases b <;> simp [beqV]
  | .varr xs, b => by
    cases b <;> simp [beqV]
    exact beqVL_iff xs _
  | .vobj fs, b => by
    cases b <;> simp [beqV]
    exact beqVF_iff fs _

theorem beqVL_iff : ∀ xs ys : List Value, beqVL xs ys = true ↔ xs = ys
  | [], ys => by cases ys <;> simp [beqVL]
  | x :: xs, ys => by
    cases ys with
    | nil => simp [beqVL]
    | cons y ys => simp [beqVL, beqV_iff x y, beqVL_iff xs ys]

theorem beqVF_iff : ∀ fs gs : List (String × Value), beqVF fs gs = true ↔ fs = gs
  | [], gs => by cases gs <;> simp [beqVF]
  | (k, v) :: fs, gs => by
    cases gs with
    | nil => simp [beqVF]
    | cons g gs =>
      obtain ⟨k₁, w⟩ := g
      simp only [beqVF, Bool.and_eq_true, beqV_iff v w, beqVF_iff fs gs,
        List.cons.injEq, Prod.mk.injEq, beq_iff_eq]
      try tauto
end

theorem beqV_refl (a : Value) : beqV a a = true := (beqV_iff a a).mpr rfl

instance : DecidableEq Value := fun a b => decidable_of_iff _ (beqV_iff a b)

theorem beqV_eq_decide (a b : Value) : beqV a b = decide (a = b) := by
  by_cases h : a = b
  · simp [h, beqV_refl]
  · have hb : beqV a b = false := by
      cases hb : beqV a b
      · rfl
      · exact absurd ((beqV_iff a b).mp hb) h
    simp [h, hb]

theorem lookupVal_mem {v : Value} {m : List (Value × String)} {k : String}
    (h : lookupVal v m = some k) : (v, k) ∈ m := by
  induction m with
  | nil => simp [lookupVal] at h
  | cons p rest ih =>
    obtain ⟨w, k₁⟩ := p
    by_cases hw : beqV w v
    · simp only [lookupVal, hw, if_pos] at h
      cases h
      have := (beqV_iff w v).mp hw
      subst this
      simp
    · simp only [lookupVal, hw] at h
      simp at h
      exact List.mem_cons_of_mem _ (ih h)

/-! ## Digit printers: correctness and injectivity -/

theorem natDigitsGo_acc (b : Nat) :
    ∀ fuel n acc, natDigitsGo b fuel n acc = natDigitsGo b fuel n [] ++ acc := by
  intro fuel
  induction fuel with
  | zero => intro n acc; simp [natDigitsGo]
  | succ fuel ih =>
    intro n acc
    by_cases h : n < b
    · simp [natDigitsGo, h]
    · rw [natDigitsGo, if_neg h, natDigitsGo, if_neg h, ih, ih (n / b) [digitCh (n % b)],
        List.append_assoc]
      rfl

theorem natDigitsGo_eq_canon (b : Nat) (hb : 2 ≤ b) :
    ∀ fuel n acc, 0 < fuel → n < b ^ fuel →
      natDigitsGo b fuel n acc = canonDigits b n ++ acc := by
  intro fuel
  induction fuel with
  | zero => omega
  | succ fuel ih =>
    intro n acc _ hlt
    by_cases h : n < b
    · rw [natDigitsGo, if_pos h, canonDigits, if_pos (Or.inl h)]
      rfl
    · have hfuel : 0 < fuel := by
        rcases Nat.eq_zero_or_pos fuel with rfl | hf
        · simp at hlt; omega
        · exact hf
      have hdiv : n / b < b ^ fuel := by
        rw [Nat.div_lt_iff_lt_mul (by omega)]
        calc n < b ^ (fuel + 1) := hlt
          _ = b ^ fuel * b := by rw [pow_succ]
      rw [natDigitsGo, if_neg h, ih (n / b) _ hfuel hdiv]
      have hcn : canonDigits b n = canonDigits b (n / b) ++ [digitCh (n % b)] := by
        rw [canonDigits]
        rw [if_neg (by push_neg; omega)]
      rw [hcn, List.append_assoc]
      rfl

theorem digitVal_digitCh {d : Nat} (hd : d < 10) : digitVal (digitCh d) = d := by
  interval_cases d <;> rfl

theorem decVal_append (l : List Char) (c : Char) :
    decVal (l ++ [c]) = 10 * decVal l + digitVal c := by
  unfold decVal
  rw [List.foldl_append]
  simp [Nat.mul_comm]

theorem decVal_canonDigits (n : Nat) : decVal (canonDigits 10 n) = n := by
  induction n using Nat.strong_induction_on with
  | _ n ih =>
    by_cases h : n < 10
    · rw [canonDigits, if_pos (Or.inl h)]
      simp [decVal, digitVal_digitCh h]
    · rw [canonDigits, if_neg (by push_neg; exact ⟨le_of_not_lt h, by omega⟩)]
      rw [decVal_append, ih (n / 10) (Nat.div_lt_self (by omega) (by omega)),
        digitVal_digitCh (Nat.mod_lt _ (by omega))]
      omega

theorem decStr_canon (n : Nat) : decStr n = String.mk (canonDigits 10 n) := by
  unfold decStr natToBaseStr
  rw [natDigitsGo_eq_canon 10 (by omega) (n + 1) n [] (by omega)
    (lt_of_lt_of_le (Nat.lt_two_pow n) (Nat.pow_le_pow_left (by omega) n |>.trans
      (Nat.pow_le_pow_right (by omega) (by omega))))]
  simp

theorem decStr_inj {m n : Nat} (h : decStr m = decStr n) : m = n := by
  rw [decStr_canon, decStr_canon] at h
  have : canonDigits 10 m = canonDigits 10 n := by
    injection h
  calc m = decVal (canonDigits 10 m) := (decVal_canonDigits m).symm
    _ = decVal (canonDigits 10 n) := by rw [this]
    _ = n := decVal_canonDigits n

theorem string_append_cancel_left {a b c : String} (h : a ++ b = a ++ c) : b = c := by
  have hd : (a ++ b).data = (a ++ c).data := by rw [h]
  simp only [String.data_append] at hd
  have h2 := List.append_cancel_left hd
  cases b; cases c
  simp only at h2
  simp [h2]

theorem chainKey_inj {base : String} {i j : Nat} (h : chainKey base i = chainKey base j) :
    i = j := by
  unfold chainKey at h
  rw [String.append_assoc, String.append_assoc] at h
  exact decStr_inj (string_append_cancel_left (string_append_cancel_left h))

/-! ## The collision probe: termination and characterization -/

theorem exists_fresh_key (f : Nat → String) (hf : Function.Injective f)
    (L : List String) (start : Nat) : ∃ j, j ≤ L.length ∧ f (start + j) ∉ L := by
  by_contra hcon
  push_neg at hcon
  set M : List String := (List.range (L.length + 1)).map (fun j => f (start + j)) with hM
  have hnd : M.Nodup := by
    refine List.Nodup.map ?_ (List.nodup_range _)
    intro a b hab
    have := hf hab
    omega
  have hsub : M.toFinset ⊆ L.toFinset := by
    intro x hx
    rw [List.mem_toFinset] at hx ⊢
    rw [hM, List.mem_map] at hx
    obtain ⟨j, hj, rfl⟩ := hx
    exact hcon j (by simpa using Nat.lt_succ_iff.mp (List.mem_range.mp hj))
  have h1 : M.toFinset.card = L.length + 1 := by
    rw [List.toFinset_card_of_nodup hnd, hM]
    simp
  have h2 : L.toFinset.card ≤ L.length := L.toFinset_card_le
  have := Finset.card_le_card hsub
  omega

/-- The stop condition of the collision probe at chain index `i`: the chained
slot is free or holds a deep-equal representative. -/
def probeStop (reg : List (String × HashEntry)) (base : String) (v : Value) (i : Nat) : Bool :=
  match lookupStr (chainKey base i) reg with
  | some e => deepEqual e.value v
  | none => true

theorem probeLoop_succ (reg : List (String × HashEntry)) (base : String) (v : Value)
    (fuel i : Nat) :
    probeLoop reg base v (fuel + 1) i =
      if probeStop reg base v i then some i else probeLoop reg base v fuel (i + 1) := by
  unfold probeStop
  cases h : lookupStr (chainKey base i) reg with
  | none => simp [probeLoop, h]
  | some e =>
    cases hd : deepEqual e.value v <;> simp [probeLoop, h, hd]

theorem probeLoop_isSome_of_stop (reg : List (String × HashEntry)) (base : String) (v : Value) :
    ∀ fuel i₀, (∃ j, j < fuel ∧ probeStop reg base v (i₀ + j)) →
      (probeLoop reg base v fuel i₀).isSome := by
  intro fuel
  induction fuel with
  | zero => intro i₀ ⟨j, hj, _⟩; omega
  | succ fuel ih =>
    intro i₀ ⟨j, hj, hstop⟩
    rw [probeLoop_succ]
    by_cases h : probeStop reg base v i₀
    · simp [h]
    · rw [if_neg h]
      refine ih (i₀ + 1) ⟨j - 1, ?_, ?_⟩
      · rcases Nat.eq_zero_or_pos j with rfl | hpos
        · exact absurd hstop (by simpa using h)
        · omega
      · have hj1 : 1 ≤ j := by
          rcases Nat.eq_zero_or_pos j with rfl | hpos
          · exact absurd hstop (by simpa using h)
          · omega
        have : i₀ + 1 + (j - 1) = i₀ + j := by omega
        rw [this]
        exact hstop

theorem probeLoop_isSome (reg : List (String × HashEntry)) (base : String) (v : Value) :
    (probeLoop reg base v (reg.length + 1) 1).isSome := by
  obtain ⟨j, hj, hfree⟩ := exists_fresh_key (chainKey base) (fun a b h => chainKey_inj h)
    (reg.map Prod.fst) 1
  refine probeLoop_isSome_of_stop reg base v _ 1 ⟨j, ?_, ?_⟩
  · simpa using Nat.lt_succ_iff.mpr hj
  · unfold probeStop
    have : lookupStr (chainKey base (1 + j)) reg = none := lookupStr_eq_none.mpr hfree
    simp [this]

theorem probeLoop_eq_some_iff (reg : List (String × HashEntry)) (base : String) (v : Value) :
    ∀ fuel i₀ i, probeLoop reg base v fuel i₀ = some i ↔
      (i₀ ≤ i ∧ i - i₀ < fuel ∧ probeStop reg base v i ∧
        ∀ j, i₀ ≤ j → j < i → ¬ probeStop reg base v j) := by
  intro fuel
  induction fuel with
  | zero =>
    intro i₀ i
    simp only [probeLoop]
    constructor
    · intro h; cases h
    · intro ⟨_, h, _, _⟩; omega
  | succ fuel ih =>
    intro i₀ i
    rw [probeLoop_succ]
    by_cases h : probeStop reg base v i₀
    · rw [if_pos h]
      constructor
      · intro hsome
        cases hsome
        exact ⟨le_refl _, by omega, h, fun j h1 h2 => by omega⟩
      · intro ⟨h1, h2, h3, h4⟩
        rcases Nat.eq_or_lt_of_le h1 with rfl | hlt
        · rfl
        · exact absurd h (h4 i₀ (le_refl _) hlt)
    · rw [if_neg h, ih]
      constructor
      · intro ⟨h1, h2, h3, h4⟩
        have hne : i₀ ≠ i := by
          rintro rfl
          exact h (by simpa using h3)
        refine ⟨by omega, by omega, h3, fun j hj1 hj2 => ?_⟩
        rcases Nat.eq_or_lt_of_le hj1 with rfl | hlt
        · simpa using h
        · exact h4 j hlt hj2
      · intro ⟨h1, h2, h3, h4⟩
        have hne : i₀ ≠ i := by
          rintro rfl
          exact h h3
        exact ⟨by omega, by omega, h3, fun j hj1 hj2 => h4 j (by omega) hj2⟩

/-! ## Canonical form: recursively key-sorted values -/

/-- Key-sorted reordering of an association list (stable insertion sort on
keys, matching the JS stable sort). -/
def sortFields {α : Type} (fs : List (String × α)) : List (String × α) :=
  List.insertionSort (fun p q => p.1 ≤ q.1) fs

mutual
/-- Canonical form of a value: every object's fields sorted by key. Two
well-formed values are `deepEqual` exactly when their canonical forms are
equal (`deepEqual_iff_canon`). -/
def canonV : Value → Value
  | .varr xs => .varr (canonL xs)
  | .vobj fs => .vobj (sortFields (canonF fs))
  | v => v
termination_by structural v => v

def canonL : List Value → List Value
  | [] => []
  | x :: xs => canonV x :: canonL xs
termination_by structural xs => xs

def canonF : List (String × Value) → List (String × Value)
  | [] => []
  | (k, v) :: fs => (k, canonV v) :: canonF fs
termination_by structural fs => fs
end

instance keyLeTotal {α : Type} : IsTotal (String × α) (fun p q => p.1 ≤ q.1) :=
  ⟨fun a b => le_total a.1 b.1⟩

instance keyLeTrans {α : Type} : IsTrans (String × α) (fun p q => p.1 ≤ q.1) :=
  ⟨fun _ _ _ h₁ h₂ => le_trans h₁ h₂⟩

theorem sortFields_perm {α : Type} (fs : List (String × α)) : List.Perm (sortFields fs) fs :=
  List.perm_insertionSort _ fs

theorem sortFields_sorted {α : Type} (fs : List (String × α)) :
    (sortFields fs).Sorted (fun p q => p.1 ≤ q.1) :=
  List.sorted_insertionSort _ fs

theorem sorted_lt_of_sorted_le_nodup {α : Type} {l : List (String × α)}
    (hs : l.Sorted (fun p q => p.1 ≤ q.1)) (hnd : (l.map Prod.fst).Nodup) :
    l.Pairwise (fun p q => p.1 < q.1) := by
  have hne : l.Pairwise (fun p q : String × α => p.1 ≠ q.1) := List.pairwise_map.mp hnd
  exact (hs.and hne).imp (fun h => lt_of_le_of_ne h.1 h.2)

theorem lookup_of_perm_nodup {α : Type} {l₁ l₂ : List (String × α)} (hp : List.Perm l₁ l₂)
    (hnd : (l₁.map Prod.fst).Nodup) (k : String) : lookupStr k l₁ = lookupStr k l₂ := by
  have hnd₂ : (l₂.map Prod.fst).Nodup := ((hp.map Prod.fst).nodup_iff).mp hnd
  cases h : lookupStr k l₁ with
  | some v => exact (lookupStr_of_mem_nodup (hp.mem_iff.mp (lookupStr_mem h)) hnd₂).symm
  | none =>
    rw [lookupStr_eq_none] at h
    symm
    rw [lookupStr_eq_none]
    intro hmem
    exact h ((hp.map Prod.fst).mem_iff.mpr hmem)

theorem eq_of_sorted_lookup {α : Type} :
    ∀ {l₁ l₂ : List (String × α)}, l₁.Pairwise (fun p q => p.1 < q.1) →
      l₂.Pairwise (fun p q => p.1 < q.1) →
      (∀ k, lookupStr k l₁ = lookupStr k l₂) → l₁ = l₂ := by
  intro l₁
  induction l₁ with
  | nil =>
    intro l₂ _ _ hlook
    cases l₂ with
    | nil => rfl
    | cons p t₂ =>
      have := hlook p.1
      simp [lookupStr] at this
  | cons p t₁ ih =>
    intro l₂ h₁ h₂ hlook
    obtain ⟨k₁, v₁⟩ := p
    cases l₂ with
    | nil =>
      have := hlook k₁
      simp [lookupStr] at this
    | cons q t₂ =>
      obtain ⟨k₂, v₂⟩ := q
      rw [List.pairwise_cons] at h₁ h₂
      have hmem₁ : (k₁, v₁) ∈ (k₂, v₂) :: t₂ := by
        refine lookupStr_mem (v := v₁) ?_
        rw [← hlook k₁]
        simp [lookupStr]
      have hmem₂ : (k₂, v₂) ∈ (k₁, v₁) :: t₁ := by
        refine lookupStr_mem (v := v₂) ?_
        rw [hlook k₂]
        simp [lookupStr]
      have hk : k₁ = k₂ := by
        rcases List.mem_cons.mp hmem₁ with h | h
        · exact congrArg Prod.fst h
        · rcases List.mem_cons.mp hmem₂ with h' | h'
          · exact (congrArg Prod.fst h').symm
          · exact absurd (lt_trans (h₂.1 _ h) (h₁.1 _ h')) (lt_irrefl _)
      subst hk
      have hv : v₁ = v₂ := by
        have := hlook k₁
        simp [lookupStr] at this
        exact this
      subst hv
      have htail : ∀ k, lookupStr k t₁ = lookupStr k t₂ := by
        intro k
        by_cases hkk : k = k₁
        · subst hkk
          have hn₁ : lookupStr k t₁ = none := by
            rw [lookupStr_eq_none]
            intro hmem
            obtain ⟨⟨k', v'⟩, hm, hfst⟩ := List.mem_map.mp hmem
            exact absurd (h₁.1 _ hm) (by simp at hfst; simp [hfst])
          have hn₂ : lookupStr k t₂ = none := by
            rw [lookupStr_eq_none]
            intro hmem
            obtain ⟨⟨k', v'⟩, hm, hfst⟩ := List.mem_map.mp hmem
            exact absurd (h₂.1 _ hm) (by simp at hfst; simp [hfst])
          rw [hn₁, hn₂]
        · have e₁ := hlook k
          simp only [lookupStr, if_neg hkk] at e₁
          exact e₁
      rw [ih h₁.2 h₂.2 htail]

theorem perm_of_nodup_subset_length {α : Type} {l₁ l₂ : List α} (hnd : l₁.Nodup)
    (hsub : l₁ ⊆ l₂) (hlen : l₂.length ≤ l₁.length) : List.Perm l₁ l₂ :=
  (List.subperm_of_subset hnd hsub).perm_of_length_le hlen

theorem canonF_map_fst (fs : List (String × Value)) :
    (canonF fs).map Prod.fst = fs.map Prod.fst := by
  induction fs with
  | nil => simp [canonF]
  | cons p rest ih =>
    obtain ⟨k, v⟩ := p
    simp [canonF, ih]

theorem canonF_length (fs : List (String × Value)) : (canonF fs).length = fs.length := by
  induction fs with
  | nil => rfl
  | cons p rest ih => obtain ⟨k, v⟩ := p; simp [canonF, ih]

theorem canonL_length (xs : List Value) : (canonL xs).length = xs.length := by
  induction xs with
  | nil => rfl
  | cons x rest ih => simp [canonL, ih]

theorem lookup_canonF (k : String) (fs : List (String × Value)) :
    lookupStr k (canonF fs) = (lookupStr k fs).map canonV := by
  induction fs with
  | nil => simp [canonF, lookupStr]
  | cons p rest ih =>
    obtain ⟨k₁, v⟩ := p
    by_cases hk : k = k₁ <;> simp [canonF, lookupStr, hk, ih]

theorem wfV_vobj {fs : List (String × Value)} :
    wfV (.vobj fs) = true ↔ (fs.map Prod.fst).Nodup ∧ wfVF fs = true := by
  simp [wfV]

theorem wfV_varr {xs : List Value} : wfV (.varr xs) = true ↔ wfVL xs = true := by
  simp [wfV]

theorem wfVF_mem {fs : List (String × Value)} {k : String} {v : Value}
    (hwf : wfVF fs = true) (hmem : (k, v) ∈ fs) : wfV v = true := by
  induction fs with
  | nil => simp at hmem
  | cons p rest ih =>
    obtain ⟨k₁, w⟩ := p
    simp only [wfVF, Bool.and_eq_true] at hwf
    rcases List.mem_cons.mp hmem with h | h
    · cases h; exact hwf.1
    · exact ih hwf.2 h

theorem wfVL_mem {xs : List Value} {x : Value} (hwf : wfVL xs = true) (hmem : x ∈ xs) :
    wfV x = true := by
  induction xs with
  | nil => simp at hmem
  | cons y rest ih =>
    simp only [wfVL, Bool.and_eq_true] at hwf
    rcases List.mem_cons.mp hmem with rfl | h
    · exact hwf.1
    · exact ih hwf.2 h

theorem noOtherVF_mem {fs : List (String × Value)} {k : String} {v : Value}
    (hno : noOtherVF fs = true) (hmem : (k, v) ∈ fs) : noOtherV v = true := by
  induction fs with
  | nil => simp at hmem
  | cons p rest ih =>
    obtain ⟨k₁, w⟩ := p
    simp only [noOtherVF, Bool.and_eq_true] at hno
    rcases List.mem_cons.mp hmem with h | h
    · cases h; exact hno.1
    · exact ih hno.2 h

theorem noOtherVL_mem {xs : List Value} {x : Value} (hno : noOtherVL xs = true) (hmem : x ∈ xs) :
    noOtherV x = true := by
  induction xs with
  | nil => simp at hmem
  | cons y rest ih =>
    simp only [noOtherVL, Bool.and_eq_true] at hno
    rcases List.mem_cons.mp hmem with rfl | h
    · exact hno.1
    · exact ih hno.2 h

theorem sizeV_mem_le {xs : List Value} {x : Value} (hmem : x ∈ xs) : sizeV x ≤ sizeVL xs := by
  induction xs with
  | nil => simp at hmem
  | cons y rest ih =>
    rw [sizeVL]
    rcases List.mem_cons.mp hmem with rfl | h
    · omega
    · have := ih h; omega

theorem sizeV_memF_le {fs : List (String × Value)} {k : String} {v : Value}
    (hmem : (k, v) ∈ fs) : sizeV v ≤ sizeVF fs := by
  induction fs with
  | nil => simp at hmem
  | cons p rest ih =>
    obtain ⟨k₁, w⟩ := p
    rw [sizeVF]
    rcases List.mem_cons.mp hmem with h | h
    · cases h; omega
    · have := ih h; omega

theorem deepEqualFields_iff_forall {fs gs : List (String × Value)} :
    deepEqualFields fs gs = true ↔
      ∀ k v, (k, v) ∈ fs → ∃ w, lookupStr k gs = some w ∧ deepEqual v w = true := by
  induction fs with
  | nil => simp [deepEqualFields]
  | cons p rest ih =>
    obtain ⟨k₁, v₁⟩ := p
    rw [deepEqualFields]
    cases h : lookupStr k₁ gs with
    | none =>
      simp only [Bool.false_eq_true, false_iff]
      intro hall
      obtain ⟨w, hw, _⟩ := hall k₁ v₁ (List.mem_cons_self _ _)
      rw [h] at hw
      cases hw
    | some w =>
      simp only [Bool.and_eq_true, ih]
      constructor
      · intro ⟨h₁, h₂⟩ k v hmem
        rcases List.mem_cons.mp hmem with he | he
        · obtain ⟨rfl, rfl⟩ := Prod.mk.injEq _ _ _ _ ▸ he
          exact ⟨w, h, h₁⟩
        · exact h₂ k v he
      · intro hall
        refine ⟨?_, fun k v hmem => hall k v (List.mem_cons_of_mem _ hmem)⟩
        obtain ⟨w', hw', hde⟩ := hall k₁ v₁ (List.mem_cons_self _ _)
        rw [h] at hw'
        cases hw'
        exact hde

theorem deepEqualList_iff_forall₂ {xs ys : List Value} :
    deepEqualList xs ys = true ↔ List.Forall₂ (fun x y => deepEqual x y = true) xs ys := by
  induction xs generalizing ys with
  | nil => cases ys <;> simp [deepEqualList]
  | cons x rest ih =>
    cases ys with
    | nil => simp [deepEqualList]
    | cons y yrest => simp [deepEqualList, ih, List.forall₂_cons]

/-! ## `deepEqual` is equality of canonical forms -/

theorem canon_main : ∀ N : Nat,
    (∀ a b : Value, sizeV a ≤ N → wfV a = true → wfV b = true →
      (deepEqual a b = true ↔ canonV a = canonV b)) ∧
    (∀ xs ys : List Value, sizeVL xs ≤ N → wfVL xs = true → wfVL ys = true →
      (deepEqualList xs ys = true ↔ canonL xs = canonL ys)) ∧
    (∀ fs gs : List (String × Value), sizeVF fs ≤ N →
      wfV (.vobj fs) = true → wfV (.vobj gs) = true →
      ((fs.length = gs.length ∧ deepEqualFields fs gs = true) ↔
        sortFields (canonF fs) = sortFields (canonF gs))) := by
  intro N
  induction N using Nat.strong_induction_on with
  | _ N ih =>
    have hval : ∀ a b : Value, sizeV a ≤ N → wfV a = true → wfV b = true →
        (deepEqual a b = true ↔ canonV a = canonV b) := by
      intro a b hsz hwa hwb
      by_cases heq : beqV a b = true
      · have hab : a = b := (beqV_iff a b).mp heq
        subst hab
        have hr : deepEqual a a = true := by
          rw [deepEqual.eq_def]
          simp [beqV_refl a]
        simp [hr]
      · have heqf : beqV a b = false := by
          cases h : beqV a b
          · rfl
          · exact absurd h heq
        have hne : a ≠ b := fun h => heq (h ▸ beqV_refl a)
        match a, b with
        | .varr xs, .varr ys =>
          have hN : 1 + sizeVL xs ≤ N := by rw [← sizeV]; exact hsz
          have hiff := (ih (N - 1) (by omega)).2.1 xs ys (by omega)
            (wfV_varr.mp hwa) (wfV_varr.mp hwb)
          rw [deepEqual.eq_def, if_neg (by simp [heqf])]
          show deepEqualList xs ys = true ↔ canonV (.varr xs) = canonV (.varr ys)
          simp only [canonV, Value.varr.injEq]
          exact hiff
        | .vobj fs, .vobj gs =>
          have hN : 1 + sizeVF fs ≤ N := by rw [← sizeV]; exact hsz
          have hiff := (ih (N - 1) (by omega)).2.2 fs gs (by omega) hwa hwb
          rw [deepEqual.eq_def, if_neg (by simp [heqf])]
          show ((fs.length == gs.length) && deepEqualFields fs gs) = true ↔
            canonV (.vobj fs) = canonV (.vobj gs)
          simp only [canonV, Value.vobj.injEq, Bool.and_eq_true, beq_iff_eq]
          exact hiff
        | .vnull, .vnull => exact absurd rfl hne
        | .vundef, .vundef => exact absurd rfl hne
        | .vbool x, .vbool y =>
          have hxy : x ≠ y := by simpa [beqV] using heqf
          rw [deepEqual.eq_def, if_neg (by simp [heqf])]
          show false = true ↔ canonV (.vbool x) = canonV (.vbool y)
          simp [canonV, hxy]
        | .vnum x, .vnum y =>
          have hxy : x ≠ y := by simpa [beqV] using heqf
          rw [deepEqual.eq_def, if_neg (by simp [heqf])]
          show false = true ↔ canonV (.vnum x) = canonV (.vnum y)
          simp [canonV, hxy]
        | .vstr x, .vstr y =>
          have hxy : x ≠ y := by simpa [beqV] using heqf
          rw [deepEqual.eq_def, if_neg (by simp [heqf])]
          show false = true ↔ canonV (.vstr x) = canonV (.vstr y)
          simp [canonV, hxy]
        | .vother x, .vother y =>
          have hxy : x ≠ y := by simpa [beqV] using heqf
          rw [deepEqual.eq_def, if_neg (by simp [heqf])]
          show false = true ↔ canonV (.vother x) = canonV (.vother y)
          simp [canonV, hxy]
        | .vnull, .vundef | .vnull, .vbool _ | .vnull, .vnum _ | .vnull, .vstr _
        | .vnull, .varr _ | .vnull, .vobj _ | .vnull, .vother _
        | .vundef, .vnull | .vundef, .vbool _ | .vundef, .vnum _ | .vundef, .vstr _
        | .vundef, .varr _ | .vundef, .vobj _ | .vundef, .vother _
        | .vbool _, .vnull | .vbool _, .vundef | .vbool _, .vnum _ | .vbool _, .vstr _
        | .vbool _, .varr _ | .vbool _, .vobj _ | .vbool _, .vother _
        | .vnum _, .vnull | .vnum _, .vundef | .vnum _, .vbool _ | .vnum _, .vstr _
        | .vnum _, .varr _ | .vnum _, .vobj _ | .vnum _, .vother _
        | .vstr _, .vnull | .vstr _, .vundef | .vstr _, .vbool _ | .vstr _, .vnum _
        | .vstr _, .varr _ | .vstr _, .vobj _ | .vstr _, .vother _
        | .varr _, .vnull | .varr _, .vundef | .varr _, .vbool _ | .varr _, .vnum _
        | .varr _, .vstr _ | .varr _, .vobj _ | .varr _, .vother _
        | .vobj _, .vnull | .vobj _, .vundef | .vobj _, .vbool _ | .vobj _, .vnum _
        | .vobj _, .vstr _ | .vobj _, .varr _ | .vobj _, .vother _
        | .vother _, .vnull | .vother _, .vundef | .vother _, .vbool _ | .vother _, .vnum _
        | .vother _, .vstr _ | .vother _, .varr _ | .vother _, .vobj _ =>
          rw [deepEqual.eq_def, if_neg (by simp [heqf])]
          simp [canonV]
    have hlist : ∀ xs ys : List Value, sizeVL xs ≤ N → wfVL xs = true → wfVL ys = true →
        (deepEqualList xs ys = true ↔ canonL xs = canonL ys) := by
      intro xs
      induction xs with
      | nil =>
        intro ys _ _ _
        cases ys <;> simp [deepEqualList, canonL]
      | cons x rest ihx =>
        intro ys hsz hwx hwy
        cases ys with
        | nil => simp [deepEqualList, canonL]
        | cons y yrest =>
          rw [sizeVL] at hsz
          simp only [wfVL, Bool.and_eq_true] at hwx hwy
          have h1 := hval x y (by omega) hwx.1 hwy.1
          have h2 := ihx yrest (by omega) hwx.2 hwy.2
          simp [deepEqualList, canonL, h1, h2]
    have hfld : ∀ fs gs : List (String × Value), sizeVF fs ≤ N →
        wfV (.vobj fs) = true → wfV (.vobj gs) = true →
        ((fs.length = gs.length ∧ deepEqualFields fs gs = true) ↔
          sortFields (canonF fs) = sortFields (canonF gs)) := by
      intro fs gs hsz hwf hwg
      obtain ⟨hndf, hwff⟩ := wfV_vobj.mp hwf
      obtain ⟨hndg, hwfg⟩ := wfV_vobj.mp hwg
      have hndcf : ((canonF fs).map Prod.fst).Nodup := by rw [canonF_map_fst]; exact hndf
      have hndcg : ((canonF gs).map Prod.fst).Nodup := by rw [canonF_map_fst]; exact hndg
      have hnds_f : ((sortFields (canonF fs)).map Prod.fst).Nodup :=
        (((sortFields_perm (canonF fs)).map Prod.fst).nodup_iff).mpr hndcf
      have hnds_g : ((sortFields (canonF gs)).map Prod.fst).Nodup :=
        (((sortFields_perm (canonF gs)).map Prod.fst).nodup_iff).mpr hndcg
      constructor
      · rintro ⟨hlen, hde⟩
        have hpw := deepEqualFields_iff_forall.mp hde
        have hsub : fs.map Prod.fst ⊆ gs.map Prod.fst := by
          intro k hk
          obtain ⟨p, hmem, hfst⟩ := List.mem_map.mp hk
          obtain ⟨k', v⟩ := p
          cases hfst
          obtain ⟨w, hw, _⟩ := hpw _ _ hmem
          exact lookupStr_isSome.mp (by simp [hasKey, hw])
        have hperm : List.Perm (fs.map Prod.fst) (gs.map Prod.fst) :=
          perm_of_nodup_subset_length hndf hsub (by simp [hlen])
        refine eq_of_sorted_lookup
          (sorted_lt_of_sorted_le_nodup (sortFields_sorted _) hnds_f)
          (sorted_lt_of_sorted_le_nodup (sortFields_sorted _) hnds_g) ?_
        intro k
        rw [lookup_of_perm_nodup (sortFields_perm _) hnds_f,
            lookup_of_perm_nodup (sortFields_perm _) hnds_g,
            lookup_canonF, lookup_canonF]
        cases hl : lookupStr k fs with
        | some v =>
          obtain ⟨w, hw, hdvw⟩ := hpw _ _ (lookupStr_mem hl)
          rw [hw]
          have hcvw := (hval v w (le_trans (sizeV_memF_le (lookupStr_mem hl)) hsz)
            (wfVF_mem hwff (lookupStr_mem hl)) (wfVF_mem hwfg (lookupStr_mem hw))).mp hdvw
          simp [hcvw]
        | none =>
          have hnone : lookupStr k gs = none := by
            rw [lookupStr_eq_none] at hl ⊢
            exact fun hk => hl (hperm.mem_iff.mpr hk)
          rw [hnone]
      · intro hsorted
        have hlen : fs.length = gs.length := by
          have h1 : (sortFields (canonF fs)).length = (sortFields (canonF gs)).length := by
            rw [hsorted]
          rwa [(sortFields_perm _).length_eq, (sortFields_perm _).length_eq,
            canonF_length, canonF_length] at h1
        refine ⟨hlen, deepEqualFields_iff_forall.mpr ?_⟩
        intro k v hmem
        have hlookf : lookupStr k fs = some v := lookupStr_of_mem_nodup hmem hndf
        have h2 : lookupStr k (sortFields (canonF fs)) = some (canonV v) := by
          rw [lookup_of_perm_nodup (sortFields_perm _) hnds_f, lookup_canonF, hlookf]
          rfl
        rw [hsorted, lookup_of_perm_nodup (sortFields_perm _) hnds_g, lookup_canonF] at h2
        cases hg : lookupStr k gs with
        | none => rw [hg] at h2; cases h2
        | some w =>
          rw [hg] at h2
          simp only [Option.map_some'] at h2
          have hcan : canonV w = canonV v := by injection h2
          refine ⟨w, rfl, ?_⟩
          exact (hval v w (le_trans (sizeV_memF_le hmem) hsz)
            (wfVF_mem hwff hmem) (wfVF_mem hwfg (lookupStr_mem hg))).mpr hcan.symm
    exact ⟨hval, hlist, hfld⟩

/-- The decisive equivalence: on well-formed values, `deepEqual` coincides
with equality of canonical forms. -/
theorem deepEqual_iff_canon {a b : Value} (hwa : wfV a = true) (hwb : wfV b = true) :
    deepEqual a b = true ↔ canonV a = canonV b :=
  (canon_main (sizeV a)).1 a b (le_refl _) hwa hwb

theorem deepEqual_refl (a : Value) : deepEqual a a = true := by
  rw [deepEqual.eq_def, if_pos (beqV_refl a)]

theorem deepEqual_symm {a b : Value} (hwa : wfV a = true) (hwb : wfV b = true)
    (h : deepEqual a b = true) : deepEqual b a = true :=
  (deepEqual_iff_canon hwb hwa).mpr ((deepEqual_iff_canon hwa hwb).mp h).symm

theorem deepEqual_trans {a b c : Value} (hwa : wfV a = true) (hwb : wfV b = true)
    (hwc : wfV c = true) (h₁ : deepEqual a b = true) (h₂ : deepEqual b c = true) :
    deepEqual a c = true :=
  (deepEqual_iff_canon hwa hwc).mpr
    (((deepEqual_iff_canon hwa hwb).mp h₁).trans ((deepEqual_iff_canon hwb hwc).mp h₂))

/-! ## Hashing respects deep equality -/

theorem lookup_hashFields (k : String) (fs : List (String × Value)) :
    lookupStr k (hashFields fs) = (lookupStr k fs).map computeHash := by
  induction fs with
  | nil => simp [hashFields, lookupStr]
  | cons p rest ih =>
    obtain ⟨k₁, v⟩ := p
    by_cases hk : k = k₁ <;> simp [hashFields, lookupStr, hk, ih]

theorem sortKeys_sorted (l : List String) : (sortKeys l).Sorted (fun a b => a ≤ b) :=
  List.sorted_insertionSort _ l

theorem sortKeys_perm (l : List String) : List.Perm (sortKeys l) l :=
  List.perm_insertionSort _ l

theorem sortKeys_eq_of_perm {l₁ l₂ : List String} (hp : List.Perm l₁ l₂) :
    sortKeys l₁ = sortKeys l₂ := by
  haveI : IsAntisymm String (fun a b => a ≤ b) := ⟨fun _ _ h₁ h₂ => le_antisymm h₁ h₂⟩
  exact List.eq_of_perm_of_sorted ((sortKeys_perm l₁).trans (hp.trans (sortKeys_perm l₂).symm))
    (sortKeys_sorted l₁) (sortKeys_sorted l₂)

theorem hash_main : ∀ N : Nat,
    (∀ a : Value, sizeV a ≤ N → wfV a = true → computeHash (canonV a) = computeHash a) ∧
    (∀ xs : List Value, sizeVL xs ≤ N → wfVL xs = true → hashElems (canonL xs) = hashElems xs) := by
  intro N
  induction N using Nat.strong_induction_on with
  | _ N ih =>
    have hval : ∀ a : Value, sizeV a ≤ N → wfV a = true →
        computeHash (canonV a) = computeHash a := by
      intro a hsz hwa
      match a with
      | .vnull | .vundef | .vbool _ | .vnum _ | .vstr _ | .vother _ => rfl
      | .varr xs =>
        have hN : 1 + sizeVL xs ≤ N := by rw [← sizeV]; exact hsz
        have hl := (ih (N - 1) (by omega)).2 xs (by omega) (wfV_varr.mp hwa)
        show computeHash (.varr (canonL xs)) = computeHash (.varr xs)
        rw [computeHash, computeHash, hl]
      | .vobj fs =>
        have hN : 1 + sizeVF fs ≤ N := by rw [← sizeV]; exact hsz
        obtain ⟨hnd, hwff⟩ := wfV_vobj.mp hwa
        have hndc : ((canonF fs).map Prod.fst).Nodup := by rw [canonF_map_fst]; exact hnd
        have hnds : ((sortFields (canonF fs)).map Prod.fst).Nodup :=
          (((sortFields_perm (canonF fs)).map Prod.fst).nodup_iff).mpr hndc
        show computeHash (.vobj (sortFields (canonF fs))) = computeHash (.vobj fs)
        rw [computeHash, computeHash]
        have hpk : List.Perm ((sortFields (canonF fs)).map Prod.fst) (fs.map Prod.fst) := by
          have h1 := (sortFields_perm (canonF fs)).map Prod.fst
          rw [canonF_map_fst] at h1
          exact h1
        rw [sortKeys_eq_of_perm hpk]
        have hmap : List.map
            (fun k => k ++ ":" ++ (lookupStr k (hashFields (sortFields (canonF fs)))).getD "")
            (sortKeys (fs.map Prod.fst)) =
          List.map (fun k => k ++ ":" ++ (lookupStr k (hashFields fs)).getD "")
            (sortKeys (fs.map Prod.fst)) := by
          refine List.map_congr_left ?_
          intro k _
          congr 1
          rw [lookup_hashFields, lookup_hashFields,
            lookup_of_perm_nodup (sortFields_perm _) hnds, lookup_canonF]
          cases hl : lookupStr k fs with
          | none => rfl
          | some v =>
            have hmem := lookupStr_mem hl
            have hv := (ih (N - 1) (by omega)).1 v
              (by have := sizeV_memF_le hmem; omega) (wfVF_mem hwff hmem)
            simp [hv]
        rw [hmap]
    have hlist : ∀ xs : List Value, sizeVL xs ≤ N → wfVL xs = true →
        hashElems (canonL xs) = hashElems xs := by
      intro xs
      induction xs with
      | nil => intro _ _; rfl
      | cons x rest ihx =>
        intro hsz hwx
        rw [sizeVL] at hsz
        simp only [wfVL, Bool.and_eq_true] at hwx
        show hashElems (canonV x :: canonL rest) = hashElems (x :: rest)
        rw [hashElems, hashElems, hval x (by omega) hwx.1, ihx (by omega) hwx.2]
    exact ⟨hval, hlist⟩

/-- Hashing is invariant under deep equality of well-formed values. -/
theorem computeHash_deepEqual {a b : Value} (hwa : wfV a = true) (hwb : wfV b = true)
    (h : deepEqual a b = true) : computeHash a = computeHash b := by
  have hc := (deepEqual_iff_canon hwa hwb).mp h
  calc computeHash a = computeHash (canonV a) :=
        ((hash_main (sizeV a)).1 a (le_refl _) hwa).symm
    _ = computeHash (canonV b) := by rw [hc]
    _ = computeHash b := (hash_main (sizeV b)).1 b (le_refl _) hwb

theorem hashFields_eq_map (fs : List (String × Value)) :
    hashFields fs = fs.map (fun p => (p.1, computeHash p.2)) := by
  induction fs with
  | nil => rfl
  | cons p rest ih => obtain ⟨k, v⟩ := p; simp [hashFields, ih]

/-- **C7.** Two objects with identical key/value sets that differ only in key
insertion order (a permutation of the field list, keys duplicate-free as in
every JS object) receive the same digest from `computeHash`: object hashing
sorts the keys lexicographically before concatenating `key:digest` pairs, so
it is independent of insertion order. -/
theorem claim_C7 (fs gs : List (String × Value)) (hp : List.Perm fs gs)
    (hnd : (fs.map Prod.fst).Nodup) :
    computeHash (.vobj fs) = computeHash (.vobj gs) := by
  rw [computeHash, computeHash, sortKeys_eq_of_perm (hp.map Prod.fst)]
  have hndh : ((hashFields fs).map Prod.fst).Nodup := by
    rw [hashFields_eq_map]
    simpa [Function.comp] using hnd
  have hph : List.Perm (hashFields fs) (hashFields gs) := by
    rw [hashFields_eq_map, hashFields_eq_map]
    exact hp.map _
  have hmap : List.map
      (fun k => k ++ ":" ++ (lookupStr k (hashFields fs)).getD "")
      (sortKeys (gs.map Prod.fst)) =
    List.map (fun k => k ++ ":" ++ (lookupStr k (hashFields gs)).getD "")
      (sortKeys (gs.map Prod.fst)) := by
    refine List.map_congr_left ?_
    intro k _
    rw [lookup_of_perm_nodup hph hndh]
  rw [hmap]

/-- Witness for C7: `{"a":1,"b":null}` vs `{"b":null,"a":1}` hash equal. -/
theorem claim_C7_witness :
    computeHash (.vobj [("a", .vnum 1), ("b", .vnull)]) =
      computeHash (.vobj [("b", .vnull), ("a", .vnum 1)]) :=
  claim_C7 [("a", .vnum 1), ("b", .vnull)] [("b", .vnull), ("a", .vnum 1)]
    (by decide) (by decide)

/-! ## Traversal invariants -/

/-- Occurrence count stored at a key (0 when the key is absent). -/
def countOf (reg : List (String × HashEntry)) (k : String) : Nat :=
  ((lookupStr k reg).map (fun e => e.count)).getD 0

/-- The key under which `registerValue` counts an occurrence of `v` against
registry `reg`: the digest itself when its slot is free or deep-equal,
otherwise the first free-or-deep-equal chained slot. -/
def assignKey (reg : List (String × HashEntry)) (v : Value) : String :=
  match lookupStr (computeHash v) reg with
  | none => computeHash v
  | some e =>
    if deepEqual e.value v then computeHash v
    else chainKey (computeHash v)
      ((probeLoop reg (computeHash v) v (reg.length + 1) 1).getD (reg.length + 1))

/-- Registry invariant maintained by the traversal. -/
structure RegInv (reg : List (String × HashEntry)) : Prop where
  nodup : (reg.map Prod.fst).Nodup
  good : ∀ p ∈ reg, wfV p.2.value = true ∧ isComposite p.2.value = true
  self : ∀ p ∈ reg, assignKey reg p.2.value = p.1
  distinct : ∀ p ∈ reg, ∀ q ∈ reg, p.1 ≠ q.1 → ¬ deepEqual p.2.value q.2.value = true

/-- Invariant of the full traversal state. -/
structure StInv (st : TravState) : Prop where
  reg : RegInv st.hashRegistry
  init : ∀ p ∈ st.hashRegistry, p.2.refName = none ∧ p.2.dependencies = []
  v2h : ∀ p ∈ st.valueToHash, ∃ e, lookupStr p.2 st.hashRegistry = some e ∧
    deepEqual e.value p.1 = true ∧ wfV p.1 = true ∧ isComposite p.1 = true
  sregNodup : (st.stringRegistry.map Prod.fst).Nodup
  sregVal : ∀ p ∈ st.stringRegistry, p.2.value = p.1 ∧ p.2.index = none

theorem deepEqual_congr_right {a v w : Value} (hwa : wfV a = true) (hwv : wfV v = true)
    (hww : wfV w = true) (h : deepEqual v w = true) : deepEqual a v = deepEqual a w := by
  cases h1 : deepEqual a v with
  | true => exact (deepEqual_trans hwa hwv hww h1 h).symm
  | false =>
    cases h2 : deepEqual a w with
    | false => rfl
    | true =>
      have := deepEqual_trans hwa hww hwv h2 (deepEqual_symm hwv hww h)
      rw [h1] at this
      cases this

theorem probeLoop_ext {reg₁ reg₂ : List (String × HashEntry)} {base₁ base₂ : String}
    {v₁ v₂ : Value} (hstop : ∀ i, probeStop reg₁ base₁ v₁ i = probeStop reg₂ base₂ v₂ i) :
    ∀ fuel i₀, probeLoop reg₁ base₁ v₁ fuel i₀ = probeLoop reg₂ base₂ v₂ fuel i₀ := by
  intro fuel
  induction fuel with
  | zero => intro i₀; rfl
  | succ fuel ih =>
    intro i₀
    rw [probeLoop_succ, probeLoop_succ, hstop i₀]
    by_cases h : probeStop reg₂ base₂ v₂ i₀
    · simp [h]
    · simp [h, ih]

/-- Deep-equal values are counted against the same registry key. -/
theorem assignKey_congr {reg : List (String × HashEntry)} {v w : Value} (hinv : RegInv reg)
    (hwv : wfV v = true) (hww : wfV w = true) (h : deepEqual v w = true) :
    assignKey reg v = assignKey reg w := by
  have hh : computeHash v = computeHash w := computeHash_deepEqual hwv hww h
  unfold assignKey
  rw [← hh]
  cases hbase : lookupStr (computeHash v) reg with
  | none => simp [hbase]
  | some e =>
    simp only [hbase]
    have hwe : wfV e.value = true := (hinv.good _ (lookupStr_mem hbase)).1
    have hde : deepEqual e.value v = deepEqual e.value w :=
      deepEqual_congr_right hwe hwv hww h
    rw [hde]
    by_cases hm : deepEqual e.value w = true
    · simp [hm]
    · have hm' : deepEqual e.value w = false := by
        cases hx : deepEqual e.value w
        · rfl
        · exact absurd hx hm
      simp only [hm', if_neg, Bool.false_eq_true, if_false]
      have hstop : ∀ i, probeStop reg (computeHash v) v i =
          probeStop reg (computeHash v) w i := by
        intro i
        unfold probeStop
        cases hc : lookupStr (chainKey (computeHash v) i) reg with
        | none => rfl
        | some e₁ =>
          exact deepEqual_congr_right ((hinv.good _ (lookupStr_mem hc)).1) hwv hww h
      rw [probeLoop_ext hstop]

theorem lookup_value_congr_probeStop {reg₁ reg₂ : List (String × HashEntry)} {base : String}
    {v : Value}
    (hsame : ∀ k, (lookupStr k reg₁).map (fun e => e.value) =
      (lookupStr k reg₂).map (fun e => e.value)) (i : Nat) :
    probeStop reg₁ base v i = probeStop reg₂ base v i := by
  unfold probeStop
  have h := hsame (chainKey base i)
  cases h₁ : lookupStr (chainKey base i) reg₁ with
  | none =>
    rw [h₁] at h
    cases h₂ : lookupStr (chainKey base i) reg₂ with
    | none => rfl
    | some e₂ => rw [h₂] at h; cases h
  | some e₁ =>
    rw [h₁] at h
    cases h₂ : lookupStr (chainKey base i) reg₂ with
    | none => rw [h₂] at h; cases h
    | some e₂ =>
      rw [h₂] at h
      simp only [Option.map_some'] at h
      rw [Option.some.injEq] at h
      show deepEqual e₁.value v = deepEqual e₂.value v
      rw [h]

/-- `assignKey` only depends on the keys, the stored values, and the length. -/
theorem assignKey_ext {reg₁ reg₂ : List (String × HashEntry)} {v : Value}
    (hsame : ∀ k, (lookupStr k reg₁).map (fun e => e.value) =
      (lookupStr k reg₂).map (fun e => e.value))
    (hlen : reg₁.length = reg₂.length) : assignKey reg₁ v = assignKey reg₂ v := by
  unfold assignKey
  have hb := hsame (computeHash v)
  cases h₁ : lookupStr (computeHash v) reg₁ with
  | none =>
    rw [h₁] at hb
    cases h₂ : lookupStr (computeHash v) reg₂ with
    | none => simp [h₁, h₂]
    | some e₂ => rw [h₂] at hb; cases hb
  | some e₁ =>
    rw [h₁] at hb
    cases h₂ : lookupStr (computeHash v) reg₂ with
    | none => rw [h₂] at hb; cases hb
    | some e₂ =>
      rw [h₂] at hb
      simp only [Option.map_some'] at hb
      rw [Option.some.injEq] at hb
      simp only [h₁, h₂, hb]
      by_cases hm : deepEqual e₂.value v = true
      · simp [hm]
      · have hml : probeLoop reg₁ (computeHash v) v (reg₁.length + 1) 1 =
            probeLoop reg₂ (computeHash v) v (reg₂.length + 1) 1 := by
          rw [hlen]
          exact probeLoop_ext (lookup_value_congr_probeStop hsame) _ 1
        rw [hlen] at hml
        simp [hm, hml, hlen]

theorem updateAt_lookup_value {k₀ : String} {f : HashEntry → HashEntry}
    (hf : ∀ e, (f e).value = e.value) (reg : List (String × HashEntry)) (k : String) :
    (lookupStr k (updateAt k₀ f reg)).map (fun e => e.value) =
      (lookupStr k reg).map (fun e => e.value) := by
  by_cases hk : k = k₀
  · subst hk
    rw [updateAt_lookup_self]
    cases lookupStr k reg with
    | none => rfl
    | some e => simp [hf]
  · rw [updateAt_lookup_other hk]

theorem getD_probe (reg : List (String × HashEntry)) (base : String) (v : Value) :
    ∃ i, probeLoop reg base v (reg.length + 1) 1 = some i ∧
      (probeLoop reg base v (reg.length + 1) 1).getD (reg.length + 1) = i := by
  obtain ⟨i, hi⟩ := Option.isSome_iff_exists.mp (probeLoop_isSome reg base v)
  exact ⟨i, hi, by rw [hi]; rfl⟩

/-- The slot chosen by `assignKey` is free or holds a deep-equal value. -/
theorem assignKey_spec (reg : List (String × HashEntry)) (v : Value) :
    lookupStr (assignKey reg v) reg = none ∨
      ∃ e, lookupStr (assignKey reg v) reg = some e ∧ deepEqual e.value v = true := by
  unfold assignKey
  cases hbase : lookupStr (computeHash v) reg with
  | none => exact Or.inl hbase
  | some e =>
    by_cases hm : deepEqual e.value v = true
    · simp only [hm, if_pos]
      exact Or.inr ⟨e, hbase, hm⟩
    · have hm' : deepEqual e.value v = false := by
        cases hx : deepEqual e.value v
        · rfl
        · exact absurd hx hm
      simp only [hm', Bool.false_eq_true, if_false]
      obtain ⟨i, hi, hgetd⟩ := getD_probe reg (computeHash v) v
      rw [hgetd]
      obtain ⟨_, _, hstop, _⟩ := (probeLoop_eq_some_iff reg (computeHash v) v _ 1 i).mp hi
      unfold probeStop at hstop
      cases hc : lookupStr (chainKey (computeHash v) i) reg with
      | none => exact Or.inl rfl
      | some e₁ =>
        rw [hc] at hstop
        exact Or.inr ⟨e₁, rfl, hstop⟩

theorem updateAt_mem {α : Type} {k : String} {f : α → α} {m : List (String × α)} {p : String × α}
    (h : p ∈ updateAt k f m) : ∃ q ∈ m, p.1 = q.1 ∧ (p.2 = q.2 ∨ p.2 = f q.2) := by
  induction m with
  | nil => simp [updateAt] at h
  | cons q₀ rest ih =>
    obtain ⟨k₁, v₁⟩ := q₀
    by_cases hk : k = k₁
    · rw [updateAt, if_pos hk] at h
      rcases List.mem_cons.mp h with rfl | h
      · exact ⟨(k₁, v₁), List.mem_cons_self _ _, rfl, Or.inr rfl⟩
      · exact ⟨p, List.mem_cons_of_mem _ h, rfl, Or.inl rfl⟩
    · rw [updateAt, if_neg hk] at h
      rcases List.mem_cons.mp h with rfl | h
      · exact ⟨(k₁, v₁), List.mem_cons_self _ _, rfl, Or.inl rfl⟩
      · obtain ⟨q, hq, h1, h2⟩ := ih h
        exact ⟨q, List.mem_cons_of_mem _ hq, h1, h2⟩

/-- `RegInv` is stable under value-preserving entry updates. -/
theorem RegInv_update {reg : List (String × HashEntry)} {k : String} {f : HashEntry → HashEntry}
    (hf : ∀ e, (f e).value = e.value) (hinv : RegInv reg) : RegInv (updateAt k f reg) := by
  have hsame : ∀ k₁, (lookupStr k₁ (updateAt k f reg)).map (fun e => e.value) =
      (lookupStr k₁ reg).map (fun e => e.value) := updateAt_lookup_value hf reg
  refine ⟨?_, ?_, ?_, ?_⟩
  · rw [updateAt_map_fst]; exact hinv.nodup
  · intro p hp
    obtain ⟨q, hq, _, h2⟩ := updateAt_mem hp
    rcases h2 with h2 | h2 <;> rw [h2]
    · exact hinv.good q hq
    · rw [hf]; exact hinv.good q hq
  · intro p hp
    obtain ⟨q, hq, h1, h2⟩ := updateAt_mem hp
    have hval : p.2.value = q.2.value := by
      rcases h2 with h2 | h2 <;> rw [h2]
      rw [hf]
    rw [assignKey_ext hsame updateAt_length, hval, h1]
    exact hinv.self q hq
  · intro p hp q hq hne
    obtain ⟨p₁, hp₁, hpk, hp2⟩ := updateAt_mem hp
    obtain ⟨q₁, hq₁, hqk, hq2⟩ := updateAt_mem hq
    have hpv : p.2.value = p₁.2.value := by
      rcases hp2 with h | h <;> rw [h]
      rw [hf]
    have hqv : q.2.value = q₁.2.value := by
      rcases hq2 with h | h <;> rw [h]
      rw [hf]
    rw [hpv, hqv]
    exact hinv.distinct p₁ hp₁ q₁ hq₁ (by rw [← hpk, ← hqk]; exact hne)

theorem lookup_append_sing_none {α : Type} {k k₀ : String} {e₀ : α} {m : List (String × α)}
    (h : lookupStr k m = none) :
    lookupStr k (m ++ [(k₀, e₀)]) = if k = k₀ then some e₀ else none := by
  rw [lookupStr_append_right h]
  rfl

theorem probeStop_append_of_occupied {reg : List (String × HashEntry)} {k₀ : String}
    {e₀ : HashEntry} {base : String} {v : Value} {j : Nat}
    (hj : probeStop reg base v j = false) :
    probeStop (reg ++ [(k₀, e₀)]) base v j = false := by
  unfold probeStop at hj ⊢
  cases hc : lookupStr (chainKey base j) reg with
  | none => rw [hc] at hj; cases hj
  | some e =>
    rw [hc] at hj
    rw [lookupStr_append_left (by simp [hc])]
    rw [hc]
    exact hj

theorem bool_not_eq_false {b : Bool} (h : ¬ b = true) : b = false := by
  cases b
  · rfl
  · exact absurd rfl h

/-- Appending a fresh entry does not change where existing representatives
probe to: every slot on their probe path is already occupied. -/
theorem assignKey_append_old {reg : List (String × HashEntry)} (hinv : RegInv reg)
    {k₀ : String} {e₀ : HashEntry}
    {p : String × HashEntry} (hp : p ∈ reg) :
    assignKey (reg ++ [(k₀, e₀)]) p.2.value = p.1 := by
  have hkey := hinv.self p hp
  have hlookp : lookupStr p.1 reg = some p.2 :=
    lookupStr_of_mem_nodup (by simpa using hp) hinv.nodup
  unfold assignKey at hkey ⊢
  cases hbase : lookupStr (computeHash p.2.value) reg with
  | none =>
    rw [hbase] at hkey
    simp only at hkey
    rw [← hkey] at hlookp
    rw [hbase] at hlookp
    cases hlookp
  | some e =>
    rw [hbase] at hkey
    have hbase' : lookupStr (computeHash p.2.value) (reg ++ [(k₀, e₀)]) = some e := by
      rw [lookupStr_append_left (by simp [hbase])]
      exact hbase
    rw [hbase']
    by_cases hm : deepEqual e.value p.2.value = true
    · simp only [hm, if_pos] at hkey ⊢
      exact hkey
    · have hm' : deepEqual e.value p.2.value = false := bool_not_eq_false hm
      simp only [hm', Bool.false_eq_true, if_false] at hkey ⊢
      obtain ⟨i, hi, hgetd⟩ := getD_probe reg (computeHash p.2.value) p.2.value
      rw [hgetd] at hkey
      obtain ⟨h1, h2, _, hmin⟩ :=
        (probeLoop_eq_some_iff reg (computeHash p.2.value) p.2.value _ 1 i).mp hi
      have hstop' : probeStop (reg ++ [(k₀, e₀)]) (computeHash p.2.value) p.2.value i = true := by
        unfold probeStop
        have : lookupStr (chainKey (computeHash p.2.value) i) (reg ++ [(k₀, e₀)]) =
            some p.2 := by
          rw [hkey, lookupStr_append_left (by simp [hlookp])]
          exact hlookp
        rw [this]
        exact deepEqual_refl _
      have hmain : probeLoop (reg ++ [(k₀, e₀)]) (computeHash p.2.value) p.2.value
          ((reg ++ [(k₀, e₀)]).length + 1) 1 = some i := by
        rw [probeLoop_eq_some_iff]
        refine ⟨h1, ?_, hstop', fun j hj1 hj2 => ?_⟩
        · simp; omega
        · have := @probeStop_append_of_occupied reg k₀ e₀ _ _ _
            (bool_not_eq_false (hmin j hj1 hj2))
          simp [this]
      rw [hmain]
      simp only [Option.getD_some]
      exact hkey

/-- The freshly inserted representative probes straight back to its own new
slot. -/
theorem assignKey_append_new {reg : List (String × HashEntry)} {v : Value}
    (hfree : lookupStr (assignKey reg v) reg = none) :
    assignKey (reg ++ [(assignKey reg v, freshEntry v)]) v = assignKey reg v := by
  unfold assignKey at hfree ⊢
  cases hbase : lookupStr (computeHash v) reg with
  | none =>
    rw [hbase] at hfree
    simp only at hfree ⊢
    have : lookupStr (computeHash v) (reg ++ [(computeHash v, freshEntry v)]) =
        some (freshEntry v) := by
      rw [lookup_append_sing_none hbase, if_pos rfl]
    rw [this]
    simp [freshEntry, deepEqual_refl]
  | some e =>
    rw [hbase] at hfree
    simp only at hfree ⊢
    by_cases hm : deepEqual e.value v = true
    · rw [if_pos hm] at hfree
      rw [hbase] at hfree
      cases hfree
    · have hm' : deepEqual e.value v = false := bool_not_eq_false hm
      simp only [hm', Bool.false_eq_true, if_false] at hfree ⊢
      obtain ⟨i, hi, hgetd⟩ := getD_probe reg (computeHash v) v
      rw [hgetd] at hfree ⊢
      obtain ⟨h1, h2, _, hmin⟩ := (probeLoop_eq_some_iff reg (computeHash v) v _ 1 i).mp hi
      have hbase' : lookupStr (computeHash v)
          (reg ++ [(chainKey (computeHash v) i, freshEntry v)]) = some e := by
        rw [lookupStr_append_left (by simp [hbase])]
        exact hbase
      rw [hbase']
      simp only [hm', Bool.false_eq_true, if_false]
      have hstop' : probeStop (reg ++ [(chainKey (computeHash v) i, freshEntry v)])
          (computeHash v) v i = true := by
        unfold probeStop
        have : lookupStr (chainKey (computeHash v) i)
            (reg ++ [(chainKey (computeHash v) i, freshEntry v)]) = some (freshEntry v) := by
          rw [lookup_append_sing_none hfree, if_pos rfl]
        rw [this]
        exact deepEqual_refl _
      have hmain : probeLoop (reg ++ [(chainKey (computeHash v) i, freshEntry v)])
          (computeHash v) v ((reg ++ [(chainKey (computeHash v) i, freshEntry v)]).length + 1)
          1 = some i := by
        rw [probeLoop_eq_some_iff]
        refine ⟨h1, ?_, hstop', fun j hj1 hj2 => ?_⟩
        · simp; omega
        · have := @probeStop_append_of_occupied reg (chainKey (computeHash v) i)
            (freshEntry v) _ _ _ (bool_not_eq_false (hmin j hj1 hj2))
          simp [this]
      rw [hmain]
      rfl

/-- Inserting a fresh representative at its probe slot preserves the registry
invariant; in particular the new value deep-equals no existing
representative (else its probe would have found that entry). -/
theorem RegInv_append {reg : List (String × HashEntry)} {v : Value} (hinv : RegInv reg)
    (hw : wfV v = true) (hc : isComposite v = true)
    (hfree : lookupStr (assignKey reg v) reg = none) :
    RegInv (reg ++ [(assignKey reg v, freshEntry v)]) := by
  have hnotmem : assignKey reg v ∉ reg.map Prod.fst := lookupStr_eq_none.mp hfree
  have hnodistinct : ∀ p ∈ reg, ¬ deepEqual p.2.value v = true := by
    intro p hp hde
    have hwp : wfV p.2.value = true := (hinv.good p hp).1
    have := assignKey_congr hinv hwp hw hde
    rw [hinv.self p hp] at this
    rw [← this] at hfree
    rw [lookupStr_of_mem_nodup (by simpa using hp) hinv.nodup] at hfree
    cases hfree
  refine ⟨?_, ?_, ?_, ?_⟩
  · rw [List.map_append]
    rw [List.nodup_append]
    exact ⟨hinv.nodup, List.nodup_singleton _, by simpa using hnotmem⟩
  · intro p hp
    rcases List.mem_append.mp hp with h | h
    · exact hinv.good p h
    · simp at h
      rw [h]
      exact ⟨hw, hc⟩
  · intro p hp
    rcases List.mem_append.mp hp with h | h
    · exact assignKey_append_old hinv h
    · simp at h
      rw [h]
      exact assignKey_append_new hfree
  · intro p hp q hq hne
    rcases List.mem_append.mp hp with h₁ | h₁ <;> rcases List.mem_append.mp hq with h₂ | h₂
    · exact hinv.distinct p h₁ q h₂ hne
    · simp at h₂
      rw [h₂]
      exact hnodistinct p h₁
    · simp at h₁
      rw [h₁]
      intro hde
      have hwq : wfV q.2.value = true := (hinv.good q h₂).1
      exact hnodistinct q h₂ (deepEqual_symm hw hwq hde)
    · simp at h₁ h₂
      rw [h₁, h₂] at hne
      simp at hne

/-- `registerValue` in closed form: bump the entry at the probe-assigned key,
inserting a fresh entry there first when the slot is free. -/
theorem registerValue_eq (v : Value) (path : List PathSeg) (st : TravState) :
    registerValue v path st =
      { st with
        hashRegistry := updateAt (assignKey st.hashRegistry v) (bumpEntry path)
          (if (lookupStr (assignKey st.hashRegistry v) st.hashRegistry).isSome
           then st.hashRegistry
           else st.hashRegistry ++ [(assignKey st.hashRegistry v, freshEntry v)]),
        valueToHash := st.valueToHash ++ [(v, assignKey st.hashRegistry v)] } := by
  unfold registerValue assignKey
  cases hbase : lookupStr (computeHash v) st.hashRegistry with
  | none =>
    have hhk : hasKey (computeHash v) st.hashRegistry = false := by
      simp [hasKey, hbase]
    have h1 : lookupStr (computeHash v)
        (st.hashRegistry ++ [(computeHash v, freshEntry v)]) = some (freshEntry v) := by
      rw [lookup_append_sing_none hbase, if_pos rfl]
    simp only [hhk, Bool.false_eq_true, if_false, h1, hbase]
    have h2 : deepEqual (freshEntry v).value v = true := deepEqual_refl v
    simp only [h2, if_pos, hbase, Option.isSome_none, Bool.false_eq_true, if_false]
  | some e =>
    have hhk : hasKey (computeHash v) st.hashRegistry = true := by
      simp [hasKey, hbase]
    simp only [hhk, if_pos, hbase]
    by_cases hm : deepEqual e.value v = true
    · simp [hm, hbase]
    · have hm' : deepEqual e.value v = false := bool_not_eq_false hm
      simp only [hm', Bool.false_eq_true, if_false, hasKey]

/-- Effect of one registration step on the traversal state: invariants are
preserved, existing entries keep value/name/dependencies, `valueToHash` gains
exactly the pair for `v`, and every entry's count grows by one exactly when
its representative deep-equals `v`. -/
theorem registerValue_spec (v : Value) (path : List PathSeg) (st : TravState)
    (hw : wfV v = true) (hc : isComposite v = true) (hinv : StInv st) :
    StInv (registerValue v path st) ∧
    (registerValue v path st).stringRegistry = st.stringRegistry ∧
    (registerValue v path st).valueToHash =
      st.valueToHash ++ [(v, assignKey st.hashRegistry v)] ∧
    (∀ k e, lookupStr k st.hashRegistry = some e →
      ∃ e', lookupStr k (registerValue v path st).hashRegistry = some e' ∧
        e'.value = e.value ∧ e'.refName = e.refName ∧ e'.dependencies = e.dependencies) ∧
    (∀ k e', lookupStr k (registerValue v path st).hashRegistry = some e' →
      e'.count = countOf st.hashRegistry k +
        (if deepEqual e'.value v = true then 1 else 0)) := by
  rw [registerValue_eq]
  have hbv : ∀ e : HashEntry, (bumpEntry path e).value = e.value := fun e => rfl
  by_cases hocc : (lookupStr (assignKey st.hashRegistry v) st.hashRegistry).isSome = true
  · -- the assigned slot is occupied: its representative deep-equals v
    obtain ⟨e, he⟩ := Option.isSome_iff_exists.mp hocc
    have hde : deepEqual e.value v = true := by
      rcases assignKey_spec st.hashRegistry v with h | ⟨e₁, he₁, hde₁⟩
      · rw [h] at he; cases he
      · rw [he₁] at he; cases he; exact hde₁
    simp only [hocc, if_pos]
    have hreg' : RegInv (updateAt (assignKey st.hashRegistry v) (bumpEntry path)
        st.hashRegistry) := RegInv_update hbv hinv.reg
    have hlookup' : ∀ k, lookupStr k (updateAt (assignKey st.hashRegistry v)
        (bumpEntry path) st.hashRegistry) =
        if k = assignKey st.hashRegistry v
        then (lookupStr k st.hashRegistry).map (bumpEntry path)
        else lookupStr k st.hashRegistry := by
      intro k
      by_cases hk : k = assignKey st.hashRegistry v
      · subst hk; rw [if_pos rfl, updateAt_lookup_self]
      · rw [if_neg hk, updateAt_lookup_other hk]
    refine ⟨⟨hreg', ?_, ?_, hinv.sregNodup, hinv.sregVal⟩, by trivial, by trivial, ?_, ?_⟩
    · intro p hp
      obtain ⟨q, hq, _, h2⟩ := updateAt_mem hp
      rcases h2 with h2 | h2 <;> rw [h2]
      · exact hinv.init q hq
      · exact hinv.init q hq
    · intro p hp
      rcases List.mem_append.mp hp with h | h
      · obtain ⟨e₁, he₁, hde₁, hwp, hcp⟩ := hinv.v2h p h
        refine ⟨if p.2 = assignKey st.hashRegistry v then bumpEntry path e₁ else e₁, ?_, ?_, hwp, hcp⟩
        · rw [hlookup' p.2]
          by_cases hk : p.2 = assignKey st.hashRegistry v
          · rw [if_pos hk, if_pos hk, he₁]; rfl
          · rw [if_neg hk, if_neg hk, he₁]
        · by_cases hk : p.2 = assignKey st.hashRegistry v
          · rw [if_pos hk]; exact hde₁
          · rw [if_neg hk]; exact hde₁
      · simp at h
        rw [h]
        refine ⟨bumpEntry path e, ?_, hde, hw, hc⟩
        rw [hlookup', if_pos rfl, he]
        rfl
    · intro k e₁ he₁
      refine ⟨if k = assignKey st.hashRegistry v then bumpEntry path e₁ else e₁, ?_, ?_, ?_, ?_⟩
      · rw [hlookup' k]
        by_cases hk : k = assignKey st.hashRegistry v
        · rw [if_pos hk, if_pos hk, he₁]; rfl
        · rw [if_neg hk, if_neg hk, he₁]
      all_goals by_cases hk : k = assignKey st.hashRegistry v <;> simp [hk, bumpEntry]
    · intro k e' he'
      rw [hlookup' k] at he'
      by_cases hk : k = assignKey st.hashRegistry v
      · rw [if_pos hk] at he'
        rw [hk] at he' ⊢
        rw [he, Option.map_some'] at he'
        cases he'
        have hval : (bumpEntry path e).value = e.value := rfl
        rw [hval, hde, if_pos rfl]
        unfold countOf
        rw [he]
        simp [bumpEntry]
      · rw [if_neg hk] at he'
        have hnde : ¬ deepEqual e'.value v = true := by
          intro hcon
          have hmem : (k, e') ∈ st.hashRegistry := lookupStr_mem he'
          have hwp : wfV e'.value = true := (hinv.reg.good _ hmem).1
          have h1 := assignKey_congr hinv.reg hwp hw hcon
          have h2 := hinv.reg.self _ hmem
          exact hk (h2.symm.trans h1)
        rw [if_neg hnde]
        unfold countOf
        rw [he']
        rfl
  · -- the assigned slot is free: a fresh entry is inserted first
    have hfree : lookupStr (assignKey st.hashRegistry v) st.hashRegistry = none := by
      cases hx : lookupStr (assignKey st.hashRegistry v) st.hashRegistry
      · rfl
      · rw [hx] at hocc; simp at hocc
    simp only [hocc, Bool.false_eq_true, if_false]
    have hregApp : RegInv (st.hashRegistry ++
        [(assignKey st.hashRegistry v, freshEntry v)]) := RegInv_append hinv.reg hw hc hfree
    have hreg' : RegInv (updateAt (assignKey st.hashRegistry v) (bumpEntry path)
        (st.hashRegistry ++ [(assignKey st.hashRegistry v, freshEntry v)])) :=
      RegInv_update hbv hregApp
    have happ : ∀ k, lookupStr k (st.hashRegistry ++
        [(assignKey st.hashRegistry v, freshEntry v)]) =
        if (lookupStr k st.hashRegistry).isSome then lookupStr k st.hashRegistry
        else (if k = assignKey st.hashRegistry v then some (freshEntry v) else none) := by
      intro k
      by_cases hk : (lookupStr k st.hashRegistry).isSome
      · rw [if_pos hk, lookupStr_append_left hk]
      · have hn : lookupStr k st.hashRegistry = none := by
          cases hx : lookupStr k st.hashRegistry
          · rfl
          · rw [hx] at hk; simp at hk
        rw [if_neg hk, lookup_append_sing_none hn]
    have hlookup' : ∀ k, lookupStr k (updateAt (assignKey st.hashRegistry v)
        (bumpEntry path) (st.hashRegistry ++ [(assignKey st.hashRegistry v, freshEntry v)])) =
        if k = assignKey st.hashRegistry v
        then some (bumpEntry path (freshEntry v))
        else lookupStr k st.hashRegistry := by
      intro k
      by_cases hk : k = assignKey st.hashRegistry v
      · subst hk
        rw [if_pos rfl, updateAt_lookup_self, happ, hfree]
        simp
      · rw [if_neg hk, updateAt_lookup_other hk, happ]
        by_cases hs : (lookupStr k st.hashRegistry).isSome
        · rw [if_pos hs]
        · have hn : lookupStr k st.hashRegistry = none := by
            cases hx : lookupStr k st.hashRegistry
            · rfl
            · rw [hx] at hs; simp at hs
          rw [if_neg hs, if_neg hk, hn]
    refine ⟨⟨hreg', ?_, ?_, hinv.sregNodup, hinv.sregVal⟩, by trivial, by trivial, ?_, ?_⟩
    · intro p hp
      obtain ⟨q, hq, _, h2⟩ := updateAt_mem hp
      have hq' : q.2.refName = none ∧ q.2.dependencies = [] := by
        rcases List.mem_append.mp hq with h | h
        · exact hinv.init q h
        · simp at h
          rw [h]
          exact ⟨rfl, rfl⟩
      rcases h2 with h2 | h2 <;> rw [h2]
      · exact hq'
      · exact hq'
    · intro p hp
      rcases List.mem_append.mp hp with h | h
      · obtain ⟨e₁, he₁, hde₁, hwp, hcp⟩ := hinv.v2h p h
        have hkne : p.2 ≠ assignKey st.hashRegistry v := by
          intro hcon
          rw [hcon, hfree] at he₁
          cases he₁
        refine ⟨e₁, ?_, hde₁, hwp, hcp⟩
        rw [hlookup' p.2, if_neg hkne]
        exact he₁
      · simp at h
        rw [h]
        refine ⟨bumpEntry path (freshEntry v), ?_, deepEqual_refl v, hw, hc⟩
        rw [hlookup', if_pos rfl]
    · intro k e he
      have hkne : k ≠ assignKey st.hashRegistry v := by
        intro hcon
        rw [hcon, hfree] at he
        cases he
      refine ⟨e, ?_, rfl, rfl, rfl⟩
      rw [hlookup' k, if_neg hkne]
      exact he
    · intro k e' he'
      rw [hlookup' k] at he'
      by_cases hk : k = assignKey st.hashRegistry v
      · rw [if_pos hk] at he'
        cases he'
        have : (bumpEntry path (freshEntry v)).value = v := rfl
        rw [this, deepEqual_refl v, if_pos rfl]
        unfold countOf
        rw [hk, hfree]
        rfl
      · rw [if_neg hk] at he'
        have hnde : ¬ deepEqual e'.value v = true := by
          intro hcon
          have hmem : (k, e') ∈ st.hashRegistry := lookupStr_mem he'
          have hwp : wfV e'.value = true := (hinv.reg.good _ hmem).1
          have h1 := assignKey_congr hinv.reg hwp hw hcon
          have h2 := hinv.reg.self _ hmem
          exact hk (h2.symm.trans h1)
        rw [if_neg hnde]
        unfold countOf
        rw [he']
        rfl

/-- Subcomposite occurrences inherit well-formedness and domain membership
and are composites. -/
theorem subc_main : ∀ N : Nat,
    (∀ v : Value, sizeV v ≤ N → ∀ w ∈ subcomposites v,
      (wfV v = true → wfV w = true) ∧ (noOtherV v = true → noOtherV w = true) ∧
        isComposite w = true) ∧
    (∀ xs : List Value, sizeVL xs ≤ N → ∀ w ∈ subcompositesL xs,
      (wfVL xs = true → wfV w = true) ∧ (noOtherVL xs = true → noOtherV w = true) ∧
        isComposite w = true) ∧
    (∀ fs : List (String × Value), sizeVF fs ≤ N → ∀ w ∈ subcompositesF fs,
      (wfVF fs = true → wfV w = true) ∧ (noOtherVF fs = true → noOtherV w = true) ∧
        isComposite w = true) := by
  intro N
  induction N using Nat.strong_induction_on with
  | _ N ih =>
    have hval : ∀ v : Value, sizeV v ≤ N → ∀ w ∈ subcomposites v,
        (wfV v = true → wfV w = true) ∧ (noOtherV v = true → noOtherV w = true) ∧
          isComposite w = true := by
      intro v hsz w hw
      match v with
      | .vnull | .vundef | .vbool _ | .vnum _ | .vstr _ | .vother _ =>
        simp [subcomposites] at hw
      | .varr xs =>
        have hN : 1 + sizeVL xs ≤ N := by rw [← sizeV]; exact hsz
        rw [subcomposites] at hw
        rcases List.mem_cons.mp hw with rfl | hw
        · exact ⟨fun h => h, fun h => h, rfl⟩
        · have := (ih (N - 1) (by omega)).2.1 xs (by omega) w hw
          exact ⟨fun h => this.1 (wfV_varr.mp h), fun h => this.2.1 (by simpa [noOtherV] using h),
            this.2.2⟩
      | .vobj fs =>
        have hN : 1 + sizeVF fs ≤ N := by rw [← sizeV]; exact hsz
        rw [subcomposites] at hw
        rcases List.mem_cons.mp hw with rfl | hw
        · exact ⟨fun h => h, fun h => h, rfl⟩
        · have := (ih (N - 1) (by omega)).2.2 fs (by omega) w hw
          exact ⟨fun h => this.1 (wfV_vobj.mp h).2, fun h => this.2.1 (by simpa [noOtherV] using h),
            this.2.2⟩
    have hlist : ∀ xs : List Value, sizeVL xs ≤ N → ∀ w ∈ subcompositesL xs,
        (wfVL xs = true → wfV w = true) ∧ (noOtherVL xs = true → noOtherV w = true) ∧
          isComposite w = true := by
      intro xs
      induction xs with
      | nil => intro _ w hw; simp [subcompositesL] at hw
      | cons x rest ihx =>
        intro hsz w hw
        rw [sizeVL] at hsz
        rw [subcompositesL] at hw
        rcases List.mem_append.mp hw with hw | hw
        · have := hval x (by omega) w hw
          exact ⟨fun h => this.1 ((by simpa [wfVL] using h : wfV x = true ∧ _).1),
            fun h => this.2.1 ((by simpa [noOtherVL] using h : noOtherV x = true ∧ _).1),
            this.2.2⟩
        · have := ihx (by omega) w hw
          exact ⟨fun h => this.1 ((by simpa [wfVL] using h : _ ∧ wfVL rest = true).2),
            fun h => this.2.1 ((by simpa [noOtherVL] using h : _ ∧ noOtherVL rest = true).2),
            this.2.2⟩
    have hfld : ∀ fs : List (String × Value), sizeVF fs ≤ N → ∀ w ∈ subcompositesF fs,
        (wfVF fs = true → wfV w = true) ∧ (noOtherVF fs = true → noOtherV w = true) ∧
          isComposite w = true := by
      intro fs
      induction fs with
      | nil => intro _ w hw; simp [subcompositesF] at hw
      | cons p rest ihx =>
        obtain ⟨k, x⟩ := p
        intro hsz w hw
        rw [sizeVF] at hsz
        rw [subcompositesF] at hw
        rcases List.mem_append.mp hw with hw | hw
        · have := hval x (by omega) w hw
          exact ⟨fun h => this.1 ((by simpa [wfVF] using h : wfV x = true ∧ _).1),
            fun h => this.2.1 ((by simpa [noOtherVF] using h : noOtherV x = true ∧ _).1),
            this.2.2⟩
        · have := ihx (by omega) w hw
          exact ⟨fun h => this.1 ((by simpa [wfVF] using h : _ ∧ wfVF rest = true).2),
            fun h => this.2.1 ((by simpa [noOtherVF] using h : _ ∧ noOtherVF rest = true).2),
            this.2.2⟩
    exact ⟨hval, hlist, hfld⟩

theorem subcomposites_wf {v w : Value} (hwf : wfV v = true) (hw : w ∈ subcomposites v) :
    wfV w = true :=
  ((subc_main (sizeV v)).1 v (le_refl _) w hw).1 hwf

theorem subcomposites_noOther {v w : Value} (hno : noOtherV v = true)
    (hw : w ∈ subcomposites v) : noOtherV w = true :=
  ((subc_main (sizeV v)).1 v (le_refl _) w hw).2.1 hno

theorem subcomposites_isComposite {v w : Value} (hw : w ∈ subcomposites v) :
    isComposite w = true :=
  ((subc_main (sizeV v)).1 v (le_refl _) w hw).2.2

/-- `noOther` only depends on the canonical form. -/
theorem noOther_canon : ∀ N : Nat,
    (∀ v : Value, sizeV v ≤ N → noOtherV (canonV v) = noOtherV v) ∧
    (∀ xs : List Value, sizeVL xs ≤ N → noOtherVL (canonL xs) = noOtherVL xs) ∧
    (∀ fs : List (String × Value), sizeVF fs ≤ N →
      noOtherVF (sortFields (canonF fs)) = noOtherVF fs) := by
  intro N
  induction N using Nat.strong_induction_on with
  | _ N ih =>
    have hperm : ∀ gs hs : List (String × Value), List.Perm gs hs →
        noOtherVF gs = true → noOtherVF hs = true := by
      intro gs hs hp hno
      have hall : ∀ p ∈ hs, noOtherV p.2 = true := by
        intro p hpmem
        exact noOtherVF_mem hno (by
          have : p ∈ gs := hp.mem_iff.mpr hpmem
          exact (by simpa using this))
      clear hno hp
      induction hs with
      | nil => rfl
      | cons q rest ihq =>
        rw [noOtherVF.eq_def]
        obtain ⟨k, x⟩ := q
        simp only
        rw [hall (k, x) (List.mem_cons_self _ _), ihq
          (fun p hp => hall p (List.mem_cons_of_mem _ hp))]
        rfl
    have hval : ∀ v : Value, sizeV v ≤ N → noOtherV (canonV v) = noOtherV v := by
      intro v hsz
      match v with
      | .vnull | .vundef | .vbool _ | .vnum _ | .vstr _ | .vother _ => rfl
      | .varr xs =>
        have hN : 1 + sizeVL xs ≤ N := by rw [← sizeV]; exact hsz
        show noOtherV (.varr (canonL xs)) = noOtherV (.varr xs)
        rw [noOtherV, noOtherV, (ih (N - 1) (by omega)).2.1 xs (by omega)]
      | .vobj fs =>
        have hN : 1 + sizeVF fs ≤ N := by rw [← sizeV]; exact hsz
        show noOtherV (.vobj (sortFields (canonF fs))) = noOtherV (.vobj fs)
        rw [noOtherV, noOtherV, (ih (N - 1) (by omega)).2.2 fs (by omega)]
    have hlist : ∀ xs : List Value, sizeVL xs ≤ N →
        noOtherVL (canonL xs) = noOtherVL xs := by
      intro xs
      induction xs with
      | nil => intro _; rfl
      | cons x rest ihx =>
        intro hsz
        rw [sizeVL] at hsz
        show noOtherVL (canonV x :: canonL rest) = noOtherVL (x :: rest)
        rw [noOtherVL, noOtherVL, hval x (by omega), ihx (by omega)]
    have hfld : ∀ fs : List (String × Value), sizeVF fs ≤ N →
        noOtherVF (sortFields (canonF fs)) = noOtherVF fs := by
      intro fs hsz
      have hcf : noOtherVF (canonF fs) = noOtherVF fs := by
        clear hperm
        induction fs with
        | nil => rfl
        | cons p rest ihf =>
          obtain ⟨k, x⟩ := p
          rw [sizeVF] at hsz
          show noOtherVF ((k, canonV x) :: canonF rest) = noOtherVF ((k, x) :: rest)
          rw [noOtherVF, noOtherVF, hval x (by omega), ihf (by omega)]
      cases hx : noOtherVF fs with
      | true =>
        exact hperm (canonF fs) (sortFields (canonF fs)) (sortFields_perm _).symm
          (hcf.trans hx)
      | false =>
        cases hy : noOtherVF (sortFields (canonF fs)) with
        | false => rfl
        | true =>
          have := hperm (sortFields (canonF fs)) (canonF fs) (sortFields_perm _) hy
          rw [hcf, hx] at this
          cases this
    exact ⟨hval, hlist, hfld⟩

/-- Deep equality transfers the absence of out-of-domain nodes. -/
theorem noOther_of_deepEqual {a b : Value} (hwa : wfV a = true) (hwb : wfV b = true)
    (hde : deepEqual a b = true) (hno : noOtherV b = true) : noOtherV a = true := by
  have hc := (deepEqual_iff_canon hwa hwb).mp hde
  have h1 := (noOther_canon (sizeV a)).1 a (le_refl _)
  have h2 := (noOther_canon (sizeV b)).1 b (le_refl _)
  rw [← h1, hc, h2]
  exact hno

theorem bumpString_spec (s : String) (st : TravState) (hinv : StInv st) :
    StInv (bumpString s st) ∧ (bumpString s st).hashRegistry = st.hashRegistry ∧
      (bumpString s st).valueToHash = st.valueToHash := by
  unfold bumpString
  refine ⟨⟨hinv.reg, hinv.init, hinv.v2h, ?_, ?_⟩, rfl, rfl⟩
  · by_cases hk : hasKey s st.stringRegistry
    · simp only [hk, if_pos]
      rw [updateAt_map_fst]
      exact hinv.sregNodup
    · simp only [hk, Bool.false_eq_true, if_false]
      rw [updateAt_map_fst, List.map_append]
      rw [List.nodup_append]
      refine ⟨hinv.sregNodup, List.nodup_singleton _, ?_⟩
      have : s ∉ st.stringRegistry.map Prod.fst := by
        rw [← lookupStr_eq_none]
        unfold hasKey at hk
        cases hx : lookupStr s st.stringRegistry
        · rfl
        · rw [hx] at hk; simp at hk
      simpa using this
  · intro p hp
    obtain ⟨q, hq, h1, h2⟩ := updateAt_mem hp
    have hq' : q.2.value = q.1 ∧ q.2.index = none := by
      by_cases hk : hasKey s st.stringRegistry
      · simp only [hk, if_pos] at hq
        exact hinv.sregVal q hq
      · simp only [hk, Bool.false_eq_true, if_false] at hq
        rcases List.mem_append.mp hq with h | h
        · exact hinv.sregVal q h
        · simp at h
          rw [h]
          exact ⟨rfl, rfl⟩
    constructor
    · rcases h2 with h2 | h2 <;> rw [h2, h1]
      · exact hq'.1
      · show q.2.value = q.1; exact hq'.1
    · rcases h2 with h2 | h2 <;> rw [h2]
      · exact hq'.2
      · show q.2.index = none; exact hq'.2

/-- Cumulative effect of visiting a list of occurrences `occ`. -/
def StepOK (occ : List Value) (st st' : TravState) : Prop :=
  StInv st' ∧
  (∃ tail, st'.valueToHash = st.valueToHash ++ tail) ∧
  (∀ k e, lookupStr k st.hashRegistry = some e →
    ∃ e', lookupStr k st'.hashRegistry = some e' ∧ e'.value = e.value ∧
      e'.refName = e.refName ∧ e'.dependencies = e.dependencies) ∧
  (∀ k e', lookupStr k st'.hashRegistry = some e' →
    e'.count = countOf st.hashRegistry k + occ.countP (fun w => deepEqual e'.value w)) ∧
  (∀ w ∈ occ, ∃ k, (w, k) ∈ st'.valueToHash)

theorem StepOK_nil {st : TravState} (hinv : StInv st) : StepOK [] st st := by
  refine ⟨hinv, ⟨[], by simp⟩, fun k e he => ⟨e, he, rfl, rfl, rfl⟩, fun k e' he' => ?_,
    by simp⟩
  unfold countOf
  rw [he']
  simp

theorem StepOK_same {st st' : TravState} (hinv : StInv st)
    (hreg : st'.hashRegistry = st.hashRegistry) (hv2h : st'.valueToHash = st.valueToHash)
    (hinv' : StInv st') : StepOK [] st st' := by
  refine ⟨hinv', ⟨[], by simp [hv2h]⟩, fun k e he => ⟨e, by rw [hreg]; exact he, rfl, rfl, rfl⟩,
    fun k e' he' => ?_, by simp⟩
  unfold countOf
  rw [hreg] at he'
  rw [he']
  simp

theorem StepOK_trans {occ₁ occ₂ : List Value} {st st₁ st₂ : TravState}
    (hwf₁ : ∀ w ∈ occ₁, wfV w = true)
    (h₁ : StepOK occ₁ st st₁) (h₂ : StepOK occ₂ st₁ st₂) :
    StepOK (occ₁ ++ occ₂) st st₂ := by
  obtain ⟨hinv₁, ⟨t₁, ht₁⟩, hpres₁, hcnt₁, hcompl₁⟩ := h₁
  obtain ⟨hinv₂, ⟨t₂, ht₂⟩, hpres₂, hcnt₂, hcompl₂⟩ := h₂
  refine ⟨hinv₂, ⟨t₁ ++ t₂, by rw [ht₂, ht₁, List.append_assoc]⟩, ?_, ?_, ?_⟩
  · intro k e he
    obtain ⟨e₁, he₁, hv₁, hr₁, hd₁⟩ := hpres₁ k e he
    obtain ⟨e₂, he₂, hv₂, hr₂, hd₂⟩ := hpres₂ k e₁ he₁
    exact ⟨e₂, he₂, hv₂.trans hv₁, hr₂.trans hr₁, hd₂.trans hd₁⟩
  · intro k e₂ he₂
    rw [List.countP_append]
    cases he₁x : lookupStr k st₁.hashRegistry with
    | some e₁ =>
      obtain ⟨e₂', he₂', hv₂, _, _⟩ := hpres₂ k e₁ he₁x
      rw [he₂] at he₂'
      cases he₂'
      have hmid : countOf st₁.hashRegistry k = e₁.count := by
        unfold countOf
        rw [he₁x]
        rfl
      rw [hcnt₂ k e₂ he₂, hmid, hcnt₁ k e₁ he₁x, hv₂]
      omega
    | none =>
      have hcnt0 : countOf st₁.hashRegistry k = 0 := by
        unfold countOf
        rw [he₁x]
        rfl
      have hst0 : countOf st.hashRegistry k = 0 := by
        cases hx : lookupStr k st.hashRegistry with
        | none => unfold countOf; rw [hx]; rfl
        | some e₀ =>
          obtain ⟨e₁, he₁, _, _, _⟩ := hpres₁ k e₀ hx
          rw [he₁x] at he₁
          cases he₁
      have hocc1 : occ₁.countP (fun w => deepEqual e₂.value w) = 0 := by
        rw [List.countP_eq_zero]
        intro w hw
        intro hde
        obtain ⟨kw, hkw⟩ := hcompl₁ w hw
        obtain ⟨ew, hew, hdew, hww, _⟩ := hinv₁.v2h (w, kw) hkw
        obtain ⟨ew₂, hew₂, hvw₂, _, _⟩ := hpres₂ kw ew hew
        by_cases hkk : k = kw
        · rw [← hkk, he₁x] at hew
          cases hew
        · have hmem₂ : (k, e₂) ∈ st₂.hashRegistry := lookupStr_mem he₂
          have hmemw : (kw, ew₂) ∈ st₂.hashRegistry := lookupStr_mem hew₂
          have hdist := hinv₂.reg.distinct (k, e₂) hmem₂ (kw, ew₂) hmemw hkk
          have hw2 : wfV e₂.value = true := (hinv₂.reg.good _ hmem₂).1
          have hww2 : wfV ew.value = true := (hinv₁.reg.good _ (lookupStr_mem hew)).1
          have hwfw : wfV w = true := hwf₁ w hw
          have : deepEqual e₂.value ew₂.value = true := by
            rw [hvw₂]
            exact deepEqual_trans hw2 hwfw hww2 hde (deepEqual_symm hww2 hwfw hdew)
          exact hdist this
      rw [hcnt₂ k e₂ he₂, hcnt0, hst0, hocc1]
      omega
  · intro w hw
    rcases List.mem_append.mp hw with h | h
    · obtain ⟨k, hk⟩ := hcompl₁ w h
      refine ⟨k, ?_⟩
      rw [ht₂]
      exact List.mem_append.mpr (Or.inl hk)
    · exact hcompl₂ w h

theorem registerValue_StepOK (v : Value) (path : List PathSeg) (st : TravState)
    (hw : wfV v = true) (hc : isComposite v = true) (hst : StInv st) :
    StepOK [v] st (registerValue v path st) := by
  obtain ⟨hinv', hsreg, hv2h, hpres, hcnt⟩ := registerValue_spec v path st hw hc hst
  refine ⟨hinv', ⟨[(v, assignKey st.hashRegistry v)], hv2h⟩, hpres, ?_, ?_⟩
  · intro k e' he'
    rw [hcnt k e' he']
    cases hde : deepEqual e'.value v <;> simp [List.countP, List.countP.go, hde]
  · intro w hwmem
    have hwv : w = v := by simpa using hwmem
    subst hwv
    refine ⟨assignKey st.hashRegistry w, ?_⟩
    rw [hv2h]
    simp

/-- Master lemma: one traversal step satisfies `StepOK` for its preorder list
of composite occurrences. -/
theorem visit_main : ∀ N : Nat,
    (∀ v : Value, sizeV v ≤ N → wfV v = true → ∀ path st, StInv st →
      StepOK (subcomposites v) st (visit v path st)) ∧
    (∀ xs : List Value, sizeVL xs ≤ N → wfVL xs = true → ∀ path i st, StInv st →
      StepOK (subcompositesL xs) st (visitElems xs path i st)) ∧
    (∀ fs : List (String × Value), sizeVF fs ≤ N → wfVF fs = true → ∀ path st, StInv st →
      StepOK (subcompositesF fs) st (visitFields fs path st)) := by
  intro N
  induction N using Nat.strong_induction_on with
  | _ N ih =>
    have hval : ∀ v : Value, sizeV v ≤ N → wfV v = true → ∀ path st, StInv st →
        StepOK (subcomposites v) st (visit v path st) := by
      intro v hsz hwa path st hst
      match v with
      | .vnull | .vundef | .vbool _ | .vnum _ | .vother _ => exact StepOK_nil hst
      | .vstr s =>
        obtain ⟨hinv', hreg, hv2h⟩ := bumpString_spec s st hst
        exact StepOK_same hst hreg hv2h hinv'
      | .varr xs =>
        have hN : 1 + sizeVL xs ≤ N := by rw [← sizeV]; exact hsz
        have h₁ := registerValue_StepOK (.varr xs) path st hwa rfl hst
        have h₂ := (ih (N - 1) (by omega)).2.1 xs (by omega) (wfV_varr.mp hwa) path 0
          (registerValue (.varr xs) path st) h₁.1
        have := StepOK_trans (by intro w hw; simp at hw; rw [hw]; exact hwa) h₁ h₂
        exact this
      | .vobj fs =>
        have hN : 1 + sizeVF fs ≤ N := by rw [← sizeV]; exact hsz
        have h₁ := registerValue_StepOK (.vobj fs) path st hwa rfl hst
        have h₂ := (ih (N - 1) (by omega)).2.2 fs (by omega) (wfV_vobj.mp hwa).2 path
          (registerValue (.vobj fs) path st) h₁.1
        have := StepOK_trans (by intro w hw; simp at hw; rw [hw]; exact hwa) h₁ h₂
        exact this
    have hlist : ∀ xs : List Value, sizeVL xs ≤ N → wfVL xs = true → ∀ path i st, StInv st →
        StepOK (subcompositesL xs) st (visitElems xs path i st) := by
      intro xs
      induction xs with
      | nil => intro _ _ path i st hst; exact StepOK_nil hst
      | cons x rest ihx =>
        intro hsz hwx path i st hst
        rw [sizeVL] at hsz
        simp only [wfVL, Bool.and_eq_true] at hwx
        have h₁ := hval x (by omega) hwx.1 (path ++ [.idx i]) st hst
        have h₂ := ihx (by omega) hwx.2 path (i + 1) (visit x (path ++ [.idx i]) st) h₁.1
        exact StepOK_trans (fun w hw => subcomposites_wf hwx.1 hw) h₁ h₂
    have hfld : ∀ fs : List (String × Value), sizeVF fs ≤ N → wfVF fs = true → ∀ path st,
        StInv st → StepOK (subcompositesF fs) st (visitFields fs path st) := by
      intro fs
      induction fs with
      | nil => intro _ _ path st hst; exact StepOK_nil hst
      | cons p rest ihx =>
        obtain ⟨k, x⟩ := p
        intro hsz hwx path st hst
        rw [sizeVF] at hsz
        simp only [wfVF, Bool.and_eq_true] at hwx
        have h₁ := hval x (by omega) hwx.1 (path ++ [.key k]) st hst
        have h₂ := ihx (by omega) hwx.2 path (visit x (path ++ [.key k]) st) h₁.1
        exact StepOK_trans (fun w hw => subcomposites_wf hwx.1 hw) h₁ h₂
    exact ⟨hval, hlist, hfld⟩

/-- The empty state is invariant. -/
theorem StInv_empty : StInv { hashRegistry := [], valueToHash := [], stringRegistry := [] } := by
  refine ⟨⟨List.nodup_nil, ?_, ?_, ?_⟩, ?_, ?_, List.nodup_nil, ?_⟩ <;> intro p hp <;> simp at hp

/-- The traversal of a well-formed root: state invariant, occurrence counts
per deep-equality class, and completeness of the value-to-digest map. -/
theorem traverse_spec (root : Value) (hwf : wfV root = true) :
    StInv (traverse root) ∧
    (∀ k e', lookupStr k (traverse root).hashRegistry = some e' →
      e'.count = (subcomposites root).countP (fun w => deepEqual e'.value w)) ∧
    (∀ w ∈ subcomposites root, ∃ k, (w, k) ∈ (traverse root).valueToHash) := by
  have h := (visit_main (sizeV root)).1 root (le_refl _) hwf []
    { hashRegistry := [], valueToHash := [], stringRegistry := [] } StInv_empty
  obtain ⟨hinv, _, _, hcnt, hcompl⟩ := h
  refine ⟨hinv, ?_, hcompl⟩
  intro k e' he'
  have := hcnt k e' he'
  unfold countOf at this
  simp only [lookupStr] at this
  simpa using this

/-! ## The reference namer assigns pairwise distinct names -/

theorem refSeq_inj {a b : Nat} (h : "_ref" ++ decStr a = "_ref" ++ decStr b) : a = b :=
  decStr_inj (string_append_cancel_left h)

theorem whileUsed_result : ∀ fuel (used : List String) name c,
    ((∃ j, j + 2 ≤ fuel ∧ ("_ref" ++ decStr (c + j)) ∉ used) ∨ name ∉ used) →
    (whileUsed used fuel name c).1 ∉ used := by
  intro fuel
  induction fuel with
  | zero =>
    intro used name c h
    rcases h with ⟨j, hj, _⟩ | h
    · omega
    · exact h
  | succ fuel ih =>
    intro used name c h
    by_cases hn : used.contains name
    · rw [whileUsed, if_pos hn]
      have hmem : name ∈ used := by simpa using hn
      rcases h with ⟨j, hj, hfree⟩ | h
      · refine ih used _ (c + 1) ?_
        rcases Nat.eq_zero_or_pos j with rfl | hpos
        · right
          simpa using hfree
        · left
          refine ⟨j - 1, by omega, ?_⟩
          have : c + 1 + (j - 1) = c + j := by omega
          rw [this]
          exact hfree
      · exact absurd hmem h
    · rw [whileUsed, if_neg hn]
      simpa using hn

theorem exists_fresh_ref (used : List String) (c : Nat) :
    ∃ j, j ≤ used.length ∧ ("_ref" ++ decStr (c + j)) ∉ used :=
  exists_fresh_key (fun n => "_ref" ++ decStr n) (fun a b h => refSeq_inj h) used c

theorem assignNamesGo_spec : ∀ (entries : List (String × HashEntry)) (used : List String)
    (c : Nat), ∃ names : List String,
      assignNamesGo entries used c =
        List.zipWith (fun p n => (p.1, { p.2 with refName := some n })) entries names ∧
      names.length = entries.length ∧ names.Nodup ∧ ∀ n ∈ names, n ∉ used := by
  intro entries
  induction entries with
  | nil =>
    intro used c
    exact ⟨[], rfl, rfl, List.nodup_nil, by simp⟩
  | cons p rest ih =>
    intro used c
    obtain ⟨h, e⟩ := p
    rw [assignNamesGo]
    set pick : String × Nat :=
      match semanticName used e.value with
      | some n => (n, c)
      | none => ("_ref" ++ decStr c, c + 1) with hpick
    set final := whileUsed used (used.length + 2) pick.1 pick.2 with hfinal
    have hfree : final.1 ∉ used := by
      rw [hfinal]
      refine whileUsed_result _ used pick.1 pick.2 (Or.inl ?_)
      obtain ⟨j, hj, hf⟩ := exists_fresh_ref used pick.2
      exact ⟨j, by omega, hf⟩
    obtain ⟨names, heq, hlen, hnd, hnotin⟩ := ih (used ++ [final.1]) final.2
    refine ⟨final.1 :: names, ?_, by simp [hlen], ?_, ?_⟩
    · rw [heq]
      rfl
    · rw [List.nodup_cons]
      refine ⟨fun hmem => ?_, hnd⟩
      have := hnotin final.1 hmem
      simp at this
    · intro n hn
      rcases List.mem_cons.mp hn with rfl | hn
      · exact hfree
      · intro hcon
        exact hnotin n hn (by simp [hcon])

/-- **C5.** Within a single invocation, the reference namer assigns pairwise
distinct names to the sorted duplicate entries (whatever the entries and
their values, semantic names included): the emitted entries are exactly the
input entries with `refName` set to the members of a duplicate-free name
list. -/
theorem claim_C5 (sorted : List (String × HashEntry)) :
    ∃ names : List String,
      assignRefNames sorted =
        List.zipWith (fun p n => (p.1, { p.2 with refName := some n })) sorted names ∧
      names.length = sorted.length ∧ names.Nodup := by
  obtain ⟨names, heq, hlen, hnd, _⟩ := assignNamesGo_spec sorted [] 0
  exact ⟨names, heq, hlen, hnd⟩

/-! ## The registry through the later pipeline stages -/

theorem lookup_map_entry {α β : Type} (f : String → α → β) (m : List (String × α))
    (k : String) :
    lookupStr k (m.map (fun p => (p.1, f p.1 p.2))) = (lookupStr k m).map (f k) := by
  induction m with
  | nil => simp [lookupStr]
  | cons p rest ih =>
    obtain ⟨k₁, v₁⟩ := p
    by_cases hk : k = k₁
    · subst hk
      simp [lookupStr]
    · simp only [List.map_cons, lookupStr, if_neg hk]
      exact ih

theorem analyzeDependencies_lookup (reg : List (String × HashEntry))
    (v2h : List (Value × String)) (k : String) :
    lookupStr k (analyzeDependencies reg v2h) =
      (lookupStr k reg).map (fun e =>
        if 3 ≤ e.count then { e with dependencies := entryDeps reg v2h k e } else e) := by
  have hrw : analyzeDependencies reg v2h = reg.map (fun p =>
      (p.1, (fun k₁ e => if 3 ≤ e.count
        then { e with dependencies := entryDeps reg v2h k₁ e } else e) p.1 p.2)) := by
    unfold analyzeDependencies
    refine List.map_congr_left ?_
    intro p _
    by_cases hc : 3 ≤ p.2.count <;> simp [hc]
  rw [hrw]
  exact lookup_map_entry (fun k₁ e => if 3 ≤ e.count
    then { e with dependencies := entryDeps reg v2h k₁ e } else e) reg k

theorem analyzeDependencies_map_fst (reg : List (String × HashEntry))
    (v2h : List (Value × String)) :
    (analyzeDependencies reg v2h).map Prod.fst = reg.map Prod.fst := by
  unfold analyzeDependencies
  rw [List.map_map]
  refine List.map_congr_left ?_
  intro p _
  by_cases hc : 3 ≤ p.2.count <;> simp [hc]

theorem applyRefNames_lookup (reg assigned : List (String × HashEntry)) (k : String) :
    lookupStr k (applyRefNames reg assigned) =
      (lookupStr k reg).map (fun e => (lookupStr k assigned).getD e) := by
  unfold applyRefNames
  induction reg with
  | nil => simp [lookupStr]
  | cons p rest ih =>
    obtain ⟨k₁, e₁⟩ := p
    by_cases hk : k = k₁
    · subst hk
      simp [lookupStr]
    · simp only [List.map_cons, lookupStr, if_neg hk]
      exact ih

theorem applyRefNames_map_fst (reg assigned : List (String × HashEntry)) :
    (applyRefNames reg assigned).map Prod.fst = reg.map Prod.fst := by
  unfold applyRefNames
  rw [List.map_map]
  rfl

theorem zipWith_refName_mem {sorted : List (String × HashEntry)} {names : List String}
    {p : String × HashEntry}
    (hmem : p ∈ List.zipWith
      (fun p n => (p.1, { p.2 with refName := some n })) sorted names) :
    ∃ i : Nat, ∃ hi : i < sorted.length, ∃ hj : i < names.length,
      p.1 = (sorted.get ⟨i, hi⟩).1 ∧
      p.2 = { (sorted.get ⟨i, hi⟩).2 with refName := some (names.get ⟨i, hj⟩) } := by
  obtain ⟨⟨i, hlt⟩, hget⟩ := List.mem_iff_get.mp hmem
  rw [List.length_zipWith] at hlt
  refine ⟨i, by omega, by omega, ?_, ?_⟩
  · rw [← hget]
    simp [List.get_zipWith]
  · rw [← hget]
    simp [List.get_zipWith]

/-- The registry as the generator sees it: traversal, then dependency
analysis, then reference names reflected back (the `reg₂` of `dedupRoot`). -/
def finalReg (root : Value) : List (String × HashEntry) :=
  applyRefNames (analyzeDependencies (traverse root).hashRegistry (traverse root).valueToHash)
    (assignRefNames (topologicalSort
      (analyzeDependencies (traverse root).hashRegistry (traverse root).valueToHash)))

theorem kahnLoop_mem (graph : List (String × List String)) (reg : List (String × HashEntry)) :
    ∀ fuel q deg res, (∀ p ∈ res, p.2 = (lookupStr p.1 reg).getD defaultEntry) →
      ∀ p ∈ kahnLoop graph reg fuel q deg res,
        p.2 = (lookupStr p.1 reg).getD defaultEntry := by
  intro fuel
  induction fuel with
  | zero => intro q deg res hres p hp; exact hres p hp
  | succ fuel ih =>
    intro q deg res hres p hp
    cases q with
    | nil => exact hres p hp
    | cons h rest =>
      rw [kahnLoop] at hp
      refine ih _ _ _ ?_ p hp
      intro p₁ hp₁
      rcases List.mem_append.mp hp₁ with h₁ | h₁
      · exact hres p₁ h₁
      · simp at h₁
        rw [h₁]

theorem topologicalSort_entry {reg : List (String × HashEntry)}
    (hnd : (reg.map Prod.fst).Nodup) {p : String × HashEntry}
    (hp : p ∈ topologicalSort reg) :
    p.2 = (lookupStr p.1 reg).getD defaultEntry := by
  unfold topologicalSort at hp
  simp only at hp
  split at hp
  · have hmem : p ∈ reg := List.mem_of_mem_filter hp
    rw [lookupStr_of_mem_nodup (by simpa using hmem) hnd]
    rfl
  · exact kahnLoop_mem _ reg _ _ _ [] (by simp) p hp

/-- Chasing an entry of the final registry back to its traversal entry:
value and count are unchanged, and an assigned name pins down the entry's
position in the namer's duplicate-free name list. -/
theorem finalReg_chase (root : Value) (hwf : wfV root = true) {k : String} {e₂ : HashEntry}
    (he₂ : lookupStr k (finalReg root) = some e₂) :
    ∃ e₀, lookupStr k (traverse root).hashRegistry = some e₀ ∧
      e₂.value = e₀.value ∧ e₂.count = e₀.count := by
  obtain ⟨hinv, _, _⟩ := traverse_spec root hwf
  unfold finalReg at he₂
  rw [applyRefNames_lookup, analyzeDependencies_lookup] at he₂
  cases h₀ : lookupStr k (traverse root).hashRegistry with
  | none => rw [h₀] at he₂; cases he₂
  | some e₀ =>
    rw [h₀] at he₂
    simp only [Option.map_some'] at he₂
    rw [Option.some.injEq] at he₂
    refine ⟨e₀, rfl, ?_⟩
    set reg₁ := analyzeDependencies (traverse root).hashRegistry (traverse root).valueToHash
      with hreg₁
    set assigned := assignRefNames (topologicalSort reg₁) with hass
    cases ha : lookupStr k assigned with
    | none =>
      rw [ha] at he₂
      simp only [Option.getD_none] at he₂
      rw [← he₂]
      by_cases hc : 3 ≤ e₀.count <;> simp [hc]
    | some a =>
      rw [ha] at he₂
      simp only [Option.getD_some] at he₂
      obtain ⟨names, hzip, hlen, hnd, _⟩ := assignNamesGo_spec (topologicalSort reg₁) [] 0
      have hmem : (k, a) ∈ assigned := lookupStr_mem ha
      rw [hass] at hmem
      unfold assignRefNames at hmem
      rw [hzip] at hmem
      obtain ⟨i, hi, hj, hk1, hk2⟩ := zipWith_refName_mem hmem
      have hnd₁ : (reg₁.map Prod.fst).Nodup := by
        rw [hreg₁, analyzeDependencies_map_fst]
        exact hinv.reg.nodup
      have hmem_get : (topologicalSort reg₁).get ⟨i, hi⟩ ∈ topologicalSort reg₁ :=
        List.get_mem _ i hi
      have hent := topologicalSort_entry hnd₁ hmem_get
      have hlook₁ : lookupStr k reg₁ = some (if 3 ≤ e₀.count
          then { e₀ with dependencies := (entryDeps (traverse root).hashRegistry
            (traverse root).valueToHash k e₀) } else e₀) := by
        rw [hreg₁, analyzeDependencies_lookup, h₀]
        by_cases hc : 3 ≤ e₀.count <;> simp [hc]
      have hk1' : ((topologicalSort reg₁).get ⟨i, hi⟩).1 = k := hk1.symm
      rw [hk1'] at hent
      rw [hlook₁] at hent
      simp only [Option.getD_some] at hent
      rw [hent] at hk2
      have hk2' : a = _ := hk2
      rw [← he₂, hk2']
      by_cases hc : 3 ≤ e₀.count <;> simp [hc]

/-- In the final registry, an assigned reference name determines the entry:
two entries carrying the same name are the same entry. -/
theorem finalReg_names_inj (root : Value) (hwf : wfV root = true) :
    ∀ k₁ e₁ k₂ e₂ n, lookupStr k₁ (finalReg root) = some e₁ →
      lookupStr k₂ (finalReg root) = some e₂ →
      e₁.refName = some n → e₂.refName = some n → k₁ = k₂ := by
  obtain ⟨hinv, _, _⟩ := traverse_spec root hwf
  set reg₁ := analyzeDependencies (traverse root).hashRegistry (traverse root).valueToHash
    with hreg₁
  obtain ⟨names, hzip, hlen, hnd, _⟩ := assignNamesGo_spec (topologicalSort reg₁) [] 0
  have hsource : ∀ k e n, lookupStr k (finalReg root) = some e → e.refName = some n →
      ∃ i, ∃ hi : i < (topologicalSort reg₁).length, ∃ hj : i < names.length,
        k = ((topologicalSort reg₁).get ⟨i, hi⟩).1 ∧ n = names.get ⟨i, hj⟩ := by
    intro k e n he hn
    unfold finalReg at he
    rw [applyRefNames_lookup, analyzeDependencies_lookup] at he
    cases h₀ : lookupStr k (traverse root).hashRegistry with
    | none => rw [h₀] at he; cases he
    | some e₀ =>
      rw [h₀] at he
      simp only [Option.map_some'] at he
      rw [Option.some.injEq] at he
      have hrn₀ : e₀.refName = none := (hinv.init (k, e₀) (lookupStr_mem h₀)).1
      cases ha : lookupStr k (assignRefNames (topologicalSort reg₁)) with
      | none =>
        rw [← hreg₁] at he
        rw [ha] at he
        simp only [Option.getD_none] at he
        rw [← he] at hn
        by_cases hc : 3 ≤ e₀.count <;> simp [hc, hrn₀] at hn
      | some a =>
        rw [← hreg₁] at he
        rw [ha] at he
        simp only [Option.getD_some] at he
        have hmem : (k, a) ∈ assignRefNames (topologicalSort reg₁) := lookupStr_mem ha
        unfold assignRefNames at hmem
        rw [hzip] at hmem
        obtain ⟨i, hi, hj, hk1, hk2⟩ := zipWith_refName_mem hmem
        refine ⟨i, hi, hj, hk1, ?_⟩
        have hk2' : a = _ := hk2
        rw [← he, hk2'] at hn
        simp only at hn
        rw [Option.some.injEq] at hn
        exact hn.symm
  intro k₁ e₁ k₂ e₂ n h₁ h₂ hn₁ hn₂
  obtain ⟨i, hi, hj, hki, hni⟩ := hsource k₁ e₁ n h₁ hn₁
  obtain ⟨i₂, hi₂, hj₂, hki₂, hni₂⟩ := hsource k₂ e₂ n h₂ hn₂
  have : names.get ⟨i, hj⟩ = names.get ⟨i₂, hj₂⟩ := by rw [← hni, ← hni₂]
  have hij : i = i₂ := by
    have := (List.Nodup.get_inj_iff hnd).mp this
    simpa using this
  subst hij
  rw [hki, hki₂]

/-- **C4.** Collision handling of the traversal: (1) the chained probe
`digest_c1, digest_c2, …` always finds a slot within one more step than the
registry size, for any registry, digest and value — termination on any finite
set of values; (2) after traversing a well-formed input, values assigned the
same registry key are deep-equal, so two non-deep-equal values (in particular
two structurally different values whose digests collide) are never merged
into one entry; (3) entries of the final registry carrying the same reference
name coincide, so distinct entries are never assigned the same name. -/
theorem claim_C4 (root : Value) (hwf : wfV root = true) :
    (∀ (reg : List (String × HashEntry)) (base : String) (v : Value),
      (probeLoop reg base v (reg.length + 1) 1).isSome) ∧
    (∀ v k w k', (v, k) ∈ (traverse root).valueToHash →
      (w, k') ∈ (traverse root).valueToHash → k = k' → deepEqual v w = true) ∧
    (∀ v k w k', (v, k) ∈ (traverse root).valueToHash →
      (w, k') ∈ (traverse root).valueToHash → ¬ deepEqual v w = true → k ≠ k') ∧
    (∀ k₁ e₁ k₂ e₂ n, lookupStr k₁ (finalReg root) = some e₁ →
      lookupStr k₂ (finalReg root) = some e₂ →
      e₁.refName = some n → e₂.refName = some n → k₁ = k₂) := by
  obtain ⟨hinv, _, _⟩ := traverse_spec root hwf
  have hmerge : ∀ v k w k', (v, k) ∈ (traverse root).valueToHash →
      (w, k') ∈ (traverse root).valueToHash → k = k' → deepEqual v w = true := by
    intro v k w k' hv hw hkk
    subst hkk
    obtain ⟨e₁, he₁, hde₁, hwv, _⟩ := hinv.v2h (v, k) hv
    obtain ⟨e₂, he₂, hde₂, hww, _⟩ := hinv.v2h (w, k) hw
    rw [he₁] at he₂
    cases he₂
    have hwe : wfV e₁.value = true := (hinv.reg.good _ (lookupStr_mem he₁)).1
    exact deepEqual_trans hwv hwe hww (deepEqual_symm hwe hwv hde₁) hde₂
  exact ⟨fun reg base v => probeLoop_isSome reg base v, hmerge,
    fun v k w k' hv hw hnde hkk => hnde (hmerge v k w k' hv hw hkk),
    finalReg_names_inj root hwf⟩

/-- Witness for C4 at the concrete input `[[1], [1], "x"]`-style root
`{"a": [1], "b": [1]}`. -/
theorem claim_C4_witness :
    wfV (.vobj [("a", .varr [.vnum 1]), ("b", .varr [.vnum 1])]) = true ∧
    (∀ (reg : List (String × HashEntry)) (base : String) (v : Value),
      (probeLoop reg base v (reg.length + 1) 1).isSome) :=
  ⟨by decide, (claim_C4 (.vobj [("a", .varr [.vnum 1]), ("b", .varr [.vnum 1])])
    (by decide)).1⟩

/-! ## Kahn topological sort: analysis -/

theorem hasKey_congr {α β : Type} {m₁ : List (String × α)} {m₂ : List (String × β)}
    (hk : m₁.map Prod.fst = m₂.map Prod.fst) (k : String) : hasKey k m₁ = hasKey k m₂ := by
  rw [Bool.eq_iff_iff]
  unfold hasKey
  rw [lookupStr_isSome, lookupStr_isSome, hk]

theorem hasKey_iff_mem {α : Type} {m : List (String × α)} {k : String} :
    hasKey k m = true ↔ k ∈ m.map Prod.fst := by
  unfold hasKey
  exact lookupStr_isSome

theorem updateAt_of_not_mem {α : Type} {k : String} {f : α → α} {m : List (String × α)}
    (h : k ∉ m.map Prod.fst) : updateAt k f m = m := by
  induction m with
  | nil => rfl
  | cons p rest ih =>
    obtain ⟨k₁, v⟩ := p
    simp only [List.map_cons, List.mem_cons] at h
    push_neg at h
    simp only [updateAt, if_neg h.1]
    rw [ih h.2]

theorem count_filter_of_pos {p : String → Bool} {a : String} (l : List String)
    (hp : p a = true) : (l.filter p).count a = l.count a := by
  induction l with
  | nil => rfl
  | cons x xs ih =>
    rw [List.filter_cons]
    by_cases hpx : p x = true
    · rw [if_pos hpx, List.count_cons, List.count_cons, ih]
    · rw [if_neg hpx, ih, List.count_cons]
      have hxa : ¬ (x == a) = true := by
        intro hax
        rw [show x = a from beq_iff_eq.mp hax] at hpx
        exact hpx hp
      rw [if_neg hxa]
      omega

theorem count_filter_of_neg {p : String → Bool} {a : String} (l : List String)
    (hp : p a = false) : (l.filter p).count a = 0 := by
  rw [List.count_eq_zero]
  intro hmem
  have := List.of_mem_filter hmem
  rw [hp] at this
  cases this

theorem two_le_countP {l : List String} (hnd : l.Nodup) {a b : String} (ha : a ∈ l)
    (hb : b ∈ l) (hab : a ≠ b) {p : String → Bool} (hpa : p a = true) (hpb : p b = true) :
    2 ≤ l.countP p := by
  induction l with
  | nil => cases ha
  | cons x xs ih =>
    rw [List.nodup_cons] at hnd
    rcases List.mem_cons.mp ha with hax | hax
    · subst hax
      have hbx : b ∈ xs := by
        rcases List.mem_cons.mp hb with h | h
        · exact absurd h.symm hab
        · exact h
      have h1 : 0 < xs.countP p := List.countP_pos_iff.mpr ⟨b, hbx, hpb⟩
      rw [List.countP_cons, hpa]
      simp only [if_true]
      omega
    · rcases List.mem_cons.mp hb with hbx | hbx
      · subst hbx
        have h1 : 0 < xs.countP p := List.countP_pos_iff.mpr ⟨a, hax, hpa⟩
        rw [List.countP_cons, hpb]
        simp only [if_true]
        omega
      · have := ih hnd.2 hax hbx
        rw [List.countP_cons]
        omega

theorem countP_congr_mem {α : Type} {l : List α} {p q : α → Bool}
    (h : ∀ a ∈ l, p a = q a) : l.countP p = l.countP q := by
  rw [List.countP_eq_length_filter, List.countP_eq_length_filter, List.filter_congr h]

theorem countP_same_notmem (m : List String) (R : List String) (h : String)
    (hmem : h ∉ m) :
    m.countP (fun d => decide (¬ d ∈ R ++ [h])) = m.countP (fun d => decide (¬ d ∈ R)) := by
  refine countP_congr_mem ?_
  intro a hal
  have hne : a ≠ h := fun he => hmem (he ▸ hal)
  simp [List.mem_append, hne]

theorem countP_erase_one (m : List String) (hm : m.Nodup) (R : List String) (h : String)
    (hh : h ∉ R) (hmem : h ∈ m) :
    m.countP (fun d => decide (¬ d ∈ R ++ [h])) + 1 = m.countP (fun d => decide (¬ d ∈ R)) := by
  induction m with
  | nil => cases hmem
  | cons a t ih =>
    rw [List.nodup_cons] at hm
    rcases List.mem_cons.mp hmem with hah | hat
    · rw [hah] at hh ⊢
      rw [List.countP_cons, List.countP_cons, countP_same_notmem t R a hm.1]
      have h1 : decide (¬ a ∈ R ++ [a]) = false := by simp
      have h2 : decide (¬ a ∈ R) = true := by simp [hh]
      simp [h1, h2]
    · have hne : a ≠ h := fun he => hm.1 (he ▸ hat)
      rw [List.countP_cons, List.countP_cons, ← ih hm.2 hat]
      have heq : decide (¬ a ∈ R ++ [h]) = decide (¬ a ∈ R) := by
        simp [List.mem_append, hne]
      simp only [heq]
      omega

/-- Characterization of the dependent-processing fold of one `kahnLoop` step
(let-free form): the queue gains, in order, the dependents whose stored
in-degree was 1, and every stored in-degree drops by the dependent's
multiplicity. -/
theorem kahnFold_char (l : List String) (hl : l.Nodup) :
    ∀ (rest : List String) (inDeg : List (String × Int)),
      (l.foldl (fun (qd : List String × List (String × Int)) dependent =>
          if (lookupStr dependent qd.2).getD 0 - 1 = 0
          then (qd.1 ++ [dependent], updateAt dependent (fun x => x - 1) qd.2)
          else (qd.1, updateAt dependent (fun x => x - 1) qd.2)) (rest, inDeg)).1
        = rest ++ l.filter (fun x => decide ((lookupStr x inDeg).getD 0 - 1 = 0)) ∧
      ∀ x, lookupStr x
          (l.foldl (fun (qd : List String × List (String × Int)) dependent =>
            if (lookupStr dependent qd.2).getD 0 - 1 = 0
            then (qd.1 ++ [dependent], updateAt dependent (fun x => x - 1) qd.2)
            else (qd.1, updateAt dependent (fun x => x - 1) qd.2)) (rest, inDeg)).2
        = (lookupStr x inDeg).map (fun c => c - (l.count x : Int)) := by
  induction l with
  | nil =>
    intro rest inDeg
    refine ⟨by simp, ?_⟩
    intro x
    cases h : lookupStr x inDeg <;> simp [h]
  | cons a t ih =>
    rw [List.nodup_cons] at hl
    intro rest inDeg
    simp only [List.foldl_cons]
    have hfc : t.filter (fun x => decide ((lookupStr x (updateAt a (fun c => c - 1) inDeg)).getD 0 - 1 = 0))
        = t.filter (fun x => decide ((lookupStr x inDeg).getD 0 - 1 = 0)) := by
      refine List.filter_congr ?_
      intro z hz
      have hza : z ≠ a := fun he => hl.1 (he ▸ hz)
      rw [updateAt_lookup_other hza]
    by_cases hd : (lookupStr a inDeg).getD 0 - 1 = 0
    · rw [if_pos hd]
      obtain ⟨h1, h2⟩ := ih hl.2 (rest ++ [a]) (updateAt a (fun x => x - 1) inDeg)
      constructor
      · rw [h1, hfc, List.filter_cons]
        have hda : decide ((lookupStr a inDeg).getD 0 - 1 = 0) = true := by simpa using hd
        rw [if_pos hda]
        simp
      · intro x
        rw [h2 x]
        by_cases hxa : x = a
        · subst hxa
          rw [updateAt_lookup_self]
          cases hx : lookupStr x inDeg with
          | none => simp
          | some c =>
            simp only [Option.map_some']
            rw [Option.some.injEq]
            have hc : (x :: t).count x = t.count x + 1 := by
              rw [List.count_cons]
              simp
            rw [hc]
            push_cast
            ring
        · rw [updateAt_lookup_other hxa]
          have hax : a ≠ x := fun he => hxa he.symm
          have hc : (a :: t).count x = t.count x := by
            simp [List.count_cons, hax]
          rw [hc]
    · rw [if_neg hd]
      obtain ⟨h1, h2⟩ := ih hl.2 rest (updateAt a (fun x => x - 1) inDeg)
      constructor
      · rw [h1, hfc, List.filter_cons]
        have hda : decide ((lookupStr a inDeg).getD 0 - 1 = 0) = false := by simpa using hd
        rw [if_neg (by simp [hda] : ¬ decide ((lookupStr a inDeg).getD 0 - 1 = 0) = true)]
      · intro x
        rw [h2 x]
        by_cases hxa : x = a
        · subst hxa
          rw [updateAt_lookup_self]
          cases hx : lookupStr x inDeg with
          | none => simp
          | some c =>
            simp only [Option.map_some']
            rw [Option.some.injEq]
            have hc : (x :: t).count x = t.count x + 1 := by
              rw [List.count_cons]
              simp
            rw [hc]
            push_cast
            ring
        · rw [updateAt_lookup_other hxa]
          have hax : a ≠ x := fun he => hxa he.symm
          have hc : (a :: t).count x = t.count x := by
            simp [List.count_cons, hax]
          rw [hc]

/-- Characterization of the inner edge-insertion fold of `buildGraph` for one
entry with key `y`: each dependency whose key is tracked appends `y` to its
dependents list and bumps `y`'s in-degree by one. -/
theorem buildInner_char (y : String) (ds : List String) :
    ∀ (g : List (String × List String)) (ind : List (String × Int))
      (gout : List (String × List String)) (indout : List (String × Int)),
      ds.foldl (fun (gi : List (String × List String) × List (String × Int)) dep =>
          if hasKey dep gi.2 then
            (updateAt dep (fun l => l ++ [y]) gi.1, updateAt y (fun d => d + 1) gi.2)
          else gi) (g, ind) = (gout, indout) →
      gout.map Prod.fst = g.map Prod.fst ∧
      indout.map Prod.fst = ind.map Prod.fst ∧
      (∀ d, lookupStr d gout = (lookupStr d g).map
        (fun l => l ++ List.replicate ((ds.filter (fun c => hasKey c ind)).count d) y)) ∧
      (∀ x, lookupStr x indout = (lookupStr x ind).map
        (fun c => c + (if x = y then ((ds.filter (fun c => hasKey c ind)).length : Int) else 0))) := by
  induction ds with
  | nil =>
    intro g ind gout indout heq
    rw [List.foldl_nil, Prod.mk.injEq] at heq
    obtain ⟨rfl, rfl⟩ := heq
    refine ⟨rfl, rfl, ?_, ?_⟩
    · intro d
      cases h : lookupStr d g <;> simp [h]
    · intro x
      cases h : lookupStr x ind <;> simp [h]
  | cons c ds ih =>
    intro g ind gout indout heq
    simp only [List.foldl_cons] at heq
    by_cases hk : hasKey c ind = true
    · rw [if_pos hk] at heq
      obtain ⟨ik1, ik2, ig, ii⟩ := ih _ _ _ _ heq
      have hindk : (updateAt y (fun d => d + 1) ind).map Prod.fst = ind.map Prod.fst :=
        updateAt_map_fst
      have hgk : (updateAt c (fun l => l ++ [y]) g).map Prod.fst = g.map Prod.fst :=
        updateAt_map_fst
      have hkt : ∀ c', hasKey c' (updateAt y (fun d => d + 1) ind) = hasKey c' ind :=
        fun c' => hasKey_congr hindk c'
      have hft : ds.filter (fun c' => hasKey c' (updateAt y (fun d => d + 1) ind))
          = ds.filter (fun c' => hasKey c' ind) :=
        List.filter_congr (fun c' _ => hkt c')
      have hfcons : (c :: ds).filter (fun c' => hasKey c' ind)
          = c :: ds.filter (fun c' => hasKey c' ind) := by
        rw [List.filter_cons, if_pos hk]
      refine ⟨by rw [ik1, hgk], by rw [ik2, hindk], ?_, ?_⟩
      · intro d
        rw [ig d, hft, hfcons]
        by_cases hdc : d = c
        · subst hdc
          rw [updateAt_lookup_self]
          cases h : lookupStr d g with
          | none => simp
          | some l =>
            simp only [Option.map_some']
            rw [Option.some.injEq]
            have hcnt : (d :: ds.filter (fun c' => hasKey c' ind)).count d
                = (ds.filter (fun c' => hasKey c' ind)).count d + 1 := by
              simp [List.count_cons]
            rw [hcnt, List.replicate_succ, List.append_assoc]
            rfl
        · rw [updateAt_lookup_other hdc]
          have hcd : c ≠ d := fun he => hdc he.symm
          have hcnt : (c :: ds.filter (fun c' => hasKey c' ind)).count d
              = (ds.filter (fun c' => hasKey c' ind)).count d := by
            simp [List.count_cons, hcd]
          rw [hcnt]
      · intro x
        rw [ii x, hft, hfcons]
        by_cases hxy : x = y
        · subst hxy
          rw [updateAt_lookup_self]
          cases h : lookupStr x ind with
          | none => simp
          | some v =>
            simp only [Option.map_some']
            rw [Option.some.injEq]
            simp only [if_pos rfl, List.length_cons]
            push_cast
            ring
        · rw [updateAt_lookup_other hxy]
          simp only [if_neg hxy]
    · rw [if_neg hk] at heq
      obtain ⟨ik1, ik2, ig, ii⟩ := ih _ _ _ _ heq
      have hfcons : (c :: ds).filter (fun c' => hasKey c' ind)
          = ds.filter (fun c' => hasKey c' ind) := by
        rw [List.filter_cons, if_neg (by simp [hk])]
      refine ⟨ik1, ik2, ?_, ?_⟩
      · intro d
        rw [ig d, hfcons]
      · intro x
        rw [ii x, hfcons]

/-- Characterization of the whole edge-insertion fold of `buildGraph`: the
dependents list of a tracked key `d` gains, in order, the keys of the entries
containing `d` among their dependencies, and each entry's in-degree ends at
the number of its tracked dependencies. -/
theorem buildOuter_char (ps : List (String × HashEntry)) :
    ∀ (g : List (String × List String)) (ind : List (String × Int))
      (gout : List (String × List String)) (indout : List (String × Int)),
      ps.foldl (fun gi p =>
          p.2.dependencies.foldl
            (fun (gi : List (String × List String) × List (String × Int)) dep =>
              if hasKey dep gi.2 then
                (updateAt dep (fun l => l ++ [p.1]) gi.1, updateAt p.1 (fun d => d + 1) gi.2)
              else gi) gi) (g, ind) = (gout, indout) →
      (∀ p ∈ ps, p.2.dependencies.Nodup) →
      (ps.map Prod.fst).Nodup →
      gout.map Prod.fst = g.map Prod.fst ∧
      indout.map Prod.fst = ind.map Prod.fst ∧
      (∀ d, hasKey d ind = true →
        lookupStr d gout = (lookupStr d g).map
          (fun l => l ++ (ps.filter (fun p => p.2.dependencies.contains d)).map Prod.fst)) ∧
      (∀ d, hasKey d ind = false → lookupStr d gout = lookupStr d g) ∧
      (∀ x, x ∉ ps.map Prod.fst → lookupStr x indout = lookupStr x ind) ∧
      (∀ x e, (x, e) ∈ ps →
        lookupStr x indout = (lookupStr x ind).map
          (fun c => c + ((e.dependencies.filter (fun c => hasKey c ind)).length : Int))) := by
  induction ps with
  | nil =>
    intro g ind gout indout heq _ _
    rw [List.foldl_nil, Prod.mk.injEq] at heq
    obtain ⟨rfl, rfl⟩ := heq
    refine ⟨rfl, rfl, ?_, fun _ _ => rfl, fun _ _ => rfl, ?_⟩
    · intro d _
      cases h : lookupStr d g <;> simp [h]
    · intro x e hmem
      cases hmem
  | cons p tl ih =>
    intro g ind gout indout heq hdeps hnd
    simp only [List.foldl_cons] at heq
    rcases hA : p.2.dependencies.foldl
        (fun (gi : List (String × List String) × List (String × Int)) dep =>
          if hasKey dep gi.2 then
            (updateAt dep (fun l => l ++ [p.1]) gi.1, updateAt p.1 (fun d => d + 1) gi.2)
          else gi) (g, ind) with ⟨g₁, ind₁⟩
    rw [hA] at heq
    obtain ⟨ik1, ik2, ig, ii⟩ := buildInner_char p.1 p.2.dependencies g ind g₁ ind₁ hA
    rw [List.map_cons, List.nodup_cons] at hnd
    have hdnd : p.2.dependencies.Nodup := hdeps p (List.mem_cons_self p tl)
    have hdepstl : ∀ q ∈ tl, q.2.dependencies.Nodup :=
      fun q hq => hdeps q (List.mem_cons_of_mem p hq)
    obtain ⟨jk1, jk2, jg, jg0, ji0, ji⟩ := ih g₁ ind₁ gout indout heq hdepstl hnd.2
    have hkt : ∀ c, hasKey c ind₁ = hasKey c ind := fun c => hasKey_congr ik2 c
    refine ⟨by rw [jk1, ik1], by rw [jk2, ik2], ?_, ?_, ?_, ?_⟩
    · -- tracked keys: dependents accumulate
      intro d hd
      rw [jg d (by rw [hkt d]; exact hd), ig d]
      have hcnt : (p.2.dependencies.filter (fun c => hasKey c ind)).count d
          = if p.2.dependencies.contains d then 1 else 0 := by
        by_cases hdc : p.2.dependencies.contains d = true
        · rw [if_pos hdc]
          rw [count_filter_of_pos _ hd]
          have hmem : d ∈ p.2.dependencies := by
            rw [← List.elem_iff]
            exact hdc
          have := List.count_eq_one_of_mem hdnd hmem
          omega
        · rw [if_neg hdc]
          rw [List.count_eq_zero]
          intro hmem
          exact hdc (List.elem_iff.mpr (List.mem_of_mem_filter hmem))
      rw [List.filter_cons]
      by_cases hdc : p.2.dependencies.contains d = true
      · rw [if_pos (by simpa using hdc), hcnt, if_pos hdc]
        cases h : lookupStr d g with
        | none => simp
        | some l =>
          simp only [Option.map_some']
          rw [Option.some.injEq, List.map_cons]
          simp
      · rw [if_neg (by simpa using hdc), hcnt, if_neg hdc]
        cases h : lookupStr d g with
        | none => simp
        | some l => simp
    · -- untracked keys: the graph never changes
      intro d hd
      rw [jg0 d (by rw [hkt d]; exact hd), ig d]
      have hcnt : (p.2.dependencies.filter (fun c => hasKey c ind)).count d = 0 := by
        rw [List.count_eq_zero]
        intro hmem
        have := List.of_mem_filter hmem
        rw [hd] at this
        cases this
      rw [hcnt]
      cases h : lookupStr d g with
      | none => simp
      | some l => simp
    · -- keys outside ps: in-degree unchanged
      intro x hx
      rw [List.map_cons, List.mem_cons] at hx
      push_neg at hx
      rw [ji0 x hx.2, ii x, if_neg hx.1]
      cases h : lookupStr x ind with
      | none => simp
      | some c => simp
    · -- keys of ps: in-degree counts tracked dependencies
      intro x e hmem
      rcases List.mem_cons.mp hmem with hhd | htl
      · subst hhd
        have hxtl : x ∉ tl.map Prod.fst := hnd.1
        rw [ji0 x hxtl, ii x, if_pos rfl]
      · have hxp : x ≠ p.1 := by
          intro hxe
          exact hnd.1 (hxe ▸ List.mem_map.mpr ⟨(x, e), htl, rfl⟩)
        have hfe : e.dependencies.filter (fun c => hasKey c ind₁)
            = e.dependencies.filter (fun c => hasKey c ind) :=
          List.filter_congr (fun c _ => hkt c)
        rw [ji x e htl, hfe, ii x, if_neg hxp]
        cases h : lookupStr x ind with
        | none => simp
        | some c => simp

/-- The tracked dependency set of a duplicate candidate: its recorded
dependencies restricted to keys of the candidate list (the edges `buildGraph`
actually inserts). -/
def depsIn (dups : List (String × HashEntry)) (x : String) : List String :=
  ((lookupStr x dups).getD defaultEntry).dependencies.filter (fun c => hasKey c dups)

/-- Characterization of `buildGraph`: keys of both maps are the candidate
keys; the dependents list of a key `d` holds the candidates containing `d`
among their dependencies, in candidate order; the in-degree of a candidate is
its number of tracked dependencies. -/
theorem buildGraph_char (dups : List (String × HashEntry))
    (hnd : (dups.map Prod.fst).Nodup)
    (hdeps : ∀ p ∈ dups, p.2.dependencies.Nodup) :
    (buildGraph dups).1.map Prod.fst = dups.map Prod.fst ∧
    (buildGraph dups).2.map Prod.fst = dups.map Prod.fst ∧
    (∀ d, d ∈ dups.map Prod.fst →
      lookupStr d (buildGraph dups).1 =
        some ((dups.filter (fun p => p.2.dependencies.contains d)).map Prod.fst)) ∧
    (∀ x e, (x, e) ∈ dups →
      lookupStr x (buildGraph dups).2 =
        some (((e.dependencies.filter (fun c => hasKey c dups)).length : Int))) := by
  have hfold : dups.foldl (fun gi p =>
      p.2.dependencies.foldl
        (fun (gi : List (String × List String) × List (String × Int)) dep =>
          if hasKey dep gi.2 then
            (updateAt dep (fun l => l ++ [p.1]) gi.1, updateAt p.1 (fun d => d + 1) gi.2)
          else gi) gi)
      (dups.map (fun p => (p.1, ([] : List String))), dups.map (fun p => (p.1, (0 : Int))))
      = ((buildGraph dups).1, (buildGraph dups).2) := rfl
  obtain ⟨k1, k2, g1, g0, i0, i1⟩ := buildOuter_char dups _ _ _ _ hfold hdeps hnd
  have hg0k : (dups.map (fun p => (p.1, ([] : List String)))).map Prod.fst
      = dups.map Prod.fst := by
    rw [List.map_map]
    rfl
  have hi0k : (dups.map (fun p => (p.1, (0 : Int)))).map Prod.fst = dups.map Prod.fst := by
    rw [List.map_map]
    rfl
  have hlookg0 : ∀ d, lookupStr d (dups.map (fun p => (p.1, ([] : List String))))
      = (lookupStr d dups).map (fun _ => ([] : List String)) :=
    fun d => lookup_map_entry (fun _ _ => ([] : List String)) dups d
  have hlooki0 : ∀ d, lookupStr d (dups.map (fun p => (p.1, (0 : Int))))
      = (lookupStr d dups).map (fun _ => (0 : Int)) :=
    fun d => lookup_map_entry (fun _ _ => (0 : Int)) dups d
  refine ⟨by rw [k1, hg0k], by rw [k2, hi0k], ?_, ?_⟩
  · intro d hd
    have hkk : hasKey d (dups.map (fun p => (p.1, (0 : Int)))) = true := by
      rw [hasKey_iff_mem, hi0k]
      exact hd
    have hde : (lookupStr d dups).isSome := lookupStr_isSome.mpr hd
    obtain ⟨e, he⟩ := Option.isSome_iff_exists.mp hde
    rw [g1 d hkk, hlookg0 d, he]
    simp
  · intro x e hmem
    have hle : lookupStr x dups = some e := lookupStr_of_mem_nodup hmem hnd
    have hfeq : e.dependencies.filter (fun c => hasKey c (dups.map (fun p => (p.1, (0 : Int)))))
        = e.dependencies.filter (fun c => hasKey c dups) :=
      List.filter_congr (fun c _ => hasKey_congr hi0k c)
    rw [i1 x e hmem, hfeq, hlooki0 x, hle]
    simp

/-- The invariant argument for `kahnLoop` over an abstract candidate key list
`K` and tracked-dependency map `D`: whatever the fuel, the emitted list has
pairwise distinct candidate keys and every emitted entry's tracked
dependencies were emitted strictly before it. -/
theorem kahnLoop_spec (graph : List (String × List String)) (reg : List (String × HashEntry))
    (K : List String) (D : String → List String)
    (hDnd : ∀ x, (D x).Nodup)
    (hself : ∀ x, x ∉ D x)
    (hgraph : ∀ h ∈ K, ∃ l, lookupStr h graph = some l ∧ l.Nodup ∧
        (∀ y, y ∈ l ↔ y ∈ K ∧ h ∈ D y)) :
    ∀ (fuel : Nat) (queue : List String) (inDeg : List (String × Int))
      (res : List (String × HashEntry)),
      (res.map Prod.fst ++ queue).Nodup →
      (∀ h ∈ queue, h ∈ K) →
      (∀ p ∈ res, p.1 ∈ K) →
      (∀ x ∈ K, lookupStr x inDeg =
        some (((D x).countP (fun d => decide (¬ d ∈ res.map Prod.fst)) : Int))) →
      (∀ h ∈ queue, ∀ d ∈ D h, d ∈ res.map Prod.fst) →
      (∀ (i : Nat) (hi : i < res.length), ∀ d ∈ D ((res.get ⟨i, hi⟩).1),
          d ∈ (res.take i).map Prod.fst) →
      ((kahnLoop graph reg fuel queue inDeg res).map Prod.fst).Nodup ∧
      (∀ p ∈ kahnLoop graph reg fuel queue inDeg res, p.1 ∈ K) ∧
      (∀ (i : Nat) (hi : i < (kahnLoop graph reg fuel queue inDeg res).length),
          ∀ d ∈ D ((kahnLoop graph reg fuel queue inDeg res).get ⟨i, hi⟩).1,
          d ∈ ((kahnLoop graph reg fuel queue inDeg res).take i).map Prod.fst) := by
  intro fuel
  induction fuel with
  | zero =>
    intro queue inDeg res h₁ h₂ h₃ h₄ h₅ h₆
    exact ⟨(List.nodup_append.mp h₁).1, h₃, h₆⟩
  | succ fuel ih =>
    intro queue inDeg res h₁ h₂ h₃ h₄ h₅ h₆
    cases queue with
    | nil => exact ⟨(List.nodup_append.mp h₁).1, h₃, h₆⟩
    | cons h rest =>
      have fhK : h ∈ K := h₂ h (List.mem_cons_self h rest)
      obtain ⟨l, hl, hlnd, hlmem⟩ := hgraph h fhK
      obtain ⟨hndR, hndq, hdisj⟩ := List.nodup_append.mp h₁
      rw [List.nodup_cons] at hndq
      have fhR : h ∉ res.map Prod.fst := fun hmem => hdisj hmem (List.mem_cons_self h rest)
      have hkl : kahnLoop graph reg (fuel + 1) (h :: rest) inDeg res
          = kahnLoop graph reg fuel
              (((lookupStr h graph).getD []).foldl
                (fun (qd : List String × List (String × Int)) dependent =>
                  if (lookupStr dependent qd.2).getD 0 - 1 = 0
                  then (qd.1 ++ [dependent], updateAt dependent (fun x => x - 1) qd.2)
                  else (qd.1, updateAt dependent (fun x => x - 1) qd.2)) (rest, inDeg)).1
              (((lookupStr h graph).getD []).foldl
                (fun (qd : List String × List (String × Int)) dependent =>
                  if (lookupStr dependent qd.2).getD 0 - 1 = 0
                  then (qd.1 ++ [dependent], updateAt dependent (fun x => x - 1) qd.2)
                  else (qd.1, updateAt dependent (fun x => x - 1) qd.2)) (rest, inDeg)).2
              (res ++ [(h, (lookupStr h reg).getD defaultEntry)]) := rfl
      have hgl : (lookupStr h graph).getD [] = l := by rw [hl]; rfl
      rw [hgl] at hkl
      obtain ⟨hq1, hq2⟩ := kahnFold_char l hlnd rest inDeg
      rw [hq1] at hkl
      have hR' : (res ++ [(h, (lookupStr h reg).getD defaultEntry)]).map Prod.fst
          = res.map Prod.fst ++ [h] := by simp
      -- properties of the enqueued dependents
      have henq : ∀ x ∈ l.filter (fun x => decide ((lookupStr x inDeg).getD 0 - 1 = 0)),
          x ∈ K ∧ h ∈ D x ∧
            (D x).countP (fun d => decide (¬ d ∈ res.map Prod.fst)) = 1 := by
        intro x hx
        have hxl : x ∈ l := List.mem_of_mem_filter hx
        have hcond := List.of_mem_filter hx
        obtain ⟨hxK, hhDx⟩ := (hlmem x).mp hxl
        refine ⟨hxK, hhDx, ?_⟩
        rw [h₄ x hxK] at hcond
        simp only [Option.getD_some, decide_eq_true_eq] at hcond
        omega
      have hfresh : ∀ x ∈ l.filter (fun x => decide ((lookupStr x inDeg).getD 0 - 1 = 0)),
          x ∉ res.map Prod.fst ∧ x ∉ rest ∧ x ≠ h := by
        intro x hx
        obtain ⟨hxK, hhDx, hcnt⟩ := henq x hx
        refine ⟨?_, ?_, ?_⟩
        · intro hxR
          obtain ⟨p, hp, hpx⟩ := List.mem_map.mp hxR
          obtain ⟨⟨i, hi⟩, hget⟩ := List.mem_iff_get.mp hp
          have hDsub : ∀ d ∈ D x, d ∈ (res.take i).map Prod.fst := by
            rw [← hpx, ← hget]
            exact h₆ i hi
          have hzero : (D x).countP (fun d => decide (¬ d ∈ res.map Prod.fst)) = 0 := by
            rw [List.countP_eq_zero]
            intro d hd
            have hdR : d ∈ res.map Prod.fst := by
              have := hDsub d hd
              rw [List.map_take] at this
              exact List.take_subset i (res.map Prod.fst) this
            simp [hdR]
          omega
        · intro hxrest
          have hsub := h₅ x (List.mem_cons_of_mem h hxrest)
          have hzero : (D x).countP (fun d => decide (¬ d ∈ res.map Prod.fst)) = 0 := by
            rw [List.countP_eq_zero]
            intro d hd
            simp [hsub d hd]
          omega
        · intro hxh
          rw [hxh] at hhDx
          exact hself h hhDx
      have hendnd : (l.filter (fun x => decide ((lookupStr x inDeg).getD 0 - 1 = 0))).Nodup :=
        List.Nodup.filter _ hlnd
      -- the six invariants for the next iteration
      have inv₁ : ((res ++ [(h, (lookupStr h reg).getD defaultEntry)]).map Prod.fst ++
          (rest ++ l.filter (fun x => decide ((lookupStr x inDeg).getD 0 - 1 = 0)))).Nodup := by
        rw [hR']
        rw [List.nodup_append]
        refine ⟨?_, ?_, ?_⟩
        · rw [List.nodup_append]
          refine ⟨hndR, List.nodup_singleton h, ?_⟩
          intro a haR hah
          rw [List.mem_singleton] at hah
          exact (hah ▸ fhR) haR
        · rw [List.nodup_append]
          refine ⟨hndq.2, hendnd, ?_⟩
          intro a harest haenq
          exact (hfresh a haenq).2.1 harest
        · intro a haRh haq
          rcases List.mem_append.mp haq with har | hae
          · rcases List.mem_append.mp haRh with haR | hah
            · exact hdisj haR (List.mem_cons_of_mem h har)
            · rw [List.mem_singleton] at hah
              rw [hah] at har
              exact hndq.1 har
          · rcases List.mem_append.mp haRh with haR | hah
            · exact (hfresh a hae).1 haR
            · rw [List.mem_singleton] at hah
              exact (hfresh a hae).2.2 hah
      have inv₂ : ∀ x ∈ rest ++ l.filter (fun x => decide ((lookupStr x inDeg).getD 0 - 1 = 0)),
          x ∈ K := by
        intro x hx
        rcases List.mem_append.mp hx with hxr | hxe
        · exact h₂ x (List.mem_cons_of_mem h hxr)
        · exact (henq x hxe).1
      have inv₃ : ∀ p ∈ res ++ [(h, (lookupStr h reg).getD defaultEntry)], p.1 ∈ K := by
        intro p hp
        rcases List.mem_append.mp hp with hpr | hph
        · exact h₃ p hpr
        · rw [List.mem_singleton] at hph
          rw [hph]
          exact fhK
      have inv₄ : ∀ x ∈ K, lookupStr x
          (l.foldl (fun (qd : List String × List (String × Int)) dependent =>
            if (lookupStr dependent qd.2).getD 0 - 1 = 0
            then (qd.1 ++ [dependent], updateAt dependent (fun x => x - 1) qd.2)
            else (qd.1, updateAt dependent (fun x => x - 1) qd.2)) (rest, inDeg)).2
          = some (((D x).countP (fun d => decide
              (¬ d ∈ (res ++ [(h, (lookupStr h reg).getD defaultEntry)]).map Prod.fst)) : Int)) := by
        intro x hxK
        rw [hq2 x, h₄ x hxK, hR']
        simp only [Option.map_some']
        rw [Option.some.injEq]
        by_cases hxl : x ∈ l
        · have hhx : h ∈ D x := ((hlmem x).mp hxl).2
          have hcount : l.count x = 1 := List.count_eq_one_of_mem hlnd hxl
          rw [hcount]
          have herase := countP_erase_one (D x) (hDnd x) (res.map Prod.fst) h fhR hhx
          omega
        · have hhx : h ∉ D x := fun hh => hxl ((hlmem x).mpr ⟨hxK, hh⟩)
          have hcount : l.count x = 0 := List.count_eq_zero.mpr hxl
          rw [hcount]
          rw [countP_same_notmem (D x) (res.map Prod.fst) h hhx]
          omega
      have inv₅ : ∀ x ∈ rest ++ l.filter (fun x => decide ((lookupStr x inDeg).getD 0 - 1 = 0)),
          ∀ d ∈ D x, d ∈ (res ++ [(h, (lookupStr h reg).getD defaultEntry)]).map Prod.fst := by
        intro x hx d hd
        rw [hR']
        rcases List.mem_append.mp hx with hxr | hxe
        · exact List.mem_append_left _ (h₅ x (List.mem_cons_of_mem h hxr) d hd)
        · obtain ⟨hxK, hhDx, hcnt⟩ := henq x hxe
          by_contra hdnot
          rw [List.mem_append, List.mem_singleton] at hdnot
          push_neg at hdnot
          have hpd : (fun d => decide (¬ d ∈ res.map Prod.fst)) d = true := by
            simp [hdnot.1]
          have hph : (fun d => decide (¬ d ∈ res.map Prod.fst)) h = true := by
            simp [fhR]
          have := two_le_countP (p := fun d => decide (¬ d ∈ res.map Prod.fst))
            (hDnd x) hd hhDx hdnot.2 hpd hph
          omega
      have inv₆ : ∀ (i : Nat)
          (hi : i < (res ++ [(h, (lookupStr h reg).getD defaultEntry)]).length),
          ∀ d ∈ D (((res ++ [(h, (lookupStr h reg).getD defaultEntry)]).get ⟨i, hi⟩).1),
          d ∈ ((res ++ [(h, (lookupStr h reg).getD defaultEntry)]).take i).map Prod.fst := by
        intro i hi
        have hlen : (res ++ [(h, (lookupStr h reg).getD defaultEntry)]).length
            = res.length + 1 := by simp
        by_cases hilt : i < res.length
        · have hget : ((res ++ [(h, (lookupStr h reg).getD defaultEntry)]).get ⟨i, hi⟩)
              = res.get ⟨i, hilt⟩ := by
            rw [List.get_eq_getElem, List.get_eq_getElem]
            exact List.getElem_append_left hilt
          have htake : (res ++ [(h, (lookupStr h reg).getD defaultEntry)]).take i
              = res.take i := List.take_append_of_le_length (by omega)
          intro d hd
          rw [htake]
          rw [hget] at hd
          exact h₆ i hilt d hd
        · have hieq : i = res.length := by omega
          subst hieq
          have hget : ((res ++ [(h, (lookupStr h reg).getD defaultEntry)]).get
              ⟨res.length, hi⟩) = (h, (lookupStr h reg).getD defaultEntry) := by
            rw [List.get_eq_getElem]
            exact List.getElem_concat_length res _ _ rfl (by omega)
          intro d hd
          rw [hget] at hd
          have hdR : d ∈ res.map Prod.fst := h₅ h (List.mem_cons_self h rest) d hd
          have htake : (res ++ [(h, (lookupStr h reg).getD defaultEntry)]).take res.length
              = res := List.take_left res _
          rw [htake]
          exact hdR
      rw [hkl]
      exact ih _ _ _ inv₁ inv₂ inv₃ inv₄ inv₅ inv₆

/-- `topologicalSort` with its intermediate lets expanded. -/
theorem topologicalSort_eq (reg : List (String × HashEntry)) :
    topologicalSort reg = if (kahnLoop (buildGraph (duplicatesOf reg)).1 reg
        ((((buildGraph (duplicatesOf reg)).2.filter (fun p => p.2 = 0)).map Prod.fst).length
          + sumPos (buildGraph (duplicatesOf reg)).2 + 1)
        (((buildGraph (duplicatesOf reg)).2.filter (fun p => p.2 = 0)).map Prod.fst)
        (buildGraph (duplicatesOf reg)).2 []).length ≠ (duplicatesOf reg).length
      then duplicatesOf reg
      else kahnLoop (buildGraph (duplicatesOf reg)).1 reg
        ((((buildGraph (duplicatesOf reg)).2.filter (fun p => p.2 = 0)).map Prod.fst).length
          + sumPos (buildGraph (duplicatesOf reg)).2 + 1)
        (((buildGraph (duplicatesOf reg)).2.filter (fun p => p.2 = 0)).map Prod.fst)
        (buildGraph (duplicatesOf reg)).2 [] := rfl

/-- Nodup keys of the duplicate-candidate list. -/
theorem duplicatesOf_nodup {reg : List (String × HashEntry)}
    (hnd : (reg.map Prod.fst).Nodup) : ((duplicatesOf reg).map Prod.fst).Nodup :=
  List.Nodup.sublist (List.Sublist.map Prod.fst (List.filter_sublist reg)) hnd

/-- `topologicalSort` either falls back to the candidates in discovery order
(cycle case) or returns a permutation of the candidates in which every
entry's tracked dependencies appear strictly before it. -/
theorem topologicalSort_spec (reg : List (String × HashEntry))
    (hnd : (reg.map Prod.fst).Nodup)
    (hdeps : ∀ p ∈ duplicatesOf reg, p.2.dependencies.Nodup)
    (hself : ∀ p ∈ duplicatesOf reg, p.1 ∉ p.2.dependencies) :
    topologicalSort reg = duplicatesOf reg ∨
      (((topologicalSort reg).map Prod.fst).Nodup ∧
       List.Perm ((topologicalSort reg).map Prod.fst) ((duplicatesOf reg).map Prod.fst) ∧
       (∀ (i : Nat) (hi : i < (topologicalSort reg).length),
         ∀ d ∈ depsIn (duplicatesOf reg) (((topologicalSort reg).get ⟨i, hi⟩).1),
           d ∈ ((topologicalSort reg).take i).map Prod.fst)) := by
  have hddnd : ((duplicatesOf reg).map Prod.fst).Nodup := duplicatesOf_nodup hnd
  obtain ⟨hk1, hk2, hg, hi⟩ := buildGraph_char (duplicatesOf reg) hddnd hdeps
  -- tracked dependency lists are duplicate-free and never self-referential
  have hDnd : ∀ x, (depsIn (duplicatesOf reg) x).Nodup := by
    intro x
    unfold depsIn
    cases hx : lookupStr x (duplicatesOf reg) with
    | none =>
      simp only [Option.getD_none]
      exact List.Nodup.filter _ (by simp [defaultEntry, freshEntry])
    | some e =>
      simp only [Option.getD_some]
      exact List.Nodup.filter _ (hdeps (x, e) (lookupStr_mem hx))
  have hself' : ∀ x, x ∉ depsIn (duplicatesOf reg) x := by
    intro x hx
    unfold depsIn at hx
    cases hlx : lookupStr x (duplicatesOf reg) with
    | none =>
      rw [hlx] at hx
      simp [defaultEntry, freshEntry] at hx
    | some e =>
      rw [hlx] at hx
      simp only [Option.getD_some] at hx
      exact hself (x, e) (lookupStr_mem hlx) (List.mem_of_mem_filter hx)
  -- the adjacency lists of the built graph
  have hgraph : ∀ h ∈ (duplicatesOf reg).map Prod.fst,
      ∃ l, lookupStr h (buildGraph (duplicatesOf reg)).1 = some l ∧ l.Nodup ∧
        (∀ y, y ∈ l ↔ y ∈ (duplicatesOf reg).map Prod.fst ∧
          h ∈ depsIn (duplicatesOf reg) y) := by
    intro h hh
    refine ⟨((duplicatesOf reg).filter
        (fun p => p.2.dependencies.contains h)).map Prod.fst, hg h hh, ?_, ?_⟩
    · exact List.Nodup.sublist
        (List.Sublist.map Prod.fst (List.filter_sublist (duplicatesOf reg))) hddnd
    · intro y
      constructor
      · intro hy
        obtain ⟨p, hpf, hpy⟩ := List.mem_map.mp hy
        have hpd : p ∈ duplicatesOf reg := List.mem_of_mem_filter hpf
        have hcont : p.2.dependencies.contains h = true := (List.mem_filter.mp hpf).2
        have hplook : lookupStr y (duplicatesOf reg) = some p.2 := by
          rw [← hpy]
          exact lookupStr_of_mem_nodup (by rw [Prod.mk.eta]; exact hpd) hddnd
        refine ⟨by rw [← hpy]; exact List.mem_map.mpr ⟨p, hpd, rfl⟩, ?_⟩
        unfold depsIn
        rw [hplook]
        simp only [Option.getD_some]
        rw [List.mem_filter]
        refine ⟨List.elem_iff.mp hcont, ?_⟩
        rw [hasKey_iff_mem]
        exact hh
      · intro ⟨hyK, hyD⟩
        obtain ⟨e, he⟩ := Option.isSome_iff_exists.mp (lookupStr_isSome.mpr hyK)
        unfold depsIn at hyD
        rw [he] at hyD
        simp only [Option.getD_some] at hyD
        have hmem : (y, e) ∈ duplicatesOf reg := lookupStr_mem he
        have hcont : e.dependencies.contains h = true :=
          List.elem_iff.mpr (List.mem_of_mem_filter hyD)
        refine List.mem_map.mpr ⟨(y, e), ?_, rfl⟩
        rw [List.mem_filter]
        exact ⟨hmem, hcont⟩
  -- initial state of the loop
  have hq0K : ∀ x ∈ (((buildGraph (duplicatesOf reg)).2.filter
      (fun p => p.2 = 0)).map Prod.fst), x ∈ (duplicatesOf reg).map Prod.fst := by
    intro x hx
    obtain ⟨p, hpf, hpx⟩ := List.mem_map.mp hx
    have hp2 : p ∈ (buildGraph (duplicatesOf reg)).2 := List.mem_of_mem_filter hpf
    rw [← hk2, ← hpx]
    exact List.mem_map.mpr ⟨p, hp2, rfl⟩
  have hq0nd : ((((buildGraph (duplicatesOf reg)).2.filter
      (fun p => p.2 = 0)).map Prod.fst)).Nodup := by
    refine List.Nodup.sublist
      (List.Sublist.map Prod.fst (List.filter_sublist (buildGraph (duplicatesOf reg)).2)) ?_
    rw [hk2]
    exact hddnd
  have hlookup_char : ∀ x ∈ (duplicatesOf reg).map Prod.fst,
      lookupStr x (buildGraph (duplicatesOf reg)).2
        = some ((depsIn (duplicatesOf reg) x).length : Int) := by
    intro x hx
    obtain ⟨e, he⟩ := Option.isSome_iff_exists.mp (lookupStr_isSome.mpr hx)
    rw [hi x e (lookupStr_mem he)]
    unfold depsIn
    rw [he]
    rfl
  have hq0empty : ∀ h ∈ (((buildGraph (duplicatesOf reg)).2.filter
      (fun p => p.2 = 0)).map Prod.fst), depsIn (duplicatesOf reg) h = [] := by
    intro h hh
    obtain ⟨p, hpf, hpx⟩ := List.mem_map.mp hh
    have hp2 : p ∈ (buildGraph (duplicatesOf reg)).2 := List.mem_of_mem_filter hpf
    have hp0 : p.2 = 0 := by
      have := List.of_mem_filter hpf
      simpa using this
    have hk : h ∈ (duplicatesOf reg).map Prod.fst := hq0K h hh
    have hnd2 : ((buildGraph (duplicatesOf reg)).2.map Prod.fst).Nodup := by
      rw [hk2]
      exact hddnd
    have hplook : lookupStr h (buildGraph (duplicatesOf reg)).2 = some p.2 := by
      rw [← hpx]
      exact lookupStr_of_mem_nodup (by rw [Prod.mk.eta]; exact hp2) hnd2
    rw [hlookup_char h hk, hp0] at hplook
    rw [Option.some.injEq] at hplook
    have hlen0 : (depsIn (duplicatesOf reg) h).length = 0 := by exact_mod_cast hplook
    exact List.length_eq_zero.mp hlen0
  have hspec := kahnLoop_spec (buildGraph (duplicatesOf reg)).1 reg
    ((duplicatesOf reg).map Prod.fst) (depsIn (duplicatesOf reg)) hDnd hself' hgraph
    ((((buildGraph (duplicatesOf reg)).2.filter (fun p => p.2 = 0)).map Prod.fst).length
      + sumPos (buildGraph (duplicatesOf reg)).2 + 1)
    (((buildGraph (duplicatesOf reg)).2.filter (fun p => p.2 = 0)).map Prod.fst)
    (buildGraph (duplicatesOf reg)).2 []
    (by simpa using hq0nd)
    hq0K
    (by intro p hp; cases hp)
    (by
      intro x hx
      rw [hlookup_char x hx]
      rw [Option.some.injEq]
      have : (depsIn (duplicatesOf reg) x).countP
          (fun d => decide (¬ d ∈ ([] : List (String × HashEntry)).map Prod.fst))
          = (depsIn (duplicatesOf reg) x).length := by
        rw [List.countP_eq_length]
        intro a _
        simp
      rw [this])
    (by
      intro h hh d hd
      rw [hq0empty h hh] at hd
      cases hd)
    (by intro i hi; cases hi)
  obtain ⟨c1, c2, c3⟩ := hspec
  rw [topologicalSort_eq reg]
  by_cases hlen : (kahnLoop (buildGraph (duplicatesOf reg)).1 reg
      ((((buildGraph (duplicatesOf reg)).2.filter (fun p => p.2 = 0)).map Prod.fst).length
        + sumPos (buildGraph (duplicatesOf reg)).2 + 1)
      (((buildGraph (duplicatesOf reg)).2.filter (fun p => p.2 = 0)).map Prod.fst)
      (buildGraph (duplicatesOf reg)).2 []).length ≠ (duplicatesOf reg).length
  · left
    rw [if_pos hlen]
  · right
    rw [if_neg hlen]
    push_neg at hlen
    refine ⟨c1, ?_, c3⟩
    refine perm_of_nodup_subset_length c1 ?_ ?_
    · intro a ha
      obtain ⟨p, hp, hpa⟩ := List.mem_map.mp ha
      rw [← hpa]
      exact c2 p hp
    · rw [List.length_map, List.length_map]
      omega

theorem addUnique_nodup {k : String} {l : List String} (h : l.Nodup) :
    (addUnique k l).Nodup := by
  unfold addUnique
  by_cases hc : l.contains k = true
  · rw [if_pos hc]
    exact h
  · rw [if_neg hc]
    rw [List.nodup_append]
    refine ⟨h, List.nodup_singleton k, ?_⟩
    intro a hal hak
    rw [List.mem_singleton] at hak
    rw [hak] at hal
    exact hc (List.elem_iff.mpr hal)

mutual
theorem findContained_nodup : ∀ (v2h : List (Value × String)) (v : Value) (acc : List String),
    acc.Nodup → (findContained v2h v acc).Nodup
  | v2h, .vnull, _ => fun h => h
  | v2h, .vundef, _ => fun h => h
  | v2h, .vbool _, _ => fun h => h
  | v2h, .vnum _, _ => fun h => h
  | v2h, .vstr _, _ => fun h => h
  | v2h, .vother _, _ => fun h => h
  | v2h, .varr xs, acc => fun h => findContainedL_nodup v2h xs acc h
  | v2h, .vobj fs, acc => fun h => findContainedF_nodup v2h fs acc h

theorem findContainedL_nodup : ∀ (v2h : List (Value × String)) (xs : List Value)
    (acc : List String), acc.Nodup → (findContainedL v2h xs acc).Nodup
  | v2h, [], _ => fun h => h
  | v2h, x :: rest, acc => fun h => by
    rw [findContainedL]
    cases hc : isComposite x with
    | true =>
      cases hl : lookupVal x v2h with
      | some hs =>
        exact findContainedL_nodup v2h rest _
          (findContained_nodup v2h x _ (addUnique_nodup h))
      | none => exact findContainedL_nodup v2h rest _ (findContained_nodup v2h x _ h)
    | false => exact findContainedL_nodup v2h rest acc h

theorem findContainedF_nodup : ∀ (v2h : List (Value × String)) (fs : List (String × Value))
    (acc : List String), acc.Nodup → (findContainedF v2h fs acc).Nodup
  | v2h, [], _ => fun h => h
  | v2h, (_, x) :: rest, acc => fun h => by
    rw [findContainedF]
    cases hc : isComposite x with
    | true =>
      cases hl : lookupVal x v2h with
      | some hs =>
        exact findContainedF_nodup v2h rest _
          (findContained_nodup v2h x _ (addUnique_nodup h))
      | none => exact findContainedF_nodup v2h rest _ (findContained_nodup v2h x _ h)
    | false => exact findContainedF_nodup v2h rest acc h
end

theorem entryDeps_nodup (reg : List (String × HashEntry)) (v2h : List (Value × String))
    (h : String) (e : HashEntry) : (entryDeps reg v2h h e).Nodup :=
  List.Nodup.filter _ (findContained_nodup v2h e.value [] List.nodup_nil)

theorem entryDeps_not_self (reg : List (String × HashEntry)) (v2h : List (Value × String))
    (h : String) (e : HashEntry) : h ∉ entryDeps reg v2h h e := by
  intro hmem
  have hcond := List.of_mem_filter hmem
  rw [Bool.and_eq_true] at hcond
  have : (h != h) = true := hcond.1
  simp at this

/-- Every duplicate candidate of the analyzed registry is an original entry
with occurrence count at least 3 whose dependency set was filled in. -/
theorem duplicatesOf_analyze_mem (reg : List (String × HashEntry))
    (v2h : List (Value × String)) :
    ∀ p ∈ duplicatesOf (analyzeDependencies reg v2h),
      ∃ e₀, (p.1, e₀) ∈ reg ∧
        p.2 = { e₀ with dependencies := entryDeps reg v2h p.1 e₀ } ∧ 3 ≤ e₀.count := by
  intro p hp
  rw [duplicatesOf, List.mem_filter] at hp
  obtain ⟨hpm, hpc⟩ := hp
  rw [decide_eq_true_eq] at hpc
  unfold analyzeDependencies at hpm
  obtain ⟨q, hq, hqe⟩ := List.mem_map.mp hpm
  by_cases hc : 3 ≤ q.2.count
  · rw [if_pos (by simpa using hc)] at hqe
    refine ⟨q.2, ?_, ?_, hc⟩
    · rw [← hqe]
      show (q.1, q.2) ∈ reg
      rw [Prod.mk.eta]
      exact hq
    · rw [← hqe]
  · rw [if_neg (by simpa using hc)] at hqe
    rw [← hqe] at hpc
    exact absurd hpc hc

/-- `topologicalSort_spec` at the pipeline registry of a traversed root. -/
theorem pipeline_sorted (root : Value) (hwf : wfV root = true) :
    topologicalSort (analyzeDependencies (traverse root).hashRegistry
        (traverse root).valueToHash)
      = duplicatesOf (analyzeDependencies (traverse root).hashRegistry
        (traverse root).valueToHash) ∨
    (((topologicalSort (analyzeDependencies (traverse root).hashRegistry
        (traverse root).valueToHash)).map Prod.fst).Nodup ∧
     List.Perm ((topologicalSort (analyzeDependencies (traverse root).hashRegistry
        (traverse root).valueToHash)).map Prod.fst)
       ((duplicatesOf (analyzeDependencies (traverse root).hashRegistry
        (traverse root).valueToHash)).map Prod.fst) ∧
     (∀ (i : Nat) (hi : i < (topologicalSort (analyzeDependencies
          (traverse root).hashRegistry (traverse root).valueToHash)).length),
       ∀ d ∈ depsIn (duplicatesOf (analyzeDependencies (traverse root).hashRegistry
            (traverse root).valueToHash))
          (((topologicalSort (analyzeDependencies (traverse root).hashRegistry
            (traverse root).valueToHash)).get ⟨i, hi⟩).1),
         d ∈ ((topologicalSort (analyzeDependencies (traverse root).hashRegistry
            (traverse root).valueToHash)).take i).map Prod.fst)) := by
  obtain ⟨hinv, _, _⟩ := traverse_spec root hwf
  have hnd₁ : ((analyzeDependencies (traverse root).hashRegistry
      (traverse root).valueToHash).map Prod.fst).Nodup := by
    rw [analyzeDependencies_map_fst]
    exact hinv.reg.nodup
  refine topologicalSort_spec _ hnd₁ ?_ ?_
  · intro p hp
    obtain ⟨e₀, _, hshape, _⟩ := duplicatesOf_analyze_mem _ _ p hp
    rw [hshape]
    exact entryDeps_nodup _ _ _ _
  · intro p hp
    obtain ⟨e₀, _, hshape, _⟩ := duplicatesOf_analyze_mem _ _ p hp
    rw [hshape]
    exact entryDeps_not_self _ _ _ _

/-- **C3.** Declaration ordering: for every pair of extracted duplicate
entries where B is nested in A (B's digest appears among A's recorded
dependencies, the containment-graph edge computed by `analyzeDependencies`
from A's representative value), B's entry appears strictly before A's entry
in the sorted list that drives declaration emission — unless the containment
graph had a cycle, in which case `topologicalSort` returns exactly
`duplicatesOf`, the candidates in discovery order (the documented fallback). -/
theorem claim_C3 (root : Value) (hwf : wfV root = true) :
    topologicalSort (analyzeDependencies (traverse root).hashRegistry
        (traverse root).valueToHash)
      = duplicatesOf (analyzeDependencies (traverse root).hashRegistry
        (traverse root).valueToHash) ∨
    (∀ (i j : Nat)
      (hi : i < (topologicalSort (analyzeDependencies (traverse root).hashRegistry
          (traverse root).valueToHash)).length)
      (hj : j < (topologicalSort (analyzeDependencies (traverse root).hashRegistry
          (traverse root).valueToHash)).length),
      ((topologicalSort (analyzeDependencies (traverse root).hashRegistry
          (traverse root).valueToHash)).get ⟨j, hj⟩).1
        ∈ ((topologicalSort (analyzeDependencies (traverse root).hashRegistry
          (traverse root).valueToHash)).get ⟨i, hi⟩).2.dependencies →
      j < i) := by
  obtain ⟨hinv, _, _⟩ := traverse_spec root hwf
  have hnd₁ : ((analyzeDependencies (traverse root).hashRegistry
      (traverse root).valueToHash).map Prod.fst).Nodup := by
    rw [analyzeDependencies_map_fst]
    exact hinv.reg.nodup
  rcases pipeline_sorted root hwf with hfall | ⟨c1, c2, c3⟩
  · exact Or.inl hfall
  right
  set reg₁ := analyzeDependencies (traverse root).hashRegistry (traverse root).valueToHash
    with hreg₁
  set S := topologicalSort reg₁ with hSdef
  intro i j hi hj hdep
  have hgetiS : S.get ⟨i, hi⟩ ∈ S := List.get_mem S i hi
  have hgetjS : S.get ⟨j, hj⟩ ∈ S := List.get_mem S j hj
  have hkiK : (S.get ⟨i, hi⟩).1 ∈ (duplicatesOf reg₁).map Prod.fst :=
    c2.mem_iff.mp (List.mem_map.mpr ⟨S.get ⟨i, hi⟩, hgetiS, rfl⟩)
  have hkjK : (S.get ⟨j, hj⟩).1 ∈ (duplicatesOf reg₁).map Prod.fst :=
    c2.mem_iff.mp (List.mem_map.mpr ⟨S.get ⟨j, hj⟩, hgetjS, rfl⟩)
  have hddnd : ((duplicatesOf reg₁).map Prod.fst).Nodup := duplicatesOf_nodup hnd₁
  obtain ⟨ei, hei⟩ := Option.isSome_iff_exists.mp (lookupStr_isSome.mpr hkiK)
  have heimem : ((S.get ⟨i, hi⟩).1, ei) ∈ duplicatesOf reg₁ := lookupStr_mem hei
  have heireg : ((S.get ⟨i, hi⟩).1, ei) ∈ reg₁ := by
    rw [duplicatesOf] at heimem
    exact List.mem_of_mem_filter heimem
  have hlook₁ : lookupStr (S.get ⟨i, hi⟩).1 reg₁ = some ei :=
    lookupStr_of_mem_nodup heireg hnd₁
  have hts : (S.get ⟨i, hi⟩).2 = (lookupStr (S.get ⟨i, hi⟩).1 reg₁).getD defaultEntry :=
    topologicalSort_entry hnd₁ hgetiS
  rw [hlook₁] at hts
  have hdep' : (S.get ⟨j, hj⟩).1 ∈ ei.dependencies := by
    rw [hts] at hdep
    exact hdep
  have hdepsIn : (S.get ⟨j, hj⟩).1 ∈ depsIn (duplicatesOf reg₁) (S.get ⟨i, hi⟩).1 := by
    unfold depsIn
    rw [hei]
    simp only [Option.getD_some]
    rw [List.mem_filter]
    refine ⟨hdep', ?_⟩
    rw [hasKey_iff_mem]
    exact hkjK
  have htake := c3 i hi (S.get ⟨j, hj⟩).1 hdepsIn
  obtain ⟨p, hpt, hpk⟩ := List.mem_map.mp htake
  obtain ⟨m, hm, hpm⟩ := List.mem_take_iff_getElem.mp hpt
  obtain ⟨hmi, hmS⟩ := lt_inf_iff.mp hm
  have hmSm : m < (S.map Prod.fst).length := by simpa using hmS
  have hjSm : j < (S.map Prod.fst).length := by simpa using hj
  have hkeysm : (S.map Prod.fst)[m] = (S.map Prod.fst)[j] := by
    rw [List.getElem_map, List.getElem_map, hpm, hpk]
    rfl
  have hmj : m = j := (List.Nodup.getElem_inj_iff c1).mp hkeysm
  omega

/-- Witness for C3 at the concrete root `\x7b"a": [1], "b": [1]\x7d`. -/
theorem claim_C3_witness :
    wfV (.vobj [("a", .varr [.vnum 1]), ("b", .varr [.vnum 1])]) = true ∧
    (topologicalSort (analyzeDependencies
        (traverse (.vobj [("a", .varr [.vnum 1]), ("b", .varr [.vnum 1])])).hashRegistry
        (traverse (.vobj [("a", .varr [.vnum 1]), ("b", .varr [.vnum 1])])).valueToHash)
      = duplicatesOf (analyzeDependencies
        (traverse (.vobj [("a", .varr [.vnum 1]), ("b", .varr [.vnum 1])])).hashRegistry
        (traverse (.vobj [("a", .varr [.vnum 1]), ("b", .varr [.vnum 1])])).valueToHash) ∨
     (∀ (i j : Nat)
       (hi : i < (topologicalSort (analyzeDependencies
          (traverse (.vobj [("a", .varr [.vnum 1]), ("b", .varr [.vnum 1])])).hashRegistry
          (traverse (.vobj [("a", .varr [.vnum 1]),
            ("b", .varr [.vnum 1])])).valueToHash)).length)
       (hj : j < (topologicalSort (analyzeDependencies
          (traverse (.vobj [("a", .varr [.vnum 1]), ("b", .varr [.vnum 1])])).hashRegistry
          (traverse (.vobj [("a", .varr [.vnum 1]),
            ("b", .varr [.vnum 1])])).valueToHash)).length),
       ((topologicalSort (analyzeDependencies
          (traverse (.vobj [("a", .varr [.vnum 1]), ("b", .varr [.vnum 1])])).hashRegistry
          (traverse (.vobj [("a", .varr [.vnum 1]),
            ("b", .varr [.vnum 1])])).valueToHash)).get ⟨j, hj⟩).1
         ∈ ((topologicalSort (analyzeDependencies
          (traverse (.vobj [("a", .varr [.vnum 1]), ("b", .varr [.vnum 1])])).hashRegistry
          (traverse (.vobj [("a", .varr [.vnum 1]),
            ("b", .varr [.vnum 1])])).valueToHash)).get ⟨i, hi⟩).2.dependencies →
       j < i)) :=
  ⟨by decide, claim_C3 (.vobj [("a", .varr [.vnum 1]), ("b", .varr [.vnum 1])]) (by decide)⟩

theorem deepEqual_congr_left {a b w : Value} (hwa : wfV a = true) (hwb : wfV b = true)
    (hww : wfV w = true) (h : deepEqual a b = true) : deepEqual a w = deepEqual b w := by
  cases h1 : deepEqual a w with
  | true => exact (deepEqual_trans hwb hwa hww (deepEqual_symm hwa hwb h) h1).symm
  | false =>
    cases h2 : deepEqual b w with
    | false => rfl
    | true =>
      have := deepEqual_trans hwa hwb hww h h2
      rw [h1] at this
      cases this

/-- Every entry of the sorted duplicate list traces back to a traversal
registry entry with the same representative value and count, and occurrence
count at least 3. -/
theorem sorted_entry_source (root : Value) (hwf : wfV root = true) :
    ∀ p ∈ topologicalSort (analyzeDependencies (traverse root).hashRegistry
        (traverse root).valueToHash),
      ∃ e₀, lookupStr p.1 (traverse root).hashRegistry = some e₀ ∧
        p.2.value = e₀.value ∧ p.2.count = e₀.count ∧ 3 ≤ e₀.count := by
  obtain ⟨hinv, _, _⟩ := traverse_spec root hwf
  have hnd₀ := hinv.reg.nodup
  have hnd₁ : ((analyzeDependencies (traverse root).hashRegistry
      (traverse root).valueToHash).map Prod.fst).Nodup := by
    rw [analyzeDependencies_map_fst]
    exact hnd₀
  set reg₁ := analyzeDependencies (traverse root).hashRegistry (traverse root).valueToHash
    with hreg₁
  intro p hp
  rcases pipeline_sorted root hwf with hfall | ⟨c1, c2, c3⟩
  · rw [← hreg₁] at hfall
    rw [hfall] at hp
    obtain ⟨e₀, hmem, hshape, hge⟩ := duplicatesOf_analyze_mem _ _ p hp
    refine ⟨e₀, lookupStr_of_mem_nodup hmem hnd₀, ?_, ?_, hge⟩
    · rw [hshape]
    · rw [hshape]
  · have hkK : p.1 ∈ (duplicatesOf reg₁).map Prod.fst :=
      c2.mem_iff.mp (List.mem_map.mpr ⟨p, hp, rfl⟩)
    obtain ⟨e₁, he₁⟩ := Option.isSome_iff_exists.mp (lookupStr_isSome.mpr hkK)
    have hmem₁ : (p.1, e₁) ∈ duplicatesOf reg₁ := lookupStr_mem he₁
    obtain ⟨e₀, hmem₀, hshape, hge⟩ := duplicatesOf_analyze_mem _ _ (p.1, e₁) hmem₁
    have hreg₁mem : (p.1, e₁) ∈ reg₁ := by
      rw [duplicatesOf] at hmem₁
      exact List.mem_of_mem_filter hmem₁
    have hlookreg₁ : lookupStr p.1 reg₁ = some e₁ := lookupStr_of_mem_nodup hreg₁mem hnd₁
    have hp2 : p.2 = e₁ := by
      have hts := topologicalSort_entry hnd₁ hp
      rw [hlookreg₁] at hts
      exact hts
    have hshape' : e₁ = { e₀ with dependencies := (entryDeps (traverse root).hashRegistry
        (traverse root).valueToHash p.1 e₀) } := hshape
    refine ⟨e₀, lookupStr_of_mem_nodup hmem₀ hnd₀, ?_, ?_, hge⟩
    · rw [hp2, hshape']
    · rw [hp2, hshape']

/-- Every duplicate-candidate key reaches the sorted list (in both branches
of `topologicalSort`). -/
theorem sorted_keys_complete (root : Value) (hwf : wfV root = true) :
    ∀ k ∈ (duplicatesOf (analyzeDependencies (traverse root).hashRegistry
        (traverse root).valueToHash)).map Prod.fst,
      k ∈ (topologicalSort (analyzeDependencies (traverse root).hashRegistry
        (traverse root).valueToHash)).map Prod.fst := by
  intro k hk
  rcases pipeline_sorted root hwf with hfall | ⟨c1, c2, c3⟩
  · rw [hfall]
    exact hk
  · exact c2.symm.mem_iff.mp hk

/-- The namer keeps every sorted entry: key, value and count survive into
`assignRefNames`. -/
theorem assignRefNames_value_mem (sorted : List (String × HashEntry)) :
    ∀ q ∈ sorted, ∃ p ∈ assignRefNames sorted,
      p.1 = q.1 ∧ p.2.value = q.2.value ∧ p.2.count = q.2.count := by
  intro q hq
  obtain ⟨names, hzip, hlen, _, _⟩ := assignNamesGo_spec sorted [] 0
  have hath : assignRefNames sorted = List.zipWith
      (fun p n => (p.1, { p.2 with refName := some n })) sorted names := hzip
  obtain ⟨⟨i, hi⟩, hget⟩ := List.mem_iff_get.mp hq
  have hj : i < names.length := by omega
  have hiz : i < (List.zipWith
      (fun p n => (p.1, { p.2 with refName := some n })) sorted names).length := by
    rw [List.length_zipWith, hlen]
    omega
  have hsq : sorted[i] = q := hget
  have hz : (List.zipWith (fun p n => (p.1, { p.2 with refName := some n })) sorted names)[i]
      = (q.1, { q.2 with refName := some (names[i]) }) := by
    rw [List.getElem_zipWith, hsq]
  refine ⟨(q.1, { q.2 with refName := some (names[i]) }), ?_, rfl, rfl, rfl⟩
  rw [hath, ← hz]
  exact List.getElem_mem hiz

/-- **C2 (amended).** The spec's extraction rule holds with threshold 3, the
constant hard-coded throughout the implementation — not the threshold 2 of
the spec's worked example: a value is emitted as a shared constant
declaration (an entry of the named declaration list `assignRefNames
(topologicalSort …)`, from which `declLines` emits one `const` each) if and
only if at least 3 of the root's composite subvalues are deep-equal to it. -/
theorem claim_C2 (root v : Value) (hwf : wfV root = true) (hwv : wfV v = true) :
    (∃ p ∈ assignRefNames (topologicalSort (analyzeDependencies
        (traverse root).hashRegistry (traverse root).valueToHash)),
      deepEqual p.2.value v = true) ↔
    3 ≤ (subcomposites root).countP (fun w => deepEqual v w) := by
  obtain ⟨hinv, hcount, hcompl⟩ := traverse_spec root hwf
  have hnd₀ := hinv.reg.nodup
  have hnd₁ : ((analyzeDependencies (traverse root).hashRegistry
      (traverse root).valueToHash).map Prod.fst).Nodup := by
    rw [analyzeDependencies_map_fst]
    exact hnd₀
  constructor
  · rintro ⟨p, hp, hdev⟩
    obtain ⟨names, hzip, hlen, _, _⟩ := assignNamesGo_spec (topologicalSort
      (analyzeDependencies (traverse root).hashRegistry (traverse root).valueToHash)) [] 0
    have hath : assignRefNames (topologicalSort (analyzeDependencies
        (traverse root).hashRegistry (traverse root).valueToHash))
        = List.zipWith (fun p n => (p.1, { p.2 with refName := some n }))
          (topologicalSort (analyzeDependencies (traverse root).hashRegistry
            (traverse root).valueToHash)) names := hzip
    rw [hath] at hp
    obtain ⟨i, hi, hj, hk1, hk2⟩ := zipWith_refName_mem hp
    obtain ⟨e₀, he₀, hval, hcnt, hge⟩ := sorted_entry_source root hwf
      ((topologicalSort (analyzeDependencies (traverse root).hashRegistry
        (traverse root).valueToHash)).get ⟨i, hi⟩) (List.get_mem _ i hi)
    have hpv : p.2.value = e₀.value := by
      have hk2' : p.2 = _ := hk2
      rw [hk2']
      exact hval
    rw [hpv] at hdev
    have hwe : wfV e₀.value = true := (hinv.reg.good _ (lookupStr_mem he₀)).1
    have hcntspec := hcount _ e₀ he₀
    have hcp : (subcomposites root).countP (fun w => deepEqual e₀.value w)
        = (subcomposites root).countP (fun w => deepEqual v w) := by
      refine countP_congr_mem ?_
      intro w hw
      exact deepEqual_congr_left hwe hwv (subcomposites_wf hwf hw) hdev
    rw [hcntspec, hcp] at hge
    exact hge
  · intro hge3
    have hpos : 0 < (subcomposites root).countP (fun w => deepEqual v w) := by omega
    obtain ⟨w₀, hw₀, hdvw₀⟩ := List.countP_pos_iff.mp hpos
    have hww₀ : wfV w₀ = true := subcomposites_wf hwf hw₀
    obtain ⟨k, hk⟩ := hcompl w₀ hw₀
    obtain ⟨e, helook, hdew₀, _, _⟩ := hinv.v2h (w₀, k) hk
    have hwe : wfV e.value = true := (hinv.reg.good _ (lookupStr_mem helook)).1
    have hdev : deepEqual e.value v = true :=
      deepEqual_trans hwe hww₀ hwv hdew₀ (deepEqual_symm hwv hww₀ hdvw₀)
    have hcp : (subcomposites root).countP (fun w => deepEqual e.value w)
        = (subcomposites root).countP (fun w => deepEqual v w) := by
      refine countP_congr_mem ?_
      intro w hw
      exact deepEqual_congr_left hwe hwv (subcomposites_wf hwf hw) hdev
    have hge : 3 ≤ e.count := by
      rw [hcount k e helook, hcp]
      exact hge3
    have hlook₁ : lookupStr k (analyzeDependencies (traverse root).hashRegistry
        (traverse root).valueToHash) = some { e with dependencies :=
          (entryDeps (traverse root).hashRegistry (traverse root).valueToHash k e) } := by
      rw [analyzeDependencies_lookup, helook]
      simp only [Option.map_some']
      rw [if_pos hge]
    have hmem₁ : (k, { e with dependencies := (entryDeps (traverse root).hashRegistry
        (traverse root).valueToHash k e) }) ∈ analyzeDependencies
          (traverse root).hashRegistry (traverse root).valueToHash := lookupStr_mem hlook₁
    have hdupmem : (k, { e with dependencies := (entryDeps (traverse root).hashRegistry
        (traverse root).valueToHash k e) }) ∈ duplicatesOf (analyzeDependencies
          (traverse root).hashRegistry (traverse root).valueToHash) := by
      rw [duplicatesOf, List.mem_filter]
      refine ⟨hmem₁, ?_⟩
      simpa using hge
    have hkdup : k ∈ (duplicatesOf (analyzeDependencies (traverse root).hashRegistry
        (traverse root).valueToHash)).map Prod.fst :=
      List.mem_map.mpr ⟨_, hdupmem, rfl⟩
    have hksorted := sorted_keys_complete root hwf k hkdup
    obtain ⟨q, hqmem, hqk⟩ := List.mem_map.mp hksorted
    obtain ⟨e₀', he₀', hval', hcnt', hge'⟩ := sorted_entry_source root hwf q hqmem
    have he₀'e : e₀' = e := by
      rw [hqk] at he₀'
      rw [helook] at he₀'
      rw [Option.some.injEq] at he₀'
      exact he₀'.symm
    obtain ⟨p, hpmem, hpk, hpv, hpc⟩ := assignRefNames_value_mem _ q hqmem
    refine ⟨p, hpmem, ?_⟩
    rw [hpv, hval', he₀'e]
    exact hdev

/-- **C2, counterexample to the claim as stated.** On the spec's own example
input `\x7b"x": \x7b"n":1\x7d, "y": \x7b"n":1\x7d, "z": \x7b"n":2\x7d\x7d`,
the object `\x7b"n":1\x7d` occurs exactly twice, yet the implementation
extracts nothing: the declaration list is empty and the emitted module
inlines every object — the hard-coded threshold is 3, so the spec's
"threshold 2" reading of this example is false of the code. -/
theorem claim_C2_counterexample :
    (subcomposites (Value.vobj [("x", .vobj [("n", .vnum 1)]), ("y", .vobj [("n", .vnum 1)]),
        ("z", .vobj [("n", .vnum 2)])])).countP
      (fun w => deepEqual (.vobj [("n", .vnum 1)]) w) = 2 ∧
    assignRefNames (topologicalSort (analyzeDependencies
      (traverse (Value.vobj [("x", .vobj [("n", .vnum 1)]), ("y", .vobj [("n", .vnum 1)]),
        ("z", .vobj [("n", .vnum 2)])])).hashRegistry
      (traverse (Value.vobj [("x", .vobj [("n", .vnum 1)]), ("y", .vobj [("n", .vnum 1)]),
        ("z", .vobj [("n", .vnum 2)])])).valueToHash)) = [] ∧
    dedupRoot (Value.vobj [("x", .vobj [("n", .vnum 1)]), ("y", .vobj [("n", .vnum 1)]),
      ("z", .vobj [("n", .vnum 2)])])
      = .ok ("// Auto-generated deduplicated module\n// Strings and objects extracted for memory efficiency\n\nexport default \x7bx: \x7bn: 1\x7d, y: \x7bn: 1\x7d, z: \x7bn: 2\x7d\x7d;") :=
  ⟨by decide, by with_unfolding_all rfl, by with_unfolding_all rfl⟩

/-- Witness for C2 at the spec's example input and the value
`\x7b"n":1\x7d` (occurring twice: both sides of the iff are false). -/
theorem claim_C2_witness :
    wfV (Value.vobj [("x", .vobj [("n", .vnum 1)]), ("y", .vobj [("n", .vnum 1)]),
      ("z", .vobj [("n", .vnum 2)])]) = true ∧
    wfV (Value.vobj [("n", .vnum 1)]) = true ∧
    ((∃ p ∈ assignRefNames (topologicalSort (analyzeDependencies
        (traverse (Value.vobj [("x", .vobj [("n", .vnum 1)]), ("y", .vobj [("n", .vnum 1)]),
          ("z", .vobj [("n", .vnum 2)])])).hashRegistry
        (traverse (Value.vobj [("x", .vobj [("n", .vnum 1)]), ("y", .vobj [("n", .vnum 1)]),
          ("z", .vobj [("n", .vnum 2)])])).valueToHash)),
      deepEqual p.2.value (Value.vobj [("n", .vnum 1)]) = true) ↔
    3 ≤ (subcomposites (Value.vobj [("x", .vobj [("n", .vnum 1)]),
        ("y", .vobj [("n", .vnum 1)]), ("z", .vobj [("n", .vnum 2)])])).countP
      (fun w => deepEqual (Value.vobj [("n", .vnum 1)]) w)) :=
  ⟨by decide, by decide,
    claim_C2 (Value.vobj [("x", .vobj [("n", .vnum 1)]), ("y", .vobj [("n", .vnum 1)]),
      ("z", .vobj [("n", .vnum 2)])]) (Value.vobj [("n", .vnum 1)]) (by decide) (by decide)⟩

/-- **C6.** Malformed input is fatal with the parse error surfaced and no
output text: `deduplicateJSON` rethrows the parse failure as
`Invalid JSON: <message>`, `getDeduplicationStats` propagates it unchanged,
and in both cases the result is an error carrying no module text — the
pipeline after parsing never runs. -/
theorem claim_C6 (parse : String → Except String Value) (s msg : String)
    (hparse : parse s = .error msg) :
    deduplicateJSON parse (.text s) = .error ("Invalid JSON: " ++ msg) ∧
    getDeduplicationStats parse (.text s) = .error msg := by
  constructor
  · rw [deduplicateJSON, hparse]
  · rw [getDeduplicationStats, hparse]

/-- Witness for C6 at the constant failing parser. -/
theorem claim_C6_witness :
    ((fun _ : String => (Except.error "bad" : Except String Value)) "x"
      = Except.error "bad") ∧
    (deduplicateJSON (fun _ => Except.error "bad") (.text "x")
        = .error ("Invalid JSON: " ++ "bad") ∧
     getDeduplicationStats (fun _ => Except.error "bad") (.text "x") = .error "bad") :=
  ⟨rfl, claim_C6 (fun _ => Except.error "bad") "x" "bad" rfl⟩

/-- **C10.** `undefined` is accepted without error everywhere although it is
outside the documented domain: `computeHash` digests it to the tag
`undefined`, the serializer emits the literal text `undefined` (for any
registries), and the whole pipeline succeeds on it; the serializer's
out-of-domain fatal error `Cannot serialize type: <tag>` is raised exactly
for the other `typeof` classes (function, symbol, bigint). -/
theorem claim_C10 :
    computeHash .vundef = "undefined" ∧
    (∀ (serializing : List Value) (v2h : List (Value × String))
       (reg : List (String × HashEntry)) (sreg : List (String × StringEntry)),
       serializeValue serializing v2h reg sreg .vundef = .ok "undefined") ∧
    (∀ (serializing : List Value) (v2h : List (Value × String))
       (reg : List (String × HashEntry)) (sreg : List (String × StringEntry)) (tag : String),
       serializeValue serializing v2h reg sreg (.vother tag)
         = .error ("Cannot serialize type: " ++ tag)) ∧
    dedupRoot .vundef = .ok ("// Auto-generated deduplicated module\n// Strings and objects extracted for memory efficiency\n\nexport default undefined;") :=
  ⟨rfl, fun _ _ _ _ => rfl, fun _ _ _ _ _ => rfl, by with_unfolding_all rfl⟩

theorem filter_map_length {α β : Type} (f : α → β) (p : β → Bool) (q : α → Bool) :
    ∀ l : List α, (∀ x ∈ l, p (f x) = q x) →
      ((l.map f).filter p).length = (l.filter q).length := by
  intro l
  induction l with
  | nil => intro _; rfl
  | cons x t ih =>
    intro h
    have ht := ih (fun y hy => h y (List.mem_cons_of_mem x hy))
    rw [List.map_cons, List.filter_cons, List.filter_cons, h x (List.mem_cons_self x t)]
    by_cases hq : q x = true
    · rw [if_pos hq, if_pos hq, List.length_cons, List.length_cons, ht]
    · rw [if_neg hq, if_neg hq, ht]

/-- The duplicate-candidate count of the analyzed registry equals the
statistics filter count over the traversal registry. -/
theorem dups_length_eq (reg : List (String × HashEntry)) (v2h : List (Value × String)) :
    (duplicatesOf (analyzeDependencies reg v2h)).length
      = ((reg.map Prod.snd).filter (fun e => decide (3 ≤ e.count))).length := by
  unfold duplicatesOf analyzeDependencies
  rw [filter_map_length _ _ (fun x => decide (3 ≤ x.2.count)) reg ?_]
  · exact (filter_map_length Prod.snd (fun e => decide (3 ≤ e.count))
      (fun x => decide (3 ≤ x.2.count)) reg (fun x _ => rfl)).symm
  · intro x _
    by_cases hc : 3 ≤ x.2.count
    · rw [if_pos (by simpa using hc)]
    · rw [if_neg (by simpa using hc)]

theorem dedupStringsOf_length (sreg : List (String × StringEntry)) :
    (dedupStringsOf sreg).length
      = ((sreg.map Prod.snd).filter (fun e => decide (3 ≤ e.count))).length := by
  unfold dedupStringsOf
  rw [List.length_insertionSort]

theorem topologicalSort_length (reg : List (String × HashEntry)) :
    (topologicalSort reg).length = (duplicatesOf reg).length := by
  rw [topologicalSort_eq]
  by_cases hlen : (kahnLoop (buildGraph (duplicatesOf reg)).1 reg
      ((((buildGraph (duplicatesOf reg)).2.filter (fun p => p.2 = 0)).map Prod.fst).length
        + sumPos (buildGraph (duplicatesOf reg)).2 + 1)
      (((buildGraph (duplicatesOf reg)).2.filter (fun p => p.2 = 0)).map Prod.fst)
      (buildGraph (duplicatesOf reg)).2 []).length ≠ (duplicatesOf reg).length
  · rw [if_pos hlen]
  · rw [if_neg hlen]
    push_neg at hlen
    exact hlen

theorem assignRefNames_length (sorted : List (String × HashEntry)) :
    (assignRefNames sorted).length = sorted.length := by
  obtain ⟨names, hzip, hlen, _, _⟩ := assignNamesGo_spec sorted [] 0
  have hath : assignRefNames sorted = List.zipWith
      (fun p n => (p.1, { p.2 with refName := some n })) sorted names := hzip
  rw [hath, List.length_zipWith, hlen]
  omega

theorem declLines_length (v2h : List (Value × String)) (reg : List (String × HashEntry))
    (sreg : List (String × StringEntry)) :
    ∀ (l : List (String × HashEntry)) (ds : List String),
      declLines v2h reg sreg l = .ok ds → ds.length = l.length := by
  intro l
  induction l with
  | nil =>
    intro ds h
    have h' : (Except.ok [] : Except String (List String)) = .ok ds := h
    rw [Except.ok.injEq] at h'
    rw [← h']
    rfl
  | cons p t ih =>
    intro ds h
    rw [declLines] at h
    cases hs : serializeValue [p.2.value] v2h reg sreg p.2.value with
    | error e =>
      rw [hs] at h
      have h' : (Except.error e : Except String (List String)) = .ok ds := h
      cases h'
    | ok code =>
      rw [hs] at h
      cases hm : declLines v2h reg sreg t with
      | error e =>
        rw [hm] at h
        have h' : (Except.error e : Except String (List String)) = .ok ds := h
        cases h'
      | ok more =>
        rw [hm] at h
        have h' : (Except.ok (("const " ++ p.2.refName.getD "null" ++ " = " ++ code ++ ";")
            :: more) : Except String (List String)) = .ok ds := h
        rw [Except.ok.injEq] at h'
        rw [← h']
        rw [List.length_cons, ih more hm]
        rfl

theorem declExprs_length (v2h : List (Value × String)) (reg : List (String × HashEntry))
    (sreg : List (String × StringEntry)) :
    ∀ (l : List (String × HashEntry)) (ds : List (String × JExpr)),
      declExprs v2h reg sreg l = .ok ds → ds.length = l.length := by
  intro l
  induction l with
  | nil =>
    intro ds h
    have h' : (Except.ok [] : Except String (List (String × JExpr))) = .ok ds := h
    rw [Except.ok.injEq] at h'
    rw [← h']
    rfl
  | cons p t ih =>
    intro ds h
    rw [declExprs] at h
    cases hs : serializeExpr [p.2.value] v2h reg sreg p.2.value with
    | error e =>
      rw [hs] at h
      have h' : (Except.error e : Except String (List (String × JExpr))) = .ok ds := h
      cases h'
    | ok code =>
      rw [hs] at h
      cases hm : declExprs v2h reg sreg t with
      | error e =>
        rw [hm] at h
        have h' : (Except.error e : Except String (List (String × JExpr))) = .ok ds := h
        cases h'
      | ok more =>
        rw [hm] at h
        have h' : (Except.ok ((p.2.refName.getD "null", code) :: more)
            : Except String (List (String × JExpr))) = .ok ds := h
        rw [Except.ok.injEq] at h'
        rw [← h']
        rw [List.length_cons, ih more hm]
        rfl

/-- **C9.** The statistics agree with the generator: `deduplicatedValues`
equals the number of `const` declarations emitted (one per entry of the
sorted duplicate list, textual via `declLines` and structural via the
emitted module's declaration list), and `deduplicatedStrings` equals the
number of entries of the emitted string table — both sides filter their
registry by the same occurrence-count threshold 3. -/
theorem claim_C9 (root : Value) :
    (∀ decls, declLines (traverse root).valueToHash
        (applyRefNames (analyzeDependencies (traverse root).hashRegistry
            (traverse root).valueToHash)
          (assignRefNames (topologicalSort (analyzeDependencies
            (traverse root).hashRegistry (traverse root).valueToHash))))
        (assignStringIndexes (traverse root).stringRegistry)
        (assignRefNames (topologicalSort (analyzeDependencies
          (traverse root).hashRegistry (traverse root).valueToHash))) = .ok decls →
      (statsRoot root).deduplicatedValues = decls.length) ∧
    (statsRoot root).deduplicatedStrings
      = (dedupStringsOf (traverse root).stringRegistry).length ∧
    (∀ ast, moduleAstOf root = .ok ast →
      (statsRoot root).deduplicatedValues = ast.decls.length ∧
      (statsRoot root).deduplicatedStrings = ast.table.length) := by
  have hdv : (statsRoot root).deduplicatedValues
      = (((traverse root).hashRegistry.map Prod.snd).filter
          (fun e => decide (3 ≤ e.count))).length := rfl
  have hds : (statsRoot root).deduplicatedStrings
      = (((traverse root).stringRegistry.map Prod.snd).filter
          (fun e => decide (3 ≤ e.count))).length := rfl
  have hcountV : (statsRoot root).deduplicatedValues
      = (assignRefNames (topologicalSort (analyzeDependencies
          (traverse root).hashRegistry (traverse root).valueToHash))).length := by
    rw [hdv, ← dups_length_eq (traverse root).hashRegistry (traverse root).valueToHash,
        ← topologicalSort_length, ← assignRefNames_length]
  refine ⟨?_, ?_, ?_⟩
  · intro decls hdecl
    rw [hcountV, ← declLines_length _ _ _ _ decls hdecl]
  · rw [hds, dedupStringsOf_length]
  · intro ast hast
    have h1 : (declExprs (traverse root).valueToHash
        (applyRefNames (analyzeDependencies (traverse root).hashRegistry
            (traverse root).valueToHash)
          (assignRefNames (topologicalSort (analyzeDependencies
            (traverse root).hashRegistry (traverse root).valueToHash))))
        (assignStringIndexes (traverse root).stringRegistry)
        (assignRefNames (topologicalSort (analyzeDependencies
          (traverse root).hashRegistry (traverse root).valueToHash)))
        >>= fun decls => serializeExpr [] (traverse root).valueToHash
          (applyRefNames (analyzeDependencies (traverse root).hashRegistry
              (traverse root).valueToHash)
            (assignRefNames (topologicalSort (analyzeDependencies
              (traverse root).hashRegistry (traverse root).valueToHash))))
          (assignStringIndexes (traverse root).stringRegistry) root
        >>= fun rootExpr => Except.ok
          { table := (dedupStringsOf (traverse root).stringRegistry).map (fun e => e.value),
            decls := decls, root := rootExpr }) = .ok ast := hast
    cases hd : declExprs (traverse root).valueToHash
        (applyRefNames (analyzeDependencies (traverse root).hashRegistry
            (traverse root).valueToHash)
          (assignRefNames (topologicalSort (analyzeDependencies
            (traverse root).hashRegistry (traverse root).valueToHash))))
        (assignStringIndexes (traverse root).stringRegistry)
        (assignRefNames (topologicalSort (analyzeDependencies
          (traverse root).hashRegistry (traverse root).valueToHash))) with
    | error e =>
      rw [hd] at h1
      have h2 : (Except.error e : Except String ModuleAst) = .ok ast := h1
      cases h2
    | ok decls0 =>
      rw [hd] at h1
      cases hr : serializeExpr [] (traverse root).valueToHash
          (applyRefNames (analyzeDependencies (traverse root).hashRegistry
              (traverse root).valueToHash)
            (assignRefNames (topologicalSort (analyzeDependencies
              (traverse root).hashRegistry (traverse root).valueToHash))))
          (assignStringIndexes (traverse root).stringRegistry) root with
      | error e =>
        rw [hr] at h1
        have h2 : (Except.error e : Except String ModuleAst) = .ok ast := h1
        cases h2
      | ok re =>
        rw [hr] at h1
        have h2 : (Except.ok
            ({ table := (dedupStringsOf (traverse root).stringRegistry).map
                (fun e => e.value),
               decls := decls0, root := re } : ModuleAst)
            : Except String ModuleAst) = .ok ast := h1
        rw [Except.ok.injEq] at h2
        rw [← h2]
        constructor
        · rw [hcountV, ← declExprs_length _ _ _ _ decls0 hd]
        · rw [hds, List.length_map, dedupStringsOf_length]

/-- Witness for C9 at the root `\x7b"a": [1], "b": [1], "c": [1]\x7d`: one
declaration is emitted and counted, no strings are tabled. -/
theorem claim_C9_witness :
    declLines (traverse (Value.vobj [("a", .varr [.vnum 1]), ("b", .varr [.vnum 1]),
        ("c", .varr [.vnum 1])])).valueToHash
      (applyRefNames (analyzeDependencies
          (traverse (Value.vobj [("a", .varr [.vnum 1]), ("b", .varr [.vnum 1]),
            ("c", .varr [.vnum 1])])).hashRegistry
          (traverse (Value.vobj [("a", .varr [.vnum 1]), ("b", .varr [.vnum 1]),
            ("c", .varr [.vnum 1])])).valueToHash)
        (assignRefNames (topologicalSort (analyzeDependencies
          (traverse (Value.vobj [("a", .varr [.vnum 1]), ("b", .varr [.vnum 1]),
            ("c", .varr [.vnum 1])])).hashRegistry
          (traverse (Value.vobj [("a", .varr [.vnum 1]), ("b", .varr [.vnum 1]),
            ("c", .varr [.vnum 1])])).valueToHash))))
      (assignStringIndexes (traverse (Value.vobj [("a", .varr [.vnum 1]),
        ("b", .varr [.vnum 1]), ("c", .varr [.vnum 1])])).stringRegistry)
      (assignRefNames (topologicalSort (analyzeDependencies
        (traverse (Value.vobj [("a", .varr [.vnum 1]), ("b", .varr [.vnum 1]),
          ("c", .varr [.vnum 1])])).hashRegistry
        (traverse (Value.vobj [("a", .varr [.vnum 1]), ("b", .varr [.vnum 1]),
          ("c", .varr [.vnum 1])])).valueToHash)))
      = .ok ["const _ref0 = [1];"] ∧
    (statsRoot (Value.vobj [("a", .varr [.vnum 1]), ("b", .varr [.vnum 1]),
      ("c", .varr [.vnum 1])])).deduplicatedValues
      = (["const _ref0 = [1];"] : List String).length ∧
    (statsRoot (Value.vobj [("a", .varr [.vnum 1]), ("b", .varr [.vnum 1]),
      ("c", .varr [.vnum 1])])).deduplicatedStrings
      = (dedupStringsOf (traverse (Value.vobj [("a", .varr [.vnum 1]),
        ("b", .varr [.vnum 1]), ("c", .varr [.vnum 1])])).stringRegistry).length :=
  ⟨by with_unfolding_all rfl,
   (claim_C9 (Value.vobj [("a", .varr [.vnum 1]), ("b", .varr [.vnum 1]),
     ("c", .varr [.vnum 1])])).1 ["const _ref0 = [1];"] (by with_unfolding_all rfl),
   (claim_C9 (Value.vobj [("a", .varr [.vnum 1]), ("b", .varr [.vnum 1]),
     ("c", .varr [.vnum 1])])).2.1⟩

instance countGeTotal : IsTotal StringEntry (fun a b => b.count ≤ a.count) :=
  ⟨fun a b => (le_total b.count a.count).elim Or.inl Or.inr⟩

instance countGeTrans : IsTrans StringEntry (fun a b => b.count ≤ a.count) :=
  ⟨fun _ _ _ hab hbc => le_trans hbc hab⟩

theorem dedupStringsOf_sorted (sreg : List (String × StringEntry)) :
    List.Sorted (fun a b : StringEntry => b.count ≤ a.count) (dedupStringsOf sreg) :=
  List.sorted_insertionSort _ _

theorem dedupStringsOf_mem (sreg : List (String × StringEntry)) :
    ∀ d ∈ dedupStringsOf sreg, d ∈ sreg.map Prod.snd ∧ 3 ≤ d.count := by
  intro d hd
  have hmem : d ∈ (sreg.map Prod.snd).filter (fun e => decide (3 ≤ e.count)) :=
    (List.perm_insertionSort _ _).mem_iff.mp hd
  rw [List.mem_filter] at hmem
  exact ⟨hmem.1, by simpa using hmem.2⟩

theorem assignStringIndexes_lookup (sreg : List (String × StringEntry))
    (hne : ¬ (dedupStringsOf sreg).isEmpty = true) (k : String) :
    lookupStr k (assignStringIndexes sreg) = (lookupStr k sreg).map
      (fun e => { e with
        index := ((dedupStringsOf sreg).findIdx? (fun d : StringEntry => d.value == k)) }) := by
  unfold assignStringIndexes
  simp only
  rw [if_neg hne]
  exact lookup_map_entry (fun k₁ e => { e with
    index := ((dedupStringsOf sreg).findIdx? (fun d : StringEntry => d.value == k₁)) }) sreg k

/-- Value distinctness inside the string table (string-registry entries carry
their own key as value, and the keys are pairwise distinct). -/
theorem dedupStringsOf_values_nodup (root : Value) (hwf : wfV root = true) :
    ((dedupStringsOf (traverse root).stringRegistry).map (fun e => e.value)).Nodup := by
  obtain ⟨hinv, _, _⟩ := traverse_spec root hwf
  have hmapval : ((traverse root).stringRegistry.map Prod.snd).map (fun e => e.value)
      = (traverse root).stringRegistry.map Prod.fst := by
    rw [List.map_map]
    refine List.map_congr_left ?_
    intro p hp
    exact (hinv.sregVal p hp).1
  have hnd : (((traverse root).stringRegistry.map Prod.snd).map (fun e => e.value)).Nodup := by
    rw [hmapval]
    exact hinv.sregNodup
  have hsub : List.Sublist
      ((((traverse root).stringRegistry.map Prod.snd).filter
        (fun e => decide (3 ≤ e.count))).map (fun e => e.value))
      ((((traverse root).stringRegistry.map Prod.snd)).map (fun e => e.value)) :=
    List.Sublist.map _ (List.filter_sublist _)
  have hndf := List.Nodup.sublist hsub hnd
  have hperm : List.Perm
      ((dedupStringsOf (traverse root).stringRegistry).map (fun e => e.value))
      ((((traverse root).stringRegistry.map Prod.snd).filter
        (fun e => decide (3 ≤ e.count))).map (fun e => e.value)) :=
    List.Perm.map _ (List.perm_insertionSort _ _)
  exact hperm.nodup_iff.mpr hndf

/-- Each string-table entry is the registry entry of its own value. -/
theorem dedupStringsOf_entry (root : Value) (hwf : wfV root = true) :
    ∀ d ∈ dedupStringsOf (traverse root).stringRegistry,
      lookupStr d.value (traverse root).stringRegistry = some d := by
  obtain ⟨hinv, _, _⟩ := traverse_spec root hwf
  intro d hd
  obtain ⟨hmem, _⟩ := dedupStringsOf_mem _ d hd
  obtain ⟨q, hq, hqd⟩ := List.mem_map.mp hmem
  have hval : d.value = q.1 := by
    rw [← hqd]
    exact (hinv.sregVal q hq).1
  rw [hval]
  have : lookupStr q.1 (traverse root).stringRegistry = some q.2 :=
    lookupStr_of_mem_nodup (by rw [Prod.mk.eta]; exact hq) hinv.sregNodup
  rw [this, hqd]

/-- **C8.** String-table invariants of the generated module: (1) a table
index is assigned only to string entries with occurrence count at least 3,
and every assigned index is within the table; (2) the table is ordered by
non-increasing occurrence count; (3) the assigned indexes are contiguous
from 0 — every position of the table is some entry's index; (4) in the
emitted line list the string-table literal sits directly after the fixed
header and before all constant declarations. -/
theorem claim_C8 (root : Value) (hwf : wfV root = true) :
    (∀ k e i, lookupStr k (assignStringIndexes (traverse root).stringRegistry) = some e →
      e.index = some i →
      3 ≤ e.count ∧ i < (dedupStringsOf (traverse root).stringRegistry).length) ∧
    (∀ (i j : Nat) (hi : i < (dedupStringsOf (traverse root).stringRegistry).length)
       (hj : j < (dedupStringsOf (traverse root).stringRegistry).length), i ≤ j →
       ((dedupStringsOf (traverse root).stringRegistry).get ⟨j, hj⟩).count
         ≤ ((dedupStringsOf (traverse root).stringRegistry).get ⟨i, hi⟩).count) ∧
    (∀ i, i < (dedupStringsOf (traverse root).stringRegistry).length →
      ∃ k e, lookupStr k (assignStringIndexes (traverse root).stringRegistry) = some e ∧
        e.index = some i) ∧
    (∀ (rootValue : Value) (v2h : List (Value × String)) (reg : List (String × HashEntry))
       (sortedDups : List (String × HashEntry)) (lines : List String),
       genLines rootValue v2h reg sortedDups (traverse root).stringRegistry = .ok lines →
       ∃ decls rest,
         declLines v2h reg (assignStringIndexes (traverse root).stringRegistry)
           sortedDups = .ok decls ∧
         lines = ["// Auto-generated deduplicated module",
             "// Strings and objects extracted for memory efficiency", ""]
           ++ tableLines (dedupStringsOf (traverse root).stringRegistry) ++ decls ++ rest) := by
  obtain ⟨hinv, _, _⟩ := traverse_spec root hwf
  refine ⟨?_, ?_, ?_, ?_⟩
  · -- (1) tabled entries meet the threshold, indexes in range
    intro k e i hlook hidx
    by_cases hemp : (dedupStringsOf (traverse root).stringRegistry).isEmpty = true
    · have hid : assignStringIndexes (traverse root).stringRegistry
          = (traverse root).stringRegistry := by
        unfold assignStringIndexes
        simp only
        rw [if_pos hemp]
      rw [hid] at hlook
      have hnone := (hinv.sregVal (k, e) (lookupStr_mem hlook)).2
      rw [hidx] at hnone
      cases hnone
    · rw [assignStringIndexes_lookup _ hemp] at hlook
      cases h0 : lookupStr k (traverse root).stringRegistry with
      | none =>
        rw [h0] at hlook
        cases hlook
      | some e₀ =>
        rw [h0] at hlook
        simp only [Option.map_some'] at hlook
        rw [Option.some.injEq] at hlook
        have hidx' : (dedupStringsOf (traverse root).stringRegistry).findIdx?
            (fun d : StringEntry => d.value == k) = some i := by
          rw [← hidx, ← hlook]
        rw [List.findIdx?_eq_some_iff_findIdx_eq] at hidx'
        obtain ⟨hilen, hfidx⟩ := hidx'
        refine ⟨?_, hilen⟩
        have hpred : ((dedupStringsOf (traverse root).stringRegistry).get
            ⟨i, hilen⟩).value = k := by
          subst hfidx
          have := List.findIdx_getElem (w := hilen)
          simpa using this
        have hmem := List.get_mem (dedupStringsOf (traverse root).stringRegistry) i hilen
        have hent := dedupStringsOf_entry root hwf _ hmem
        rw [hpred, h0] at hent
        rw [Option.some.injEq] at hent
        have hcnt := (dedupStringsOf_mem _ _ hmem).2
        rw [← hlook]
        show 3 ≤ e₀.count
        rw [hent]
        exact hcnt
  · -- (2) non-increasing counts
    intro i j hi hj hij
    rcases Nat.lt_or_ge i j with hlt | hge
    · exact (dedupStringsOf_sorted _).rel_get_of_lt hlt
    · have hieq : i = j := le_antisymm hij hge
      subst hieq
      exact le_refl _
  · -- (3) contiguity from zero
    intro i hi
    have hemp : ¬ (dedupStringsOf (traverse root).stringRegistry).isEmpty = true := by
      intro hemp
      rw [List.isEmpty_iff] at hemp
      rw [hemp] at hi
      cases hi
    have hmem := List.get_mem (dedupStringsOf (traverse root).stringRegistry) i hi
    have hent := dedupStringsOf_entry root hwf _ hmem
    have hfidx : (dedupStringsOf (traverse root).stringRegistry).findIdx?
        (fun d : StringEntry => d.value ==
          ((dedupStringsOf (traverse root).stringRegistry).get ⟨i, hi⟩).value)
        = some i := by
      rw [List.findIdx?_eq_some_iff_findIdx_eq]
      refine ⟨hi, ?_⟩
      have hex : ∃ x ∈ dedupStringsOf (traverse root).stringRegistry,
          (fun d : StringEntry => d.value ==
            ((dedupStringsOf (traverse root).stringRegistry).get ⟨i, hi⟩).value) x
            = true := ⟨_, hmem, by simp⟩
      have hjlt := List.findIdx_lt_length_of_exists hex
      have hpred := List.findIdx_getElem (w := hjlt)
      have hvals : ((dedupStringsOf (traverse root).stringRegistry).map
          (fun e => e.value)).Nodup := dedupStringsOf_values_nodup root hwf
      have hjm : List.findIdx (fun d : StringEntry => d.value ==
          ((dedupStringsOf (traverse root).stringRegistry).get ⟨i, hi⟩).value)
          (dedupStringsOf (traverse root).stringRegistry)
          < ((dedupStringsOf (traverse root).stringRegistry).map
            (fun e => e.value)).length := by
        simpa using hjlt
      have him : i < ((dedupStringsOf (traverse root).stringRegistry).map
          (fun e => e.value)).length := by
        simpa using hi
      refine (@List.Nodup.getElem_inj_iff _ _ hvals _ hjm _ him).mp ?_
      rw [List.getElem_map, List.getElem_map]
      simpa using hpred
    refine ⟨((dedupStringsOf (traverse root).stringRegistry).get ⟨i, hi⟩).value,
      { (dedupStringsOf (traverse root).stringRegistry).get ⟨i, hi⟩ with
        index := ((dedupStringsOf (traverse root).stringRegistry).findIdx?
          (fun d : StringEntry => d.value ==
            ((dedupStringsOf (traverse root).stringRegistry).get ⟨i, hi⟩).value)) },
      ?_, ?_⟩
    · rw [assignStringIndexes_lookup _ hemp, hent]
      rfl
    · exact hfidx
  · -- (4) table precedes declarations in the emitted lines
    intro rootValue v2h reg sortedDups lines hgen
    have h1 : (declLines v2h reg (assignStringIndexes (traverse root).stringRegistry)
        sortedDups >>= fun decls =>
        serializeValue [] v2h reg (assignStringIndexes (traverse root).stringRegistry)
          rootValue >>= fun rootCode =>
        Except.ok (["// Auto-generated deduplicated module",
            "// Strings and objects extracted for memory efficiency", ""]
          ++ tableLines (dedupStringsOf (traverse root).stringRegistry) ++ decls
          ++ (if sortedDups.isEmpty then [] else [""])
          ++ ["export default " ++ rootCode ++ ";"])) = .ok lines := hgen
    cases hd : declLines v2h reg (assignStringIndexes (traverse root).stringRegistry)
        sortedDups with
    | error e =>
      rw [hd] at h1
      have h2 : (Except.error e : Except String (List String)) = .ok lines := h1
      cases h2
    | ok decls =>
      rw [hd] at h1
      cases hr : serializeValue [] v2h reg
          (assignStringIndexes (traverse root).stringRegistry) rootValue with
      | error e =>
        rw [hr] at h1
        have h2 : (Except.error e : Except String (List String)) = .ok lines := h1
        cases h2
      | ok rc =>
        rw [hr] at h1
        have h2 : (Except.ok (["// Auto-generated deduplicated module",
            "// Strings and objects extracted for memory efficiency", ""]
          ++ tableLines (dedupStringsOf (traverse root).stringRegistry) ++ decls
          ++ (if sortedDups.isEmpty then [] else [""])
          ++ ["export default " ++ rc ++ ";"]) : Except String (List String))
            = .ok lines := h1
        rw [Except.ok.injEq] at h2
        refine ⟨decls, (if sortedDups.isEmpty then [] else [""])
          ++ ["export default " ++ rc ++ ";"], rfl, ?_⟩
        rw [← h2]
        simp [List.append_assoc]

/-- Witness for C8 at the root `\x7b"a": "hello", "b": "hello", "c": "hello"\x7d`
(the string `hello` is tabled). -/
theorem claim_C8_witness :
    wfV (Value.vobj [("a", .vstr "hello"), ("b", .vstr "hello"), ("c", .vstr "hello")])
      = true ∧
    (∀ (i j : Nat)
      (hi : i < (dedupStringsOf (traverse (Value.vobj [("a", .vstr "hello"),
        ("b", .vstr "hello"), ("c", .vstr "hello")])).stringRegistry).length)
      (hj : j < (dedupStringsOf (traverse (Value.vobj [("a", .vstr "hello"),
        ("b", .vstr "hello"), ("c", .vstr "hello")])).stringRegistry).length), i ≤ j →
      ((dedupStringsOf (traverse (Value.vobj [("a", .vstr "hello"),
        ("b", .vstr "hello"), ("c", .vstr "hello")])).stringRegistry).get ⟨j, hj⟩).count
        ≤ ((dedupStringsOf (traverse (Value.vobj [("a", .vstr "hello"),
        ("b", .vstr "hello"), ("c", .vstr "hello")])).stringRegistry).get ⟨i, hi⟩).count) :=
  ⟨by decide, (claim_C8 (Value.vobj [("a", .vstr "hello"), ("b", .vstr "hello"),
    ("c", .vstr "hello")]) (by decide)).2.1⟩


theorem forall₂_mem_left {α β : Type} {R : α → β → Prop} :
    ∀ {l₁ : List α} {l₂ : List β}, List.Forall₂ R l₁ l₂ → ∀ a ∈ l₁, ∃ b ∈ l₂, R a b := by
  intro l₁
  induction l₁ with
  | nil => intro l₂ _ a ha; cases ha
  | cons x t ih =>
    intro l₂ hfa a ha
    cases hfa with
    | cons hxy htail =>
      rcases List.mem_cons.mp ha with hax | hat
      · exact ⟨_, List.mem_cons_self _ _, hax ▸ hxy⟩
      · obtain ⟨b, hb, hr⟩ := ih htail a hat
        exact ⟨b, List.mem_cons_of_mem _ hb, hr⟩

theorem forall₂_keys {ws fs : List (String × Value)}
    (h : List.Forall₂ (fun pw pv => pw.1 = pv.1 ∧ deepEqual pw.2 pv.2 = true) ws fs) :
    ws.map Prod.fst = fs.map Prod.fst := by
  induction h with
  | nil => rfl
  | cons hxy _ ih =>
    rw [List.map_cons, List.map_cons, ih, hxy.1]

theorem deepEqual_varr {ws xs : List Value} (h : deepEqualList ws xs = true) :
    deepEqual (.varr ws) (.varr xs) = true := by
  rw [deepEqual.eq_def]
  by_cases hbe : beqV (.varr ws) (.varr xs) = true
  · rw [if_pos hbe]
  · rw [if_neg hbe]
    exact h

theorem deepEqual_vobj {ws fs : List (String × Value)} (hlen : ws.length = fs.length)
    (h : deepEqualFields ws fs = true) : deepEqual (.vobj ws) (.vobj fs) = true := by
  rw [deepEqual.eq_def]
  by_cases hbe : beqV (.vobj ws) (.vobj fs) = true
  · rw [if_pos hbe]
  · rw [if_neg hbe]
    rw [Bool.and_eq_true]
    exact ⟨by simpa using hlen, h⟩

theorem serializeExprElems_length (serializing : List Value) (v2h : List (Value × String))
    (reg : List (String × HashEntry)) (sreg : List (String × StringEntry)) :
    ∀ (xs : List Value) (es : List JExpr),
      serializeExprElems serializing v2h reg sreg xs = .ok es → es.length = xs.length := by
  intro xs
  induction xs with
  | nil =>
    intro es h
    have h' : (Except.ok [] : Except String (List JExpr)) = .ok es := h
    rw [Except.ok.injEq] at h'
    rw [← h']
    rfl
  | cons x t ih =>
    intro es h
    rw [serializeExprElems] at h
    cases hs : serializeExpr serializing v2h reg sreg x with
    | error e =>
      rw [hs] at h
      have h' : (Except.error e : Except String (List JExpr)) = .ok es := h
      cases h'
    | ok ex =>
      rw [hs] at h
      cases hm : serializeExprElems serializing v2h reg sreg t with
      | error e =>
        rw [hm] at h
        have h' : (Except.error e : Except String (List JExpr)) = .ok es := h
        cases h'
      | ok more =>
        rw [hm] at h
        have h' : (Except.ok (ex :: more) : Except String (List JExpr)) = .ok es := h
        rw [Except.ok.injEq] at h'
        rw [← h', List.length_cons, ih more hm]
        rfl

theorem serializeExprFields_length (serializing : List Value) (v2h : List (Value × String))
    (reg : List (String × HashEntry)) (sreg : List (String × StringEntry)) :
    ∀ (fs : List (String × Value)) (ps : List (String × JExpr)),
      serializeExprFields serializing v2h reg sreg fs = .ok ps → ps.length = fs.length := by
  intro fs
  induction fs with
  | nil =>
    intro ps h
    have h' : (Except.ok [] : Except String (List (String × JExpr))) = .ok ps := h
    rw [Except.ok.injEq] at h'
    rw [← h']
    rfl
  | cons p t ih =>
    intro ps h
    obtain ⟨k, v⟩ := p
    rw [serializeExprFields] at h
    cases hs : serializeExpr serializing v2h reg sreg v with
    | error e =>
      rw [hs] at h
      have h' : (Except.error e : Except String (List (String × JExpr))) = .ok ps := h
      cases h'
    | ok ex =>
      rw [hs] at h
      cases hm : serializeExprFields serializing v2h reg sreg t with
      | error e =>
        rw [hm] at h
        have h' : (Except.error e : Except String (List (String × JExpr))) = .ok ps := h
        cases h'
      | ok more =>
        rw [hm] at h
        have h' : (Except.ok ((k, ex) :: more) : Except String (List (String × JExpr)))
            = .ok ps := h
        rw [Except.ok.injEq] at h'
        rw [← h', List.length_cons, ih more hm]
        rfl




mutual
theorem serializeExpr_sound :
    ∀ (v2h : List (Value × String)) (reg : List (String × HashEntry))
      (sreg : List (String × StringEntry)) (env : String → Option Value) (table : List String)
      (href : ∀ (G : List Value) (v : Value), wfV v = true → ∀ name,
        refSub G v2h reg v = some name →
        ∃ u, env name = some u ∧ deepEqual u v = true ∧ wfV u = true)
      (hstr : ∀ s e, lookupStr s sreg = some e → e.index.isSome = true → 3 ≤ e.count →
        table.get? (e.index.getD 0) = some s)
      (v : Value) (G : List Value), wfV v = true → noOtherV v = true →
      ∃ ex, serializeExpr G v2h reg sreg v = .ok ex ∧
        ∃ w, evalExpr env table ex = some w ∧ deepEqual w v = true ∧ wfV w = true
  | v2h, reg, sreg, env, table, href, hstr, .vnull, G => fun _ _ =>
    ⟨.jnull, rfl, .vnull, rfl, deepEqual_refl _, rfl⟩
  | v2h, reg, sreg, env, table, href, hstr, .vundef, G => fun _ _ =>
    ⟨.jundef, rfl, .vundef, rfl, deepEqual_refl _, rfl⟩
  | v2h, reg, sreg, env, table, href, hstr, .vbool b, G => fun _ _ =>
    ⟨.jbool b, rfl, .vbool b, rfl, deepEqual_refl _, rfl⟩
  | v2h, reg, sreg, env, table, href, hstr, .vnum n, G => fun _ _ =>
    ⟨.jnum n, rfl, .vnum n, rfl, deepEqual_refl _, rfl⟩
  | v2h, reg, sreg, env, table, href, hstr, .vother tag, G => fun _ hno => by
    simp [noOtherV] at hno
  | v2h, reg, sreg, env, table, href, hstr, .vstr s, G => fun _ _ => by
    rw [serializeExpr]
    cases hl : lookupStr s sreg with
    | none => exact ⟨.jstr s, rfl, .vstr s, rfl, deepEqual_refl _, rfl⟩
    | some e =>
      show ∃ ex, (if e.index.isSome && decide (3 ≤ e.count)
          then (Except.ok (JExpr.jtbl (e.index.getD 0)) : Except String JExpr)
          else .ok (.jstr s)) = .ok ex ∧
        ∃ w, evalExpr env table ex = some w ∧ deepEqual w (.vstr s) = true ∧ wfV w = true
      cases hc : (e.index.isSome && decide (3 ≤ e.count)) with
      | false => exact ⟨.jstr s, rfl, .vstr s, rfl, deepEqual_refl _, rfl⟩
      | true =>
        rw [Bool.and_eq_true] at hc
        refine ⟨.jtbl (e.index.getD 0), rfl, .vstr s, ?_, deepEqual_refl _, rfl⟩
        show (table.get? (e.index.getD 0)).map Value.vstr = some (.vstr s)
        rw [hstr s e hl hc.1 (by simpa using hc.2)]
        rfl
  | v2h, reg, sreg, env, table, href, hstr, .varr xs, G => fun hwf hno => by
    rw [serializeExpr]
    cases hr : refSub G v2h reg (.varr xs) with
    | some name =>
      obtain ⟨u, hu, hde, hwu⟩ := href G (.varr xs) hwf name hr
      exact ⟨.jref name, rfl, u, hu, hde, hwu⟩
    | none =>
      have hwf' : wfVL xs = true := hwf
      have hno' : noOtherVL xs = true := hno
      obtain ⟨exs, hexs, ws, hws, hdl, hwl⟩ :=
        serializeExprElems_sound v2h reg sreg env table href hstr xs G hwf' hno'
      refine ⟨.jarr exs, ?_, .varr ws, ?_, deepEqual_varr hdl, ?_⟩
      · show (serializeExprElems G v2h reg sreg xs >>= fun elems =>
          (Except.ok (JExpr.jarr elems) : Except String JExpr)) = .ok (.jarr exs)
        rw [hexs]
        rfl
      · show (evalElems env table exs).map Value.varr = some (.varr ws)
        rw [hws]
        rfl
      · exact hwl
  | v2h, reg, sreg, env, table, href, hstr, .vobj fs, G => fun hwf hno => by
    rw [serializeExpr]
    cases hr : refSub G v2h reg (.vobj fs) with
    | some name =>
      obtain ⟨u, hu, hde, hwu⟩ := href G (.vobj fs) hwf name hr
      exact ⟨.jref name, rfl, u, hu, hde, hwu⟩
    | none =>
      have hwfo := wfV_vobj.mp hwf
      have hno' : noOtherVF fs = true := hno
      obtain ⟨pes, hpes, ws, hws, hfa, hwfF⟩ :=
        serializeExprFields_sound v2h reg sreg env table href hstr fs G hwfo.2 hno'
      have hkeys := forall₂_keys hfa
      have hlen : ws.length = fs.length := by
        have := congrArg List.length hkeys
        simpa using this
      refine ⟨.jobj pes, ?_, .vobj ws, ?_, ?_, ?_⟩
      · show (serializeExprFields G v2h reg sreg fs >>= fun pairs =>
          (Except.ok (JExpr.jobj pairs) : Except String JExpr)) = .ok (.jobj pes)
        rw [hpes]
        rfl
      · show (evalFields env table pes).map Value.vobj = some (.vobj ws)
        rw [hws]
        rfl
      · refine deepEqual_vobj hlen ?_
        rw [deepEqualFields_iff_forall]
        intro k w hmem
        obtain ⟨pv, hpv, hrel⟩ := forall₂_mem_left hfa (k, w) hmem
        refine ⟨pv.2, ?_, hrel.2⟩
        have hk : k = pv.1 := hrel.1
        rw [hk]
        exact lookupStr_of_mem_nodup (by rw [Prod.mk.eta]; exact hpv) hwfo.1
      · show wfV (.vobj ws) = true
        rw [wfV_vobj]
        exact ⟨by rw [hkeys]; exact hwfo.1, hwfF⟩

theorem serializeExprElems_sound :
    ∀ (v2h : List (Value × String)) (reg : List (String × HashEntry))
      (sreg : List (String × StringEntry)) (env : String → Option Value) (table : List String)
      (href : ∀ (G : List Value) (v : Value), wfV v = true → ∀ name,
        refSub G v2h reg v = some name →
        ∃ u, env name = some u ∧ deepEqual u v = true ∧ wfV u = true)
      (hstr : ∀ s e, lookupStr s sreg = some e → e.index.isSome = true → 3 ≤ e.count →
        table.get? (e.index.getD 0) = some s)
      (xs : List Value) (G : List Value), wfVL xs = true → noOtherVL xs = true →
      ∃ exs, serializeExprElems G v2h reg sreg xs = .ok exs ∧
        ∃ ws, evalElems env table exs = some ws ∧ deepEqualList ws xs = true ∧ wfVL ws = true
  | v2h, reg, sreg, env, table, href, hstr, [], G => fun _ _ => ⟨[], rfl, [], rfl, rfl, rfl⟩
  | v2h, reg, sreg, env, table, href, hstr, x :: xs, G => fun hwf hno => by
    have hwf1 : wfV x = true ∧ wfVL xs = true := by
      simpa using (show (wfV x && wfVL xs) = true from hwf)
    have hno1 : noOtherV x = true ∧ noOtherVL xs = true := by
      simpa using (show (noOtherV x && noOtherVL xs) = true from hno)
    obtain ⟨ex, hex, w, hw, hde, hww⟩ :=
      serializeExpr_sound v2h reg sreg env table href hstr x G hwf1.1 hno1.1
    obtain ⟨exs, hexs, ws, hws, hdl, hwl⟩ :=
      serializeExprElems_sound v2h reg sreg env table href hstr xs G hwf1.2 hno1.2
    refine ⟨ex :: exs, ?_, w :: ws, ?_, ?_, ?_⟩
    · show (serializeExpr G v2h reg sreg x >>= fun e =>
        serializeExprElems G v2h reg sreg xs >>= fun rest =>
          (Except.ok (e :: rest) : Except String (List JExpr))) = .ok (ex :: exs)
      rw [hex, hexs]
      rfl
    · show (evalExpr env table ex >>= fun v =>
        evalElems env table exs >>= fun rest =>
          (some (v :: rest) : Option (List Value))) = some (w :: ws)
      rw [hw, hws]
      rfl
    · show (deepEqual w x && deepEqualList ws xs) = true
      rw [hde, hdl]
      rfl
    · show (wfV w && wfVL ws) = true
      rw [hww, hwl]
      rfl

theorem serializeExprFields_sound :
    ∀ (v2h : List (Value × String)) (reg : List (String × HashEntry))
      (sreg : List (String × StringEntry)) (env : String → Option Value) (table : List String)
      (href : ∀ (G : List Value) (v : Value), wfV v = true → ∀ name,
        refSub G v2h reg v = some name →
        ∃ u, env name = some u ∧ deepEqual u v = true ∧ wfV u = true)
      (hstr : ∀ s e, lookupStr s sreg = some e → e.index.isSome = true → 3 ≤ e.count →
        table.get? (e.index.getD 0) = some s)
      (fs : List (String × Value)) (G : List Value), wfVF fs = true → noOtherVF fs = true →
      ∃ pes, serializeExprFields G v2h reg sreg fs = .ok pes ∧
        ∃ ws, evalFields env table pes = some ws ∧
          List.Forall₂ (fun pw pv => pw.1 = pv.1 ∧ deepEqual pw.2 pv.2 = true) ws fs ∧
          wfVF ws = true
  | v2h, reg, sreg, env, table, href, hstr, [], G => fun _ _ =>
    ⟨[], rfl, [], rfl, List.Forall₂.nil, rfl⟩
  | v2h, reg, sreg, env, table, href, hstr, (k, v) :: fs, G => fun hwf hno => by
    have hwf1 : wfV v = true ∧ wfVF fs = true := by
      simpa using (show (wfV v && wfVF fs) = true from hwf)
    have hno1 : noOtherV v = true ∧ noOtherVF fs = true := by
      simpa using (show (noOtherV v && noOtherVF fs) = true from hno)
    obtain ⟨ex, hex, w, hw, hde, hww⟩ :=
      serializeExpr_sound v2h reg sreg env table href hstr v G hwf1.1 hno1.1
    obtain ⟨pes, hpes, ws, hws, hfa, hwfF⟩ :=
      serializeExprFields_sound v2h reg sreg env table href hstr fs G hwf1.2 hno1.2
    refine ⟨(k, ex) :: pes, ?_, (k, w) :: ws, ?_, ?_, ?_⟩
    · show (serializeExpr G v2h reg sreg v >>= fun e =>
        serializeExprFields G v2h reg sreg fs >>= fun rest =>
          (Except.ok ((k, e) :: rest) : Except String (List (String × JExpr))))
          = .ok ((k, ex) :: pes)
      rw [hex, hpes]
      rfl
    · show (evalExpr env table ex >>= fun v₀ =>
        evalFields env table pes >>= fun rest =>
          (some ((k, v₀) :: rest) : Option (List (String × Value)))) = some ((k, w) :: ws)
      rw [hw, hws]
      rfl
    · exact List.Forall₂.cons ⟨rfl, hde⟩ hfa
    · show (wfV w && wfVF ws) = true
      rw [hww, hwfF]
      rfl
end


theorem refSub_inv {G : List Value} {v2h : List (Value × String)}
    {reg : List (String × HashEntry)} {v : Value} {name : String}
    (h : refSub G v2h reg v = some name) :
    ∃ hsh entry, lookupVal v v2h = some hsh ∧ lookupStr hsh reg = some entry ∧
      entry.refName = some name ∧ 3 ≤ entry.count := by
  rw [refSub] at h
  cases hv : lookupVal v v2h with
  | none => rw [hv] at h; simp at h
  | some hsh =>
    rw [hv] at h
    have h2 : (match lookupStr hsh reg with
        | none => none
        | some entry =>
          match entry.refName with
          | none => none
          | some nm =>
            if decide (3 ≤ entry.count) && !containsV G v then some nm else none)
        = some name := h
    cases he : lookupStr hsh reg with
    | none => rw [he] at h2; simp at h2
    | some entry =>
      rw [he] at h2
      have h3 : (match entry.refName with
          | none => none
          | some nm =>
            if decide (3 ≤ entry.count) && !containsV G v then some nm else none)
          = some name := h2
      cases hn : entry.refName with
      | none => rw [hn] at h3; simp at h3
      | some nm =>
        rw [hn] at h3
        have h4 : (if decide (3 ≤ entry.count) && !containsV G v then some nm else none)
            = some name := h3
        by_cases hc : (decide (3 ≤ entry.count) && !containsV G v) = true
        · rw [if_pos hc, Option.some.injEq] at h4
          subst h4
          have hcnt : 3 ≤ entry.count := by
            have hc' := hc
            simp only [Bool.and_eq_true, decide_eq_true_eq] at hc'
            exact hc'.1
          exact ⟨hsh, entry, rfl, he, hn, hcnt⟩
        · rw [if_neg hc] at h4
          cases h4

theorem table_lookup (root : Value) (hwf : wfV root = true) :
    ∀ s e, lookupStr s (assignStringIndexes (traverse root).stringRegistry) = some e →
      e.index.isSome = true → 3 ≤ e.count →
      ((dedupStringsOf (traverse root).stringRegistry).map (fun d => d.value)).get?
        (e.index.getD 0) = some s := by
  obtain ⟨hinv, _, _⟩ := traverse_spec root hwf
  intro s e hlook hsome _
  by_cases hemp : (dedupStringsOf (traverse root).stringRegistry).isEmpty = true
  · have hid : assignStringIndexes (traverse root).stringRegistry
        = (traverse root).stringRegistry := by
      unfold assignStringIndexes
      simp only
      rw [if_pos hemp]
    rw [hid] at hlook
    have hnone := (hinv.sregVal (s, e) (lookupStr_mem hlook)).2
    rw [hnone] at hsome
    cases hsome
  · rw [assignStringIndexes_lookup _ hemp] at hlook
    cases h0 : lookupStr s (traverse root).stringRegistry with
    | none =>
      rw [h0] at hlook
      cases hlook
    | some e₀ =>
      rw [h0] at hlook
      simp only [Option.map_some'] at hlook
      rw [Option.some.injEq] at hlook
      cases hfi : (dedupStringsOf (traverse root).stringRegistry).findIdx?
          (fun d : StringEntry => d.value == s) with
      | none =>
        rw [← hlook] at hsome
        have hsome' : ((dedupStringsOf (traverse root).stringRegistry).findIdx?
            (fun d : StringEntry => d.value == s)).isSome = true := hsome
        rw [hfi] at hsome'
        cases hsome'
      | some i =>
        have hgd : e.index.getD 0 = i := by
          rw [← hlook]
          show ((dedupStringsOf (traverse root).stringRegistry).findIdx?
            (fun d : StringEntry => d.value == s)).getD 0 = i
          rw [hfi]
          rfl
        rw [hgd]
        rw [List.findIdx?_eq_some_iff_findIdx_eq] at hfi
        obtain ⟨hilen, hfidx⟩ := hfi
        have hpred : ((dedupStringsOf (traverse root).stringRegistry).get
            ⟨i, hilen⟩).value = s := by
          subst hfidx
          have := List.findIdx_getElem (w := hilen)
          simpa using this
        have him : i < ((dedupStringsOf (traverse root).stringRegistry).map
            (fun d => d.value)).length := by
          simpa using hilen
        rw [List.get?_eq_getElem?, List.getElem?_eq_getElem him, Option.some.injEq,
          List.getElem_map]
        exact hpred

theorem zipWith_map_fst : ∀ (sorted : List (String × HashEntry)) (names : List String),
    names.length = sorted.length →
    (List.zipWith (fun p n => (p.1, { p.2 with refName := some n })) sorted names).map Prod.fst
      = sorted.map Prod.fst := by
  intro sorted
  induction sorted with
  | nil => intro names _; rfl
  | cons p rest ih =>
    intro names hlen
    cases names with
    | nil => simp at hlen
    | cons n ns =>
      simp only [List.zipWith_cons_cons, List.map_cons]
      rw [ih ns (by simpa using hlen)]

theorem sorted_keys_nodup (root : Value) (hwf : wfV root = true) :
    ((topologicalSort (analyzeDependencies (traverse root).hashRegistry
      (traverse root).valueToHash)).map Prod.fst).Nodup := by
  obtain ⟨hinv, _, _⟩ := traverse_spec root hwf
  rcases pipeline_sorted root hwf with hfall | ⟨c1, _, _⟩
  · rw [hfall]
    refine duplicatesOf_nodup ?_
    rw [analyzeDependencies_map_fst]
    exact hinv.reg.nodup
  · exact c1

theorem finalReg_keys_nodup (root : Value) (hwf : wfV root = true) :
    ((finalReg root).map Prod.fst).Nodup := by
  obtain ⟨hinv, _, _⟩ := traverse_spec root hwf
  unfold finalReg
  rw [applyRefNames_map_fst, analyzeDependencies_map_fst]
  exact hinv.reg.nodup

theorem envOf_resolve (root : Value) (hwf : wfV root = true) {k : String} {entry : HashEntry}
    {nm : String} (he : lookupStr k (finalReg root) = some entry)
    (hn : entry.refName = some nm) : envOf root nm = some entry.value := by
  have hndf := finalReg_keys_nodup root hwf
  have henv : envOf root nm = ((finalReg root).find?
      (fun p => p.2.refName == some nm)).map (fun p => p.2.value) := rfl
  cases hf : (finalReg root).find? (fun p => p.2.refName == some nm) with
  | none =>
    exfalso
    have hnp := List.find?_eq_none.mp hf (k, entry) (lookupStr_mem he)
    simp [hn] at hnp
  | some q =>
    have hq := List.mem_of_find?_eq_some hf
    have hqn : q.2.refName = some nm := by
      have := List.find?_some hf
      simpa using this
    have hlq : lookupStr q.1 (finalReg root) = some q.2 :=
      lookupStr_of_mem_nodup (by rw [Prod.mk.eta]; exact hq) hndf
    have hkq : q.1 = k := finalReg_names_inj root hwf q.1 q.2 k entry nm hlq he hqn hn
    rw [hkq, he] at hlq
    rw [Option.some.injEq] at hlq
    rw [henv, hf]
    simp only [Option.map_some']
    rw [← hlq]

theorem env_ref_sound (root : Value) (hwf : wfV root = true) :
    ∀ (G : List Value) (v : Value), wfV v = true → ∀ name,
      refSub G (traverse root).valueToHash (finalReg root) v = some name →
      ∃ u, envOf root name = some u ∧ deepEqual u v = true ∧ wfV u = true := by
  obtain ⟨hinv, _, _⟩ := traverse_spec root hwf
  intro G v _ name hr
  obtain ⟨hsh, entry, hv, he, hn, _⟩ := refSub_inv hr
  refine ⟨entry.value, envOf_resolve root hwf he hn, ?_, ?_⟩
  · obtain ⟨e₀, he₀, hval, _⟩ := finalReg_chase root hwf he
    obtain ⟨e₁, he₁, hde, _, _⟩ := hinv.v2h (v, hsh) (lookupVal_mem hv)
    have he₁' : lookupStr hsh (traverse root).hashRegistry = some e₁ := he₁
    rw [he₀] at he₁'
    rw [Option.some.injEq] at he₁'
    rw [hval, he₁']
    exact hde
  · obtain ⟨e₀, he₀, hval, _⟩ := finalReg_chase root hwf he
    have hg := (hinv.reg.good (hsh, e₀) (lookupStr_mem he₀)).1
    rw [hval]
    exact hg

theorem assigned_entry_facts (root : Value) (hwf : wfV root = true) :
    ∀ p ∈ assignRefNames (topologicalSort (analyzeDependencies
        (traverse root).hashRegistry (traverse root).valueToHash)),
      ∃ nm, p.2.refName = some nm ∧ lookupStr p.1 (finalReg root) = some p.2 ∧
        wfV p.2.value = true ∧
        (noOtherV root = true → noOtherV p.2.value = true) := by
  obtain ⟨hinv, hcnt, _⟩ := traverse_spec root hwf
  obtain ⟨names, hzip, hlen, _, _⟩ := assignNamesGo_spec (topologicalSort
    (analyzeDependencies (traverse root).hashRegistry (traverse root).valueToHash)) [] 0
  intro p hp
  have hzip' : assignRefNames (topologicalSort (analyzeDependencies
      (traverse root).hashRegistry (traverse root).valueToHash)) = List.zipWith
      (fun p n => (p.1, { p.2 with refName := some n }))
      (topologicalSort (analyzeDependencies (traverse root).hashRegistry
        (traverse root).valueToHash)) names := hzip
  have hmemz := hp
  rw [hzip'] at hmemz
  obtain ⟨i, hi, hj, hk1, hk2⟩ := zipWith_refName_mem hmemz
  have hsmem : (topologicalSort (analyzeDependencies (traverse root).hashRegistry
      (traverse root).valueToHash)).get ⟨i, hi⟩
      ∈ topologicalSort (analyzeDependencies (traverse root).hashRegistry
        (traverse root).valueToHash) := List.get_mem _ i hi
  obtain ⟨e₀, he₀, hval, hcount, hge⟩ := sorted_entry_source root hwf _ hsmem
  have hpval : p.2.value = e₀.value := by
    rw [hk2]
    exact hval
  refine ⟨names.get ⟨i, hj⟩, by rw [hk2], ?_, ?_, ?_⟩
  · -- the final registry holds exactly this entry at this key
    have hnds := sorted_keys_nodup root hwf
    have hnda : ((assignRefNames (topologicalSort (analyzeDependencies
        (traverse root).hashRegistry (traverse root).valueToHash))).map Prod.fst).Nodup := by
      rw [hzip', zipWith_map_fst _ _ hlen]
      exact hnds
    have hla : lookupStr p.1 (assignRefNames (topologicalSort (analyzeDependencies
        (traverse root).hashRegistry (traverse root).valueToHash))) = some p.2 :=
      lookupStr_of_mem_nodup (by rw [Prod.mk.eta]; exact hp) hnda
    have hsome : (lookupStr p.1 (analyzeDependencies (traverse root).hashRegistry
        (traverse root).valueToHash)).isSome = true := by
      rw [hk1, analyzeDependencies_lookup, he₀]
      rfl
    obtain ⟨e₁, he₁⟩ := Option.isSome_iff_exists.mp hsome
    show lookupStr p.1 (finalReg root) = some p.2
    unfold finalReg
    rw [applyRefNames_lookup, he₁]
    simp only [Option.map_some']
    rw [hla]
    rfl
  · rw [hpval]
    exact (hinv.reg.good (_, e₀) (lookupStr_mem he₀)).1
  · intro hno
    have hcc := hcnt _ e₀ he₀
    have hpos : 0 < (subcomposites root).countP (fun w => deepEqual e₀.value w) := by
      omega
    obtain ⟨w₀, hw₀, hpw⟩ := List.countP_pos_iff.mp hpos
    have hww : wfV w₀ = true := subcomposites_wf hwf hw₀
    have hnw : noOtherV w₀ = true := subcomposites_noOther hno hw₀
    rw [hpval]
    exact noOther_of_deepEqual (hinv.reg.good (_, e₀) (lookupStr_mem he₀)).1 hww
      (by simpa using hpw) hnw

theorem decl_env (root : Value) (hwf : wfV root = true) :
    ∀ p ∈ assignRefNames (topologicalSort (analyzeDependencies
        (traverse root).hashRegistry (traverse root).valueToHash)),
      ∃ nm, p.2.refName = some nm ∧ envOf root nm = some p.2.value ∧
        wfV p.2.value = true ∧
        (noOtherV root = true → noOtherV p.2.value = true) := by
  intro p hp
  obtain ⟨nm, hn, hl, hw, hno⟩ := assigned_entry_facts root hwf p hp
  exact ⟨nm, hn, envOf_resolve root hwf hl hn, hw, hno⟩

theorem declExprs_spec (v2h : List (Value × String)) (reg : List (String × HashEntry))
    (sreg : List (String × StringEntry)) (env : String → Option Value) (table : List String) :
    ∀ l : List (String × HashEntry),
      (∀ p ∈ l, ∃ ex, serializeExpr [p.2.value] v2h reg sreg p.2.value = .ok ex ∧
        ∃ w, evalExpr env table ex = some w ∧ deepEqual w p.2.value = true) →
      ∃ ds, declExprs v2h reg sreg l = .ok ds ∧
        List.Forall₂ (fun (pe : String × JExpr) (p : String × HashEntry) =>
          pe.1 = p.2.refName.getD "null" ∧
          ∃ w, evalExpr env table pe.2 = some w ∧ deepEqual w p.2.value = true) ds l := by
  intro l
  induction l with
  | nil => intro _; exact ⟨[], rfl, List.Forall₂.nil⟩
  | cons p rest ih =>
    intro hall
    obtain ⟨ex, hex, w, hw, hde⟩ := hall p (List.mem_cons_self _ _)
    obtain ⟨ds, hds, hfa⟩ := ih (fun q hq => hall q (List.mem_cons_of_mem _ hq))
    refine ⟨(p.2.refName.getD "null", ex) :: ds, ?_, ?_⟩
    · show (serializeExpr [p.2.value] v2h reg sreg p.2.value >>= fun code =>
        declExprs v2h reg sreg rest >>= fun more =>
          (Except.ok ((p.2.refName.getD "null", code) :: more)
            : Except String (List (String × JExpr))))
        = .ok ((p.2.refName.getD "null", ex) :: ds)
      rw [hex, hds]
      rfl
    · exact List.Forall₂.cons ⟨rfl, w, hw, hde⟩ hfa

mutual
theorem serializeValue_print :
    ∀ (G : List Value) (v2h : List (Value × String)) (reg : List (String × HashEntry))
      (sreg : List (String × StringEntry)) (v : Value),
      serializeValue G v2h reg sreg v = (serializeExpr G v2h reg sreg v).map printExpr
  | G, v2h, reg, sreg, .vnull => rfl
  | G, v2h, reg, sreg, .vundef => rfl
  | G, v2h, reg, sreg, .vbool b => rfl
  | G, v2h, reg, sreg, .vnum n => rfl
  | G, v2h, reg, sreg, .vother tag => rfl
  | G, v2h, reg, sreg, .vstr s => by
    rw [serializeValue, serializeExpr]
    cases hl : lookupStr s sreg with
    | none => rfl
    | some e =>
      show (if e.index.isSome && decide (3 ≤ e.count)
          then (Except.ok ("_s[" ++ decStr (e.index.getD 0) ++ "]") : Except String String)
          else .ok (jsonQuote s))
        = (if e.index.isSome && decide (3 ≤ e.count)
          then (Except.ok (JExpr.jtbl (e.index.getD 0)) : Except String JExpr)
          else .ok (.jstr s)).map printExpr
      cases hc : (e.index.isSome && decide (3 ≤ e.count)) with
      | true => rfl
      | false => rfl
  | G, v2h, reg, sreg, .varr xs => by
    rw [serializeValue, serializeExpr]
    cases hr : refSub G v2h reg (.varr xs) with
    | some name => rfl
    | none =>
      cases xs with
      | nil => rfl
      | cons y ys =>
        show (serializeElems G v2h reg sreg (y :: ys) >>= fun elems =>
            (Except.ok ("[" ++ String.intercalate ", " elems ++ "]") : Except String String))
          = ((serializeExprElems G v2h reg sreg (y :: ys) >>= fun elems =>
            (Except.ok (JExpr.jarr elems) : Except String JExpr)).map printExpr)
        rw [serializeElems_print G v2h reg sreg (y :: ys)]
        cases hse : serializeExprElems G v2h reg sreg (y :: ys) with
        | error e => rfl
        | ok es =>
          have hlen := serializeExprElems_length G v2h reg sreg (y :: ys) es hse
          cases es with
          | nil => simp at hlen
          | cons f fs => rfl
  | G, v2h, reg, sreg, .vobj fs => by
    rw [serializeValue, serializeExpr]
    cases hr : refSub G v2h reg (.vobj fs) with
    | some name => rfl
    | none =>
      cases fs with
      | nil => rfl
      | cons q qs =>
        show (serializeFields G v2h reg sreg (q :: qs) >>= fun pairs =>
            (Except.ok ("\x7b" ++ String.intercalate ", " pairs ++ "\x7d")
              : Except String String))
          = ((serializeExprFields G v2h reg sreg (q :: qs) >>= fun pairs =>
            (Except.ok (JExpr.jobj pairs) : Except String JExpr)).map printExpr)
        rw [serializeFields_print G v2h reg sreg (q :: qs)]
        cases hse : serializeExprFields G v2h reg sreg (q :: qs) with
        | error e => rfl
        | ok ps =>
          have hlen := serializeExprFields_length G v2h reg sreg (q :: qs) ps hse
          cases ps with
          | nil => simp at hlen
          | cons f gs => rfl

theorem serializeElems_print :
    ∀ (G : List Value) (v2h : List (Value × String)) (reg : List (String × HashEntry))
      (sreg : List (String × StringEntry)) (xs : List Value),
      serializeElems G v2h reg sreg xs
        = (serializeExprElems G v2h reg sreg xs).map printElems
  | G, v2h, reg, sreg, [] => rfl
  | G, v2h, reg, sreg, x :: xs => by
    show (serializeValue G v2h reg sreg x >>= fun s =>
        serializeElems G v2h reg sreg xs >>= fun rest =>
          (Except.ok (s :: rest) : Except String (List String)))
      = ((serializeExpr G v2h reg sreg x >>= fun e =>
        serializeExprElems G v2h reg sreg xs >>= fun rest =>
          (Except.ok (e :: rest) : Except String (List JExpr))).map printElems)
    rw [serializeValue_print G v2h reg sreg x, serializeElems_print G v2h reg sreg xs]
    cases hx : serializeExpr G v2h reg sreg x with
    | error e => rfl
    | ok ex =>
      cases hxs : serializeExprElems G v2h reg sreg xs with
      | error e => rfl
      | ok exs => rfl

theorem serializeFields_print :
    ∀ (G : List Value) (v2h : List (Value × String)) (reg : List (String × HashEntry))
      (sreg : List (String × StringEntry)) (fs : List (String × Value)),
      serializeFields G v2h reg sreg fs
        = (serializeExprFields G v2h reg sreg fs).map printFields
  | G, v2h, reg, sreg, [] => rfl
  | G, v2h, reg, sreg, (k, v) :: fs => by
    show (serializeValue G v2h reg sreg v >>= fun sv =>
        serializeFields G v2h reg sreg fs >>= fun rest =>
          (Except.ok (((if isIdentKey k then k else jsonQuote k) ++ ": " ++ sv) :: rest)
            : Except String (List String)))
      = ((serializeExpr G v2h reg sreg v >>= fun e =>
        serializeExprFields G v2h reg sreg fs >>= fun rest =>
          (Except.ok ((k, e) :: rest) : Except String (List (String × JExpr)))).map
            printFields)
    rw [serializeValue_print G v2h reg sreg v, serializeFields_print G v2h reg sreg fs]
    cases hx : serializeExpr G v2h reg sreg v with
    | error e => rfl
    | ok ex =>
      cases hxs : serializeExprFields G v2h reg sreg fs with
      | error e => rfl
      | ok exs => rfl
end

theorem declLines_print (v2h : List (Value × String)) (reg : List (String × HashEntry))
    (sreg : List (String × StringEntry)) :
    ∀ l : List (String × HashEntry),
      declLines v2h reg sreg l = (declExprs v2h reg sreg l).map
        (fun ds => ds.map (fun pe => "const " ++ pe.1 ++ " = " ++ printExpr pe.2 ++ ";")) := by
  intro l
  induction l with
  | nil => rfl
  | cons p rest ih =>
    show (serializeValue [p.2.value] v2h reg sreg p.2.value >>= fun code =>
        declLines v2h reg sreg rest >>= fun more =>
          (Except.ok (("const " ++ p.2.refName.getD "null" ++ " = " ++ code ++ ";") :: more)
            : Except String (List String)))
      = ((serializeExpr [p.2.value] v2h reg sreg p.2.value >>= fun code =>
        declExprs v2h reg sreg rest >>= fun more =>
          (Except.ok ((p.2.refName.getD "null", code) :: more)
            : Except String (List (String × JExpr)))).map
        (fun ds => ds.map (fun pe => "const " ++ pe.1 ++ " = " ++ printExpr pe.2 ++ ";")))
    rw [serializeValue_print, ih]
    cases hx : serializeExpr [p.2.value] v2h reg sreg p.2.value with
    | error e => rfl
    | ok ex =>
      cases hr : declExprs v2h reg sreg rest with
      | error e => rfl
      | ok more => rfl

/-- **C1.** Round trip of the emitted module: the expression-level pipeline
succeeds, its rendering is exactly the module text `dedupRoot` emits, each
emitted `const` declaration evaluates (under the substitution environment and
the emitted string table) to the value its name resolves to, and evaluating
the root expression yields a value deep-equal to the original input — for
arbitrary nesting depth and arbitrary duplicate patterns. -/
theorem claim_C1 (root : Value) (hwf : wfV root = true) (hno : noOtherV root = true) :
    ∃ ast : ModuleAst, moduleAstOf root = .ok ast ∧
      dedupRoot root = .ok (String.intercalate "\n"
        (["// Auto-generated deduplicated module",
          "// Strings and objects extracted for memory efficiency", ""]
         ++ tableLines (dedupStringsOf (traverse root).stringRegistry)
         ++ ast.decls.map (fun pe => "const " ++ pe.1 ++ " = " ++ printExpr pe.2 ++ ";")
         ++ (if ast.decls.isEmpty then [] else [""])
         ++ ["export default " ++ printExpr ast.root ++ ";"])) ∧
      ast.table = (dedupStringsOf (traverse root).stringRegistry).map (fun e => e.value) ∧
      (∀ pe ∈ ast.decls, ∃ u w, envOf root pe.1 = some u ∧
        evalExpr (envOf root) ast.table pe.2 = some w ∧ deepEqual w u = true) ∧
      (∃ w, evalExpr (envOf root) ast.table ast.root = some w ∧ deepEqual w root = true) := by
  have hdecl_all : ∀ p ∈ assignRefNames (topologicalSort (analyzeDependencies
      (traverse root).hashRegistry (traverse root).valueToHash)),
      ∃ ex, serializeExpr [p.2.value] (traverse root).valueToHash (finalReg root)
          (assignStringIndexes (traverse root).stringRegistry) p.2.value = .ok ex ∧
        ∃ w, evalExpr (envOf root) ((dedupStringsOf (traverse root).stringRegistry).map
          (fun e => e.value)) ex = some w ∧ deepEqual w p.2.value = true := by
    intro p hp
    obtain ⟨nm, hn, henv, hwv, hnov⟩ := decl_env root hwf p hp
    obtain ⟨ex, hex, w, hw, hde, hww⟩ := serializeExpr_sound (traverse root).valueToHash
      (finalReg root) (assignStringIndexes (traverse root).stringRegistry) (envOf root)
      ((dedupStringsOf (traverse root).stringRegistry).map (fun e => e.value))
      (env_ref_sound root hwf) (table_lookup root hwf) p.2.value [p.2.value] hwv (hnov hno)
    exact ⟨ex, hex, w, hw, hde⟩
  obtain ⟨ds, hds, hfa⟩ := declExprs_spec (traverse root).valueToHash (finalReg root)
    (assignStringIndexes (traverse root).stringRegistry) (envOf root)
    ((dedupStringsOf (traverse root).stringRegistry).map (fun e => e.value))
    (assignRefNames (topologicalSort (analyzeDependencies (traverse root).hashRegistry
      (traverse root).valueToHash))) hdecl_all
  obtain ⟨re, hre, wroot, hwroot, hderoot, hwfroot⟩ := serializeExpr_sound
    (traverse root).valueToHash (finalReg root)
    (assignStringIndexes (traverse root).stringRegistry) (envOf root)
    ((dedupStringsOf (traverse root).stringRegistry).map (fun e => e.value))
    (env_ref_sound root hwf) (table_lookup root hwf) root [] hwf hno
  refine ⟨⟨(dedupStringsOf (traverse root).stringRegistry).map (fun e => e.value), ds, re⟩,
    ?_, ?_, rfl, ?_, ?_⟩
  · show (declExprs (traverse root).valueToHash (finalReg root)
        (assignStringIndexes (traverse root).stringRegistry)
        (assignRefNames (topologicalSort (analyzeDependencies (traverse root).hashRegistry
          (traverse root).valueToHash))) >>= fun decls =>
      serializeExpr [] (traverse root).valueToHash (finalReg root)
        (assignStringIndexes (traverse root).stringRegistry) root >>= fun rootExpr =>
      (Except.ok (ModuleAst.mk ((dedupStringsOf (traverse root).stringRegistry).map
        (fun e => e.value)) decls rootExpr) : Except String ModuleAst))
      = .ok (ModuleAst.mk ((dedupStringsOf (traverse root).stringRegistry).map
        (fun e => e.value)) ds re)
    rw [hds, hre]
    rfl
  · have hdl : declLines (traverse root).valueToHash (finalReg root)
        (assignStringIndexes (traverse root).stringRegistry)
        (assignRefNames (topologicalSort (analyzeDependencies (traverse root).hashRegistry
          (traverse root).valueToHash)))
        = .ok (ds.map (fun pe => "const " ++ pe.1 ++ " = " ++ printExpr pe.2 ++ ";")) := by
      rw [declLines_print, hds]
      rfl
    have hsv : serializeValue [] (traverse root).valueToHash (finalReg root)
        (assignStringIndexes (traverse root).stringRegistry) root = .ok (printExpr re) := by
      rw [serializeValue_print, hre]
      rfl
    have hlen : ds.length = (assignRefNames (topologicalSort (analyzeDependencies
        (traverse root).hashRegistry (traverse root).valueToHash))).length := hfa.length_eq
    have hemp : (assignRefNames (topologicalSort (analyzeDependencies
        (traverse root).hashRegistry (traverse root).valueToHash))).isEmpty = ds.isEmpty := by
      cases hA : assignRefNames (topologicalSort (analyzeDependencies
          (traverse root).hashRegistry (traverse root).valueToHash)) with
      | nil =>
        cases hD : ds with
        | nil => rfl
        | cons d tl =>
          rw [hA, hD] at hlen
          simp at hlen
      | cons a as =>
        cases hD : ds with
        | nil =>
          rw [hA, hD] at hlen
          simp at hlen
        | cons d tl => rfl
    have hgen : genLines root (traverse root).valueToHash (finalReg root)
        (assignRefNames (topologicalSort (analyzeDependencies (traverse root).hashRegistry
          (traverse root).valueToHash))) (traverse root).stringRegistry
        = .ok (["// Auto-generated deduplicated module",
            "// Strings and objects extracted for memory efficiency", ""]
          ++ tableLines (dedupStringsOf (traverse root).stringRegistry)
          ++ ds.map (fun pe => "const " ++ pe.1 ++ " = " ++ printExpr pe.2 ++ ";")
          ++ (if (assignRefNames (topologicalSort (analyzeDependencies
              (traverse root).hashRegistry (traverse root).valueToHash))).isEmpty
            then [] else [""])
          ++ ["export default " ++ printExpr re ++ ";"]) := by
      show (declLines (traverse root).valueToHash (finalReg root)
          (assignStringIndexes (traverse root).stringRegistry)
          (assignRefNames (topologicalSort (analyzeDependencies (traverse root).hashRegistry
            (traverse root).valueToHash))) >>= fun decls =>
        serializeValue [] (traverse root).valueToHash (finalReg root)
          (assignStringIndexes (traverse root).stringRegistry) root >>= fun rootCode =>
        (Except.ok (["// Auto-generated deduplicated module",
            "// Strings and objects extracted for memory efficiency", ""]
          ++ tableLines (dedupStringsOf (traverse root).stringRegistry) ++ decls
          ++ (if (assignRefNames (topologicalSort (analyzeDependencies
              (traverse root).hashRegistry (traverse root).valueToHash))).isEmpty
            then [] else [""])
          ++ ["export default " ++ rootCode ++ ";"]) : Except String (List String))) = _
      rw [hdl, hsv]
      rfl
    have hdr : dedupRoot root = (genLines root (traverse root).valueToHash (finalReg root)
        (assignRefNames (topologicalSort (analyzeDependencies (traverse root).hashRegistry
          (traverse root).valueToHash))) (traverse root).stringRegistry).map
        (String.intercalate "\n") := rfl
    rw [hdr, hgen, hemp]
    rfl
  · intro pe hpe
    have hpe' : pe ∈ ds := hpe
    obtain ⟨p, hp, hrel⟩ := forall₂_mem_left hfa pe hpe'
    obtain ⟨nm, hn, henv, _, _⟩ := decl_env root hwf p hp
    have hname : pe.1 = nm := by
      rw [hrel.1, hn]
      rfl
    obtain ⟨w, hw, hde⟩ := hrel.2
    refine ⟨p.2.value, w, ?_, hw, hde⟩
    rw [hname]
    exact henv
  · exact ⟨wroot, hwroot, hderoot⟩

/-- Concrete instance of the round-trip theorem: a root object holding three
deep-equal one-element arrays, with both hypotheses discharged by computation. -/
theorem claim_C1_witness :
    wfV (Value.vobj [("a", Value.varr [Value.vnum 1]), ("b", Value.varr [Value.vnum 1]),
      ("c", Value.varr [Value.vnum 1])]) = true ∧
    noOtherV (Value.vobj [("a", Value.varr [Value.vnum 1]), ("b", Value.varr [Value.vnum 1]),
      ("c", Value.varr [Value.vnum 1])]) = true ∧
    (∃ ast : ModuleAst, moduleAstOf (Value.vobj [("a", Value.varr [Value.vnum 1]), ("b", Value.varr [Value.vnum 1]),
      ("c", Value.varr [Value.vnum 1])]) = .ok ast ∧
      dedupRoot (Value.vobj [("a", Value.varr [Value.vnum 1]), ("b", Value.varr [Value.vnum 1]),
      ("c", Value.varr [Value.vnum 1])]) = .ok (String.intercalate "\n"
        (["// Auto-generated deduplicated module",
          "// Strings and objects extracted for memory efficiency", ""]
         ++ tableLines (dedupStringsOf (traverse (Value.vobj [("a", Value.varr [Value.vnum 1]), ("b", Value.varr [Value.vnum 1]),
      ("c", Value.varr [Value.vnum 1])])).stringRegistry)
         ++ ast.decls.map (fun pe => "const " ++ pe.1 ++ " = " ++ printExpr pe.2 ++ ";")
         ++ (if ast.decls.isEmpty then [] else [""])
         ++ ["export default " ++ printExpr ast.root ++ ";"])) ∧
      ast.table = (dedupStringsOf (traverse (Value.vobj [("a", Value.varr [Value.vnum 1]), ("b", Value.varr [Value.vnum 1]),
      ("c", Value.varr [Value.vnum 1])])).stringRegistry).map (fun e => e.value) ∧
      (∀ pe ∈ ast.decls, ∃ u w, envOf (Value.vobj [("a", Value.varr [Value.vnum 1]), ("b", Value.varr [Value.vnum 1]),
      ("c", Value.varr [Value.vnum 1])]) pe.1 = some u ∧
        evalExpr (envOf (Value.vobj [("a", Value.varr [Value.vnum 1]), ("b", Value.varr [Value.vnum 1]),
      ("c", Value.varr [Value.vnum 1])])) ast.table pe.2 = some w ∧ deepEqual w u = true) ∧
      (∃ w, evalExpr (envOf (Value.vobj [("a", Value.varr [Value.vnum 1]), ("b", Value.varr [Value.vnum 1]),
      ("c", Value.varr [Value.vnum 1])])) ast.table ast.root = some w ∧ deepEqual w (Value.vobj [("a", Value.varr [Value.vnum 1]), ("b", Value.varr [Value.vnum 1]),
      ("c", Value.varr [Value.vnum 1])]) = true)) :=
  ⟨by decide, by decide, claim_C1 _ (by decide) (by decide)⟩
